import Mathlib

/-!
Verification development for the co-noir-spartan repository.

The development shallowly embeds the Rust sources:
* `spartan/src/zk.rs` — the hiding multilinear polynomial commitment
  (mask polynomial generator, the specialized mask commitment scheme
  `SpecMultiCommit`, the hiding scheme `ZKMLCommit`, and the
  zero-knowledge sumcheck verifier wrapper);
* `noir-r1cs/src/sparse_matrix.rs` — the CSR sparse-matrix container.

Group elements of the pairing groups G1, G2, GT are represented by their
discrete logarithms with respect to fixed abstract generators, so each
group becomes the additive group of the scalar field `F`, scalar
multiplication becomes field multiplication, and the bilinear pairing
becomes field multiplication.  This model is exact for prime-order groups
with a non-degenerate pairing.  Randomness sources (`RngCore`) are
modelled as streams `ℕ → F` of sampled field elements, consumed in the
order the source samples them.

Multivariate sparse polynomials (`ark_poly::multivariate::SparsePolynomial`
with `SparseTerm`) are represented as term lists
`List (F × List (ℕ × ℕ))`: a coefficient together with a list of
(variable, power) pairs.  The arkworks constructor
`SparsePolynomial::from_coefficients_vec` sorts the term list, merges
duplicate terms and drops zero coefficients; all of these preserve the
represented polynomial and every per-term structural invariant used
below, and none of the embedded algorithms depends on them (each
processes terms independently and linearly), so it is modelled as the
identity on term lists.
-/

/-! ## Generic small helpers -/

/-- Fuel-driven floor base-2 logarithm (the fuel makes it structurally
recursive, hence kernel-reducible; with fuel at least `n` it agrees with
the usual `Nat.log2`). -/
def log2fuel : ℕ → ℕ → ℕ
  | 0, _ => 0
  | f + 1, n => if n ≥ 2 then log2fuel f (n / 2) + 1 else 0

/-- Floor base-2 logarithm, the model of `ark_std::log2`-style length
logarithms (only applied to powers of two in this development). -/
def log2c (n : ℕ) : ℕ := log2fuel n n

/-! ## Part A: the CSR sparse matrix of `noir-r1cs/src/sparse_matrix.rs`

`InternedFieldElement` is an opaque interner handle; the container never
inspects it, so it is modelled by an arbitrary type `V`. -/

/-- The CSR sparse matrix of `sparse_matrix.rs`: row start offsets,
column indices and values. -/
structure SparseMatrix (V : Type) where
  rows : ℕ
  cols : ℕ
  row_indices : List ℕ
  col_indices : List ℕ
  values : List V
  deriving DecidableEq

/-- Model of `SparseMatrix::new`. -/
def SparseMatrix.new (V : Type) (rows cols : ℕ) : SparseMatrix V :=
  { rows := rows
    cols := cols
    row_indices := List.replicate rows 0
    col_indices := []
    values := [] }

/-- Model of `SparseMatrix::num_entries`. -/
def SparseMatrix.num_entries {V : Type} (m : SparseMatrix V) : ℕ :=
  m.values.length

/-- Model of `SparseMatrix::grow` (the source asserts `rows >= self.rows`
and `cols >= self.cols`; under those preconditions `Vec::resize` only
extends, which is what the take-and-pad below computes). -/
def SparseMatrix.grow {V : Type} (m : SparseMatrix V) (rows cols : ℕ) :
    SparseMatrix V :=
  { m with
    rows := rows
    cols := cols
    row_indices := m.row_indices.take rows ++
      List.replicate (rows - m.row_indices.length) m.values.length }

/-- Start of the half-open index range of a row
(`row_indices.get(row)`; callers keep `row` in bounds). -/
def SparseMatrix.rowStart {V : Type} (m : SparseMatrix V) (row : ℕ) : ℕ :=
  m.row_indices.getD row 0

/-- End of the half-open index range of a row
(`row_indices.get(row + 1)` defaulting to `values.len()`), together with
`rowStart` this is the model of `SparseMatrix::row_range`. -/
def SparseMatrix.rowEnd {V : Type} (m : SparseMatrix V) (row : ℕ) : ℕ :=
  m.row_indices.getD (row + 1) m.values.length

/-- The column-index slice `col_indices[row_range]` of a row. -/
def SparseMatrix.colsOfRow {V : Type} (m : SparseMatrix V) (row : ℕ) :
    List ℕ :=
  (m.col_indices.drop (m.rowStart row)).take (m.rowEnd row - m.rowStart row)

/-- The value slice `values[row_range]` of a row. -/
def SparseMatrix.valsOfRow {V : Type} (m : SparseMatrix V) (row : ℕ) :
    List V :=
  (m.values.drop (m.rowStart row)).take (m.rowEnd row - m.rowStart row)

/-- Model of `slice::binary_search` returning `Ok i` when the key sits at
index `i` and `Err i` with the insertion point otherwise.  The standard
library's binary search has exactly this contract on sorted slices (the
only slices it is applied to here); it is modelled by the equivalent
linear scan. -/
def bsearch (c : ℕ) : List ℕ → ℕ ⊕ ℕ
  | [] => Sum.inr 0
  | x :: xs =>
    if x < c then
      match bsearch c xs with
      | Sum.inl i => Sum.inl (i + 1)
      | Sum.inr i => Sum.inr (i + 1)
    else if x = c then Sum.inl 0
    else Sum.inr 0

/-- Model of `SparseMatrix::set` (the source asserts `row < rows` and
`col < cols` first; theorems below carry those as hypotheses). -/
def SparseMatrix.set {V : Type} (m : SparseMatrix V) (row col : ℕ)
    (value : V) : SparseMatrix V :=
  let s := m.rowStart row
  match bsearch col (m.colsOfRow row) with
  | Sum.inl i =>
    { m with values := m.values.set (s + i) value }
  | Sum.inr i =>
    let j := i + s
    { m with
      col_indices := m.col_indices.insertIdx j col
      values := m.values.insertIdx j value
      row_indices := m.row_indices.take (row + 1) ++
        (m.row_indices.drop (row + 1)).map (· + 1) }

/-- Model of `SparseMatrix::iter_row`. -/
def SparseMatrix.iter_row {V : Type} (m : SparseMatrix V) (row : ℕ) :
    List (ℕ × V) :=
  (m.colsOfRow row).zip (m.valsOfRow row)

/-- The value stored at position (row, col), if any, read off
`iter_row`. -/
def SparseMatrix.getEntry {V : Type} (m : SparseMatrix V) (row col : ℕ) :
    Option V :=
  ((m.iter_row row).find? (fun p => p.1 == col)).map (fun p => p.2)

/-- Well-formedness of the CSR representation: `row_indices` has one
start offset per row, column indices and values line up, offsets are
monotone and bounded by the number of stored values, and each row's
column slice is strictly increasing.  `new` establishes it and `grow`
and `set` preserve it. -/
def SparseMatrix.WF {V : Type} (m : SparseMatrix V) : Prop :=
  m.row_indices.length = m.rows ∧
  m.col_indices.length = m.values.length ∧
  m.row_indices.Sorted (· ≤ ·) ∧
  (∀ x ∈ m.row_indices, x ≤ m.values.length) ∧
  (∀ r, r < m.rows → (m.colsOfRow r).Sorted (· < ·))

/-! ## Part B: sparse multivariate polynomial terms and the mask
polynomial generator of `spartan/src/zk.rs` -/

/-- Merging of adjacent equal-variable entries by adding powers, the
dedup step of `SparseTerm::new`.  The fold from the right collapses every
maximal run of equal variables into one summed entry, exactly as the
left-to-right scan of the source does. -/
def mergeAdj : List (ℕ × ℕ) → List (ℕ × ℕ)
  | [] => []
  | p :: rest =>
    match mergeAdj rest with
    | [] => [p]
    | q :: qs => if p.1 = q.1 then (p.1, p.2 + q.2) :: qs else p :: q :: qs

/-- Model of `SparseTerm::new`: drop zero powers, sort by variable
(stably, like `sort_by`), merge duplicates. -/
def term_new (l : List (ℕ × ℕ)) : List (ℕ × ℕ) :=
  mergeAdj (List.insertionSort (fun p q => p.1 ≤ q.1)
    (l.filter (fun p => p.2 != 0)))

/-- Model of `SparsePolynomial::evaluate`: sum over terms of the
coefficient times the monomial value. -/
def sparse_evaluate {F : Type} [Field F] (p : List (F × List (ℕ × ℕ)))
    (z : ℕ → F) : F :=
  (p.map (fun t => t.1 * (t.2.map (fun ve => z ve.1 ^ ve.2)).prod)).sum

/-- The per-variable lists of sampled coefficients of
`generate_mask_polynomial`: the randomness stream supplies the
coefficient for variable `var` and degree `i` at position
`var * (deg + 1) + i`, matching the sampling order of the source. -/
def mask_coeff_lists {F : Type} [Field F] (mask_rng : ℕ → F)
    (num_variables deg : ℕ) : List (List F) :=
  (List.range num_variables).map (fun var =>
    (List.range (deg + 1)).map (fun i => mask_rng (var * (deg + 1) + i)))

/-- The running total `sum_g` of the source: per variable, twice the
constant coefficient plus the remaining coefficients. -/
def mask_sum_g {F : Type} [Field F] (mps : List (List F)) : F :=
  (mps.map (fun mp => mp.getD 0 0 + mp.getD 0 0 + (mp.drop 1).sum)).sum

/-- The `sum_to_zero` adjustment: subtract `sum_g / 2` from coefficient
`[0][0]`. -/
def mask_adjust {F : Type} [Field F] (sum_to_zero : Bool) (s : F)
    (mps : List (List F)) : List (List F) :=
  if sum_to_zero then
    match mps with
    | [] => []
    | mp :: rest =>
      (match mp with
       | [] => []
       | c0 :: cs => (c0 - s / 2) :: cs) :: rest
  else mps

/-- Flattening the per-variable univariate coefficient lists into the
term list `(coef, SparseTerm::new [(var, degree)])`. -/
def mask_terms {F : Type} [Field F] (mps : List (List F)) :
    List (F × List (ℕ × ℕ)) :=
  (mps.enum.map (fun ve =>
    ve.2.enum.map (fun dc => (dc.2, term_new [(ve.1, dc.1)])))).flatten

/-- Model of `generate_mask_polynomial` (zk.rs lines 59-91): sample the
per-variable univariate coefficient lists, accumulate `sum_g`, adjust the
first constant coefficient when `sum_to_zero` is set, and flatten into a
term list.  `from_coefficients_vec` is modelled as the identity on the
term list (see the module docstring). -/
def generate_mask_polynomial {F : Type} [Field F] (mask_rng : ℕ → F)
    (num_variables deg : ℕ) (sum_to_zero : Bool) :
    List (F × List (ℕ × ℕ)) :=
  mask_terms (mask_adjust sum_to_zero
    (mask_sum_g (mask_coeff_lists mask_rng num_variables deg))
    (mask_coeff_lists mask_rng num_variables deg))

/-- The exact sum of a sparse polynomial over all `2 ^ k` points of the
Boolean hypercube, point `m` having coordinate `v` equal to bit `v` of
`m`. -/
def hypercube_sum {F : Type} [Field F] (k : ℕ)
    (p : List (F × List (ℕ × ℕ))) : F :=
  ((List.range (2 ^ k)).map (fun m =>
    sparse_evaluate p (fun v => if Nat.testBit m v then 1 else 0))).sum

/-! ## Part C: multivariate division at a point
(`SpecMultiCommit::divide_at_point`, zk.rs lines 100-148) -/

/-- The in-place update `term_vec[idx] = (i, e2)` of the source; the
variables of a normalized term are distinct, so updating by variable
matches updating at the found index. -/
def setPow (tv : List (ℕ × ℕ)) (i e2 : ℕ) : List (ℕ × ℕ) :=
  tv.map (fun p => if p.1 = i then (i, e2) else p)

/-- The `term_vec.remove(idx)` of the source, removing the entry of
variable `i` (position-preserving since variables are distinct). -/
def tvErase (tv : List (ℕ × ℕ)) (i : ℕ) : List (ℕ × ℕ) :=
  tv.filter (fun p => p.1 != i)

/-- The while loop of `divide_at_point` for one term: while the power of
`X_i` exceeds 1, decrement it, push the current (coefficient, term) to
the quotient and fold `coeff := coeff * point_i`.  Returns the pushed
quotient terms and the final coefficient. -/
def stripVar {F : Type} [Field F] (i : ℕ) (zi : F) (tv : List (ℕ × ℕ)) :
    F → ℕ → List (F × List (ℕ × ℕ)) × F
  | c, 0 => ([], c)
  | c, 1 => ([], c)
  | c, e + 2 =>
    let rest := stripVar i zi tv (c * zi) (e + 1)
    ((c, term_new (setPow tv i (e + 1))) :: rest.1, rest.2)

/-- One term of the current dividend processed by the division round for
variable `i`: constant terms are skipped, terms without `X_i` go to the
remainder unchanged (the `Err` branch of the binary search), and terms
with `X_i` are divided by `X_i - z_i` (the `Ok` branch).  Returns the
(quotient, remainder) contributions of the term. -/
def divideTermStep {F : Type} [Field F] (i : ℕ) (zi : F) (c : F)
    (tv : List (ℕ × ℕ)) :
    List (F × List (ℕ × ℕ)) × List (F × List (ℕ × ℕ)) :=
  if tv = [] then ([], [])
  else
    match tv.find? (fun p => p.1 == i) with
    | none => ([], [(c, tv)])
    | some pe =>
      let s := stripVar i zi tv c pe.2
      (s.1 ++ [(s.2, term_new (tvErase tv i))],
       [(zi * s.2, term_new (tvErase tv i))])

/-- One full round of `divide_at_point` for variable `i`: quotient and
remainder term lists accumulated over the current dividend in term
order. -/
def divStep {F : Type} [Field F] (i : ℕ) (zi : F)
    (cur : List (F × List (ℕ × ℕ))) :
    List (F × List (ℕ × ℕ)) × List (F × List (ℕ × ℕ)) :=
  ((cur.map (fun t => (divideTermStep i zi t.1 t.2).1)).flatten,
   (cur.map (fun t => (divideTermStep i zi t.1 t.2).2)).flatten)

/-- The main loop of `divide_at_point`, returning the per-variable
quotients and the final remainder (the source discards the latter). -/
def divideLoopFull {F : Type} [Field F] (z : ℕ → F) :
    List (F × List (ℕ × ℕ)) → ℕ → ℕ →
      List (List (F × List (ℕ × ℕ))) × List (F × List (ℕ × ℕ))
  | cur, _, 0 => ([], cur)
  | cur, i, k + 1 =>
    let qr := divStep i (z i) cur
    let rest := divideLoopFull z qr.2 (i + 1) k
    (qr.1 :: rest.1, rest.2)

/-- Model of `SpecMultiCommit::divide_at_point`.  The zero polynomial is
the empty term list in the normalized arkworks representation. -/
def divide_at_point {F : Type} [Field F] [DecidableEq F] (num_vars : ℕ)
    (p : List (F × List (ℕ × ℕ))) (z : ℕ → F) :
    List (List (F × List (ℕ × ℕ))) :=
  if p = [] then List.replicate num_vars []
  else (divideLoopFull z p 0 num_vars).1

/-- The semantic reading of a term list as a Mathlib multivariate
polynomial: monomial of one term. -/
noncomputable def toMvT {F : Type} [Field F] (tv : List (ℕ × ℕ)) :
    MvPolynomial ℕ F :=
  (tv.map (fun ve => MvPolynomial.X ve.1 ^ ve.2)).prod

/-- The semantic reading of a term list as a Mathlib multivariate
polynomial. -/
noncomputable def toMv {F : Type} [Field F] (p : List (F × List (ℕ × ℕ))) :
    MvPolynomial ℕ F :=
  (p.map (fun t => MvPolynomial.C t.1 * toMvT t.2)).sum

/-- Well-formedness of a normalized `SparseTerm`: variables strictly
increasing (sorted and distinct) and powers positive, the invariant
`SparseTerm::new` establishes. -/
def TermBasicWF (tv : List (ℕ × ℕ)) : Prop :=
  tv.Pairwise (fun a b => a.1 < b.1) ∧ ∀ ve ∈ tv, 1 ≤ ve.2

/-- Well-formedness of a normalized sparse polynomial over `num_vars`
variables. -/
def PolyWF {F : Type} (num_vars : ℕ) (p : List (F × List (ℕ × ℕ))) : Prop :=
  ∀ t ∈ p, TermBasicWF t.2 ∧ ∀ ve ∈ t.2, ve.1 < num_vars

/-- Lower bound on all variables of a dividend, the loop invariant of
`divide_at_point` (variables below `i` have been eliminated). -/
def VarsGE {F : Type} (i : ℕ) (p : List (F × List (ℕ × ℕ))) : Prop :=
  ∀ t ∈ p, ∀ ve ∈ t.2, i ≤ ve.1

/-- The field with 101 elements, used for all concrete witnesses and
counterexamples. -/
instance fact_prime_101 : Fact (Nat.Prime 101) := ⟨by norm_num⟩


/-! ## Part D: the specialized mask commitment scheme (mask-PC)
(`SpecMultiCommit`, zk.rs lines 157-367)

Group elements of `G1`, `G2` and `GT` are represented by their discrete
logarithms with respect to fixed abstract generators (see the module
docstring): scalar multiplication becomes field multiplication, group
addition becomes field addition and a pairing multiplies the two
logarithms. -/

/-- The error type of arkworks `ark_poly_commit::Error` restricted to the
constructors this code can produce. -/
inductive ArkError where
  | invalidNumberOfVariables : ArkError
  | degreeIsZero : ArkError
  | trimmingDegreeTooLarge : ArkError
deriving DecidableEq

/-- The panic message produced by calling `unwrap` on the corresponding
error value. -/
def arkErrorMessage : ArkError → String
  | .invalidNumberOfVariables =>
    "called Result::unwrap on an Err value: InvalidNumberOfVariables"
  | .degreeIsZero => "called Result::unwrap on an Err value: DegreeIsZero"
  | .trimmingDegreeTooLarge =>
    "called Result::unwrap on an Err value: TrimmingDegreeTooLarge"

/-- Universal parameters of the mask-PC (`MaskParam`).  The `BTreeMap`
`powers_of_g` is modelled as an association list in construction order
(the map is only ever read through key lookups, so iteration order is
irrelevant to the semantics); `prepared_h` and `prepared_beta_h` are
pairing-engine re-encodings of `h` and `beta_h` and carry no extra
data. -/
structure MaskParam (F : Type) where
  num_vars : ℕ
  max_degree : ℕ
  powers_of_g : List (List (ℕ × ℕ) × F)
  gamma_g : F
  powers_of_gamma_g : List (List F)
  h : F
  beta_h : List F
deriving DecidableEq

/-- Committer key of the mask-PC (arkworks `marlin_pst13_pc`
`CommitterKey`, the fields this code uses). -/
structure MaskCommitterKey (F : Type) where
  powers_of_g : List (List (ℕ × ℕ) × F)
  gamma_g : F
  powers_of_gamma_g : List (List F)
  num_vars : ℕ
deriving DecidableEq

/-- Verifier key of the mask-PC (arkworks `marlin_pst13_pc`
`VerifierKey`, the fields this code uses). -/
structure MaskVerifierKey (F : Type) where
  g : F
  gamma_g : F
  h : F
  beta_h : List F
  num_vars : ℕ
deriving DecidableEq

/-- The monomial table of `special_setup_with_beta`: for every degree
`1 ≤ d ≤ max_degree` and variable `var < num_vars` the entry maps the
normalized term `SparseTerm::new [(var, d)]` (built in the source as the
multiset count vector of `vec![var; d]`) to the generator scaled by the
monomial value `betas[var]^d`; the constant term is pushed last, mapped
to the bare generator. -/
def maskTable {F : Type} [Field F] (g : F) (betas : ℕ → F)
    (num_vars max_degree : ℕ) : List (List (ℕ × ℕ) × F) :=
  ((List.range' 1 max_degree).flatMap fun d =>
    (List.range num_vars).map fun var =>
      (term_new ((List.range num_vars).map fun v =>
        (v, if v = var then d else 0)), g * betas var ^ d)) ++
    [(term_new [], g)]

/-- Model of `SpecMultiCommit::special_setup_with_beta` (zk.rs lines
183-281).  The randomness stream supplies `g`, `gamma_g` and `h` in
sampling order. -/
def special_setup_with_beta {F : Type} [Field F] (max_degree : ℕ)
    (num_vars : Option ℕ) (rng : ℕ → F) (betas : ℕ → F) :
    Except ArkError (MaskParam F) :=
  match num_vars with
  | none => .error .invalidNumberOfVariables
  | some nv =>
    if nv < 1 then .error .invalidNumberOfVariables
    else if max_degree < 1 then .error .degreeIsZero
    else
      let g := rng 0
      let gamma_g := rng 1
      let h := rng 2
      .ok { num_vars := nv
            max_degree := max_degree
            powers_of_g := maskTable g betas nv max_degree
            gamma_g := gamma_g
            powers_of_gamma_g := (List.range nv).map fun i =>
              (List.range (max_degree + 1)).map fun j =>
                gamma_g * betas i ^ (j + 1)
            h := h
            beta_h := (List.range nv).map fun i => h * betas i }

/-- Model of `SpecMultiCommit::special_setup` (zk.rs lines 157-181): the
trapdoor scalars `betas` are sampled first (positions `0..num_vars-1` of
the stream), then the body of `special_setup_with_beta` consumes the
rest of the stream. -/
def special_setup {F : Type} [Field F] (max_degree : ℕ)
    (num_vars : Option ℕ) (rng : ℕ → F) : Except ArkError (MaskParam F) :=
  match num_vars with
  | none => .error .invalidNumberOfVariables
  | some nv =>
    if nv < 1 then .error .invalidNumberOfVariables
    else if max_degree < 1 then .error .degreeIsZero
    else
      special_setup_with_beta max_degree (some nv)
        (fun k => rng (nv + k)) (fun i => rng i)

/-- Key lookup in the association-list model of the `BTreeMap`. -/
def tlookup {F : Type} (tbl : List (List (ℕ × ℕ) × F))
    (k : List (ℕ × ℕ)) : Option F :=
  (tbl.find? (fun kv => kv.1 == k)).map (fun kv => kv.2)

/-- Total degree of a normalized term (`SparseTerm::degree`). -/
def termDegree (tv : List (ℕ × ℕ)) : ℕ :=
  (tv.map (fun ve => ve.2)).sum

/-- Modelled from the spec: `MarlinPST13::trim` (external arkworks code,
not in this repository) scopes the universal parameters to a supported
degree, per the spec a committer/verifier key pair is "slices of the SRS
scoped to a target (num_vars, degree)": it fails with
`TrimmingDegreeTooLarge` when the supported degree exceeds the maximum,
keeps the monomial-table entries of total degree at most the supported
degree, truncates each per-variable hiding table to
`supported_hiding_bound + 1` entries, and exposes the constant entry of
the monomial table as the verifier generator (the source indexes the map
at the empty term, which is present by construction). -/
def pst_trim {F : Type} [Field F] (pp : MaskParam F)
    (supported_degree supported_hiding : ℕ) :
    Except ArkError (MaskCommitterKey F × MaskVerifierKey F) :=
  if pp.max_degree < supported_degree then .error .trimmingDegreeTooLarge
  else
    .ok ({ powers_of_g := pp.powers_of_g.filter
             (fun kv => decide (termDegree kv.1 ≤ supported_degree))
           gamma_g := pp.gamma_g
           powers_of_gamma_g := pp.powers_of_gamma_g.map
             (fun e => e.take (supported_hiding + 1))
           num_vars := pp.num_vars },
         { g := (tlookup pp.powers_of_g (term_new [])).getD 0
           gamma_g := pp.gamma_g
           h := pp.h
           beta_h := pp.beta_h
           num_vars := pp.num_vars })

/-- Model of `SpecMultiCommit::special_open` (zk.rs lines 283-367): for
each per-variable quotient of `divide_at_point`, the proof element is
the multi-scalar multiplication of the quotient coefficients against
the monomial-table entries of the quotient terms.  The source indexes
the polynomial's own `num_vars`, passed explicitly here, and unwraps
each table lookup (the keys are present for every polynomial of the
mask shape; a missing key is modelled by the `getD 0` default). -/
def special_open {F : Type} [Field F] [DecidableEq F]
    (ck : MaskCommitterKey F) (p : List (F × List (ℕ × ℕ)))
    (num_vars : ℕ) (point : ℕ → F) : List F :=
  (divide_at_point num_vars p point).map fun w =>
    (w.map fun t => (tlookup ck.powers_of_g t.2).getD 0 * t.1).sum

/-! ## Part E: the hiding multilinear commitment (ZKML)
(`ZKMLCommit`, zk.rs lines 474-705) -/

/-- Result of a Rust function that can panic: either the value or the
panic message. -/
inductive Res (α : Type) where
  | ok : α → Res α
  | panicked : String → Res α
deriving DecidableEq

/-- Model of `eq_extension` (zk.rs lines 724-745): the i-th table has,
at index `x`, the value `ti_xi + ti_xi - xi - ti + 1` where `xi` is bit
`i` of `x` and `ti_xi` is `ti` when that bit is set and zero
otherwise. -/
def eqExtension {F : Type} [Field F] (t : ℕ → F) (dim : ℕ) :
    List (List F) :=
  (List.range dim).map fun i =>
    (List.range (2 ^ dim)).map fun x =>
      (if Nat.testBit x i then t i else 0) +
        (if Nat.testBit x i then t i else 0) -
        (if Nat.testBit x i then 1 else 0) - t i + 1

/-- Model of `remove_dummy_variable` (zk.rs lines 709-719): fix the
first `pad` variables of an evaluation table to zero.  The source
panics when the length is not a power of two; the pipeline only calls
it on power-of-two tables, where `log2c` is the exact logarithm. -/
def remove_dummy_variable {F : Type} [Field F] (poly : List F)
    (pad : ℕ) : List F :=
  if pad = 0 then poly
  else (List.range (2 ^ (log2c poly.length - pad))).map fun x =>
    poly.getD (x <<< pad) 0

/-- The running product `base` of the `ZKMLCommit::setup` loop after
`k` multiplications: the last equality-extension table multiplied
pointwise by the next lower tables, one per loop iteration. -/
def baseFrom {F : Type} [Field F] (t : ℕ → F) (nv : ℕ) : ℕ → List F
  | 0 => (eqExtension t nv).getD (nv - 1) []
  | k + 1 => List.zipWith (fun a b => a * b) (baseFrom t nv k)
      ((eqExtension t nv).getD (nv - 1 - (k + 1)) [])

/-- The list `eq_arr` built front-to-back by the setup loop: entry `i`
is `remove_dummy_variable` applied to the product of the tables
`i..nv-1` with pad `i`. -/
def setup_eq_arr {F : Type} [Field F] (t : ℕ → F) (nv : ℕ) :
    List (List F) :=
  (List.range nv).map fun i =>
    remove_dummy_variable (baseFrom t nv (nv - 1 - i)) i

/-- Universal base-scheme parameters (`MLPCParam`, the fields this code
uses). -/
structure MLPCParam (F : Type) where
  num_vars : ℕ
  g : F
  h_mask : List F
  h : F
  powers_of_g : List (List F)
  powers_of_h : List (List F)
deriving DecidableEq

/-- Committer key of the base scheme (`MLCommitterKey`). -/
structure MLCommitterKey (F : Type) where
  powers_of_h : List (List F)
  powers_of_g : List (List F)
  g : F
  h : F
  nv : ℕ
deriving DecidableEq

/-- Verifier key of the base scheme (`MLVerifierKey`). -/
structure MLVerifierKey (F : Type) where
  nv : ℕ
  g : F
  h : F
  h_mask_random : List F
deriving DecidableEq

/-- A base-scheme commitment (`MLCommitment`). -/
structure MLCommitment (F : Type) where
  g_product : F
  nv : ℕ
deriving DecidableEq

/-- Model of `ZKMLCommit::setup` (zk.rs lines 474-546).  The assertion
`num_vars > 0` and the `unwrap` of the inner mask setup are panics,
modelled by `Res.panicked`.  Randomness order: `g`, `h`, the `num_vars`
trapdoor scalars `t`, then the stream tail is consumed by
`special_setup_with_beta` (which reuses `t` as the betas).  The slices
`powers_of_g[i]`/`powers_of_h[i]` scale generator `g` resp. `h` by the
entries of `eq_arr[i]`, and `h_mask` scales `h` by the trapdoors. -/
def zkml_setup {F : Type} [Field F] (num_vars hiding_bound : ℕ)
    (rng : ℕ → F) : Res (MLPCParam F × MaskParam F) :=
  if num_vars = 0 then .panicked "constant polynomial not supported"
  else
    let g := rng 0
    let h := rng 1
    let t : ℕ → F := fun i => rng (2 + i)
    let eqarr := setup_eq_arr t num_vars
    match special_setup_with_beta hiding_bound (some num_vars)
        (fun k => rng (2 + num_vars + k)) t with
    | .error e => .panicked (arkErrorMessage e)
    | .ok mp =>
      .ok ({ num_vars := num_vars
             g := g
             h_mask := (List.range num_vars).map fun i => h * t i
             h := h
             powers_of_g := (List.range num_vars).map fun i =>
               (List.range (2 ^ (num_vars - i))).map fun x =>
                 g * (eqarr.getD i []).getD x 0
             powers_of_h := (List.range num_vars).map fun i =>
               (List.range (2 ^ (num_vars - i))).map fun x =>
                 h * (eqarr.getD i []).getD x 0 }, mp)

/-- Model of `ZKMLCommit::trim` (zk.rs lines 548-584): drop the leading
`to_reduce` slices of the base tables, trim the mask parameters through
`MarlinPST13::trim` (whose `unwrap` is a panic), and filter/re-index
the mask monomial table: keep constant keys and keys whose (single)
variable is at least `to_reduce`, shifting retained variables down by
`to_reduce`. -/
def zkml_trim {F : Type} [Field F] [DecidableEq F]
    (param : MLPCParam F × MaskParam F)
    (num_variables deg_for_mask : ℕ) :
    Res ((MLCommitterKey F × MaskCommitterKey F) ×
      (MLVerifierKey F × MaskVerifierKey F)) :=
  let to_reduce := param.1.num_vars - num_variables
  match pst_trim param.2 deg_for_mask 0 with
  | .error e => .panicked (arkErrorMessage e)
  | .ok ckvk2 =>
    .ok (({ powers_of_h := param.1.powers_of_h.drop to_reduce
            powers_of_g := param.1.powers_of_g.drop to_reduce
            g := param.1.g
            h := param.1.h
            nv := num_variables },
          { ckvk2.1 with
            powers_of_g := (ckvk2.1.powers_of_g.filter (fun kv =>
                kv.1.isEmpty ||
                  decide (to_reduce ≤
                    ((kv.1.map (fun ve => ve.1)).headD 0)))).map
              (fun kv => if kv.1.isEmpty then kv
                else (term_new [((kv.1.map (fun ve => ve.1)).headD 0 -
                    to_reduce,
                  (kv.1.map (fun ve => ve.2)).headD 0)], kv.2)) }),
         ({ nv := num_variables
            g := param.1.g
            h := param.1.h
            h_mask_random := param.1.h_mask.drop to_reduce },
          ckvk2.2))

/-- Multi-scalar multiplication in the discrete-logarithm model: the
sum of pairwise products (`msm_bigint`; the zip stops at the shorter
list, as the arkworks routine requires equal lengths). -/
def msmList {F : Type} [Field F] (gs xs : List F) : F :=
  (List.zipWith (fun g x => g * x) gs xs).sum

/-- Model of `ZKMLCommit::commit_mask` (zk.rs lines 586-603): the
labeled mask polynomial is constructed with hiding bound `None` (the
`Some(hiding_bound)` argument of `LabeledPolynomial::new` is the degree
bound), so the external `MarlinPST13::commit` adds no blinding term and
the commitment is the multi-scalar multiplication of the coefficients
against the monomial-table entries of the terms. -/
def commit_mask {F : Type} [Field F] (ck : MaskCommitterKey F)
    (p : List (F × List (ℕ × ℕ))) : F :=
  (p.map fun t => (tlookup ck.powers_of_g t.2).getD 0 * t.1).sum

/-- Model of `ZKMLCommit::commit` (zk.rs lines 604-628): generate a
fresh mask (`sum_to_zero = false`) over `mask_num_var` variables (the
polynomial's own count when absent), commit to it through the mask-PC,
commit to the evaluation table through the base scheme (external
`MultilinearPC::commit`: the multi-scalar multiplication of the
evaluations against the first power table), and publish the group sum.
The evaluation table `e` and its variable count `nv` stand for the
`MultilinearExtension` argument. -/
def zkml_commit {F : Type} [Field F]
    (ck : MLCommitterKey F × MaskCommitterKey F) (e : List F) (nv : ℕ)
    (hiding_bound : ℕ) (mask_num_var : Option ℕ) (rng : ℕ → F) :
    MLCommitment F × List (F × List (ℕ × ℕ)) :=
  let p_hat := generate_mask_polynomial rng (mask_num_var.getD nv)
    hiding_bound false
  let hiding_commitment := commit_mask ck.2 p_hat
  let base_commitment := msmList (ck.1.powers_of_g.getD 0 []) e
  ({ g_product := base_commitment + hiding_commitment, nv := nv }, p_hat)

/-- One folding layer of the external `MultilinearPC::open` recursion:
`r[k-1][b] = r[k][2b] * (1 - z_i) + r[k][2b+1] * z_i`. -/
def fixLow {F : Type} [Field F] (zi : F) : List F → List F
  | [] => []
  | [_] => []
  | a :: b :: rest => (a * (1 - zi) + b * zi) :: fixLow zi rest

/-- One quotient layer of the external `MultilinearPC::open` recursion:
`q[k][b] = r[k][2b+1] - r[k][2b]`. -/
def qLayer {F : Type} [Field F] : List F → List F
  | [] => []
  | [_] => []
  | a :: b :: rest => (b - a) :: qLayer rest

/-- The scalar expansion `(0..2^k).map(|x| q[x >> 1])` of
`MultilinearPC::open`: each quotient entry duplicated. -/
def dup2 {F : Type} : List F → List F
  | [] => []
  | a :: rest => a :: a :: dup2 rest

/-- Modelled from the spec: the loop of the external
`MultilinearPC::open` (arkworks `multilinear_pc`, not in this
repository); per the spec the base scheme produces one quotient
commitment per variable.  Round `i` commits the quotient layer of the
current evaluation table against power table `i` and folds the table
with the point coordinate. -/
def ml_open_loop {F : Type} [Field F] (z : ℕ → F)
    (gtabs : List (List F)) : ℕ → ℕ → List F → List F
  | _, 0, _ => []
  | i, k + 1, r =>
    msmList (gtabs.getD i []) (dup2 (qLayer r)) ::
      ml_open_loop z gtabs (i + 1) k (fixLow (z i) r)

/-- Modelled from the spec: the external `MultilinearPC::open` on an
evaluation table of `ck.nv` variables. -/
def ml_open {F : Type} [Field F] (ck : MLCommitterKey F) (e : List F)
    (z : ℕ → F) : List F :=
  ml_open_loop z ck.powers_of_g 0 ck.nv e

/-- The multilinear-extension evaluation fold from variable `i`, the
recurrence the external `MultilinearPC::open` and
`DenseMultilinearExtension::evaluate` share. -/
def mleEvalFrom {F : Type} [Field F] (z : ℕ → F) : ℕ → ℕ → List F → F
  | _, 0, r => r.getD 0 0
  | i, k + 1, r => mleEvalFrom z (i + 1) k (fixLow (z i) r)

/-- Evaluation of the multilinear extension of table `e` over `n`
variables at `z`. -/
def mleEval {F : Type} [Field F] (z : ℕ → F) (n : ℕ) (e : List F) : F :=
  mleEvalFrom z 0 n e

/-- Model of `ZKMLCommit::open_mask` (zk.rs lines 629-646): the mask-PC
opening proof together with the mask polynomial's own evaluation at the
point. -/
def open_mask {F : Type} [Field F] [DecidableEq F]
    (ck : MaskCommitterKey F) (p : List (F × List (ℕ × ℕ)))
    (num_vars : ℕ) (point : ℕ → F) : List F × F :=
  (special_open ck p num_vars point, sparse_evaluate p point)

/-- Model of `ZKMLCommit::open` (zk.rs lines 647-670): the element-wise
group sum of the base proof and the mask proof, paired with the scalar
returned by `open_mask`. -/
def zkml_open {F : Type} [Field F] [DecidableEq F]
    (ck : MLCommitterKey F × MaskCommitterKey F) (e : List F)
    (p_hat : List (F × List (ℕ × ℕ))) (mask_nv : ℕ) (point : ℕ → F) :
    List F × F :=
  let base_proof := ml_open ck.1 e point
  let hm := open_mask ck.2 p_hat mask_nv point
  (List.zipWith (fun a b => a + b) base_proof hm.1, hm.2)

/-- Model of `ZKMLCommit::check` (zk.rs lines 671-705) in the
discrete-logarithm model: the left pairing subtracts both the claimed
value (scaled by the base generator) and the proof scalar (scaled by
the mask generator) from the commitment; the right side is the
multi-pairing of the proof elements against `h_mask_random[i] - z_i h`.
The source indexes `h_mask_random` for `i < nv` (`getD` here) and the
multi-pairing consumes the lists pairwise. -/
def zkml_check {F : Type} [Field F] [DecidableEq F]
    (vk : MLVerifierKey F × MaskVerifierKey F)
    (commitment : MLCommitment F) (point : ℕ → F) (value : F)
    (pf : List F × F) : Bool :=
  let left := (commitment.g_product - vk.1.g * value - vk.2.g * pf.2) *
    vk.1.h
  let rights := (List.range vk.1.nv).map fun i =>
    vk.1.h_mask_random.getD i 0 - vk.1.h * point i
  let right := (List.zipWith (fun l r => l * r) pf.1 rights).sum
  decide (left = right)

/-! ## Part F: the zero-knowledge sumcheck verifier wrapper
(`zk_sumcheck_verifier_wrapper`, zk.rs lines 757-798) -/

/-- The subclaim returned by the external sumcheck round verifier. -/
structure SubClaimM (F : Type) where
  point : List F
  expected_evaluation : F
deriving DecidableEq

/-- The three failure modes of the wrapper, mirroring the three
`anyhow` exits of the source: a context-wrapped round-verification
error, a context-wrapped error from the mask-opening check call, and
the explicit rejection when that check returns false. -/
inductive WrapErr where
  | roundError : String → WrapErr
  | maskCheckError : String → WrapErr
  | maskRejected : WrapErr
deriving DecidableEq

/-- Model of `zk_sumcheck_verifier_wrapper` (zk.rs lines 757-798).  The
transcript operations and the two external verifiers are parameters:
`verify_zk` is `MLSumcheck::verify_as_subprotocol_zk` applied to the
transcript state after the commitment is absorbed and the challenge is
drawn (the challenge is its argument), and `pst_check` is
`MarlinPST13::check` on the subclaim point.  The source maps a round
error through `context(...)?`, maps a check error likewise, and turns a
false check flag into its own failure. -/
def zk_sumcheck_verifier_wrapper {F : Type}
    (verify_zk : F → Except String (SubClaimM F))
    (pst_check : SubClaimM F → Except String Bool) (challenge : F) :
    Except WrapErr (SubClaimM F) :=
  match verify_zk challenge with
  | .error e => .error (.roundError e)
  | .ok subclaim =>
    match pst_check subclaim with
    | .error e => .error (.maskCheckError e)
    | .ok flag =>
      if flag then .ok subclaim else .error .maskRejected


/-! ## Semantic helpers and concrete instances for the pipeline
theorems -/

/-- The equality-extension factor for one variable: `t` when the bit is
set, `1 - t` otherwise (the closed form of the table formula of
`eq_extension`). -/
def eqf {F : Type} [Field F] (ti : F) (b : Bool) : F :=
  if b then ti else 1 - ti

/-- The tensor equality table over variables `i..i+k-1`: the product of
the per-variable factors at the bits of the index `x`. -/
def eqTab {F : Type} [Field F] (t : ℕ → F) (i k : ℕ) (x : ℕ) : F :=
  ((List.range k).map fun m => eqf (t (i + m)) (Nat.testBit x m)).prod

/-- A power-table slice in the discrete-logarithm model: the generator
scaled by the equality table. -/
def eqSlice {F : Type} [Field F] (g : F) (t : ℕ → F) (i k : ℕ) :
    List F :=
  (List.range (2 ^ k)).map fun x => g * eqTab t i k x

/-- The weighted sum of an evaluation table against the equality table,
i.e. the multilinear extension of `r` (over variables `i..i+k-1`)
evaluated at the trapdoors. -/
def wSum {F : Type} [Field F] (t : ℕ → F) (i k : ℕ) (r : List F) : F :=
  ((List.range (2 ^ k)).map fun x => r.getD x 0 * eqTab t i k x).sum

/-- The discrete logarithm of a multi-pairing: the sum of pairwise
products of the two lists. -/
def pairSum {F : Type} [Field F] (ps ws : List F) : F :=
  (List.zipWith (fun a b => a * b) ps ws).sum

/-- The shape invariant of mask polynomials and their division
quotients and remainders: every term is constant or a single variable
below `nv` raised to a power between 1 and `maxd`. -/
def MaskShape {F : Type} (nv maxd : ℕ)
    (p : List (F × List (ℕ × ℕ))) : Prop :=
  ∀ t ∈ p, t.2 = [] ∨ ∃ v d, v < nv ∧ 1 ≤ d ∧ d ≤ maxd ∧ t.2 = [(v, d)]

/-- Extract the value of a non-panicking computation, with a default
for the panicking case. -/
def resGetD {α : Type} (r : Res α) (d : α) : α :=
  match r with
  | .ok a => a
  | .panicked _ => d

/-- Concrete randomness stream for the setup of the concrete pipeline
instance. -/
def rngC : ℕ → ZMod 101 := fun k => (k : ZMod 101) + 2

/-- Concrete randomness stream for the mask generation of the concrete
pipeline instance. -/
def maskRngC : ℕ → ZMod 101 := fun k => (k : ZMod 101) + 7

/-- Concrete evaluation table (one variable). -/
def eC : List (ZMod 101) := [3, 5]

/-- Concrete evaluation point. -/
def zC : ℕ → ZMod 101 := fun _ => 2

/-- Concrete universal parameters: setup with one variable and hiding
bound one. -/
def setupC : Res (MLPCParam (ZMod 101) × MaskParam (ZMod 101)) :=
  zkml_setup 1 1 rngC

/-- Fallback base parameters (unused: the concrete setup succeeds). -/
def mlpcDefaultC : MLPCParam (ZMod 101) :=
  { num_vars := 0
    g := 0
    h_mask := []
    h := 0
    powers_of_g := []
    powers_of_h := [] }

/-- Fallback mask parameters (unused: the concrete setup succeeds). -/
def maskDefaultC : MaskParam (ZMod 101) :=
  { num_vars := 0
    max_degree := 0
    powers_of_g := []
    gamma_g := 0
    powers_of_gamma_g := []
    h := 0
    beta_h := [] }

/-- The concrete universal parameter pair. -/
def paramC : MLPCParam (ZMod 101) × MaskParam (ZMod 101) :=
  resGetD setupC (mlpcDefaultC, maskDefaultC)

/-- Concrete trim of the universal parameters to one variable, mask
degree one. -/
def trimC : Res ((MLCommitterKey (ZMod 101) × MaskCommitterKey (ZMod 101)) ×
    (MLVerifierKey (ZMod 101) × MaskVerifierKey (ZMod 101))) :=
  zkml_trim paramC 1 1

/-- Fallback key pair (unused: the concrete trim succeeds). -/
def keysDefaultC : (MLCommitterKey (ZMod 101) × MaskCommitterKey (ZMod 101)) ×
    (MLVerifierKey (ZMod 101) × MaskVerifierKey (ZMod 101)) :=
  (({ powers_of_h := []
      powers_of_g := []
      g := 0
      h := 0
      nv := 0 },
    { powers_of_g := []
      gamma_g := 0
      powers_of_gamma_g := []
      num_vars := 0 }),
   ({ nv := 0
      g := 0
      h := 0
      h_mask_random := [] },
    { g := 0
      gamma_g := 0
      h := 0
      beta_h := []
      num_vars := 0 }))

/-- The concrete committer key pair. -/
def ckC : MLCommitterKey (ZMod 101) × MaskCommitterKey (ZMod 101) :=
  (resGetD trimC keysDefaultC).1

/-- The concrete verifier key pair. -/
def vkC : MLVerifierKey (ZMod 101) × MaskVerifierKey (ZMod 101) :=
  (resGetD trimC keysDefaultC).2

/-- The concrete hiding commitment and mask witness. -/
def commitC : MLCommitment (ZMod 101) × List (ZMod 101 × List (ℕ × ℕ)) :=
  zkml_commit ckC eC 1 1 none maskRngC

/-- The concrete mask witness polynomial. -/
def p_hatC : List (ZMod 101 × List (ℕ × ℕ)) := commitC.2

/-- The concrete opening proof. -/
def openC : List (ZMod 101) × ZMod 101 :=
  zkml_open ckC eC p_hatC 1 zC


/-- The value `ZKMLCommit::setup` returns on the non-panicking path,
written out explicitly (`t i = rng (2 + i)` are the trapdoors). -/
def zkml_setup_value {F : Type} [Field F] (num_vars hiding_bound : ℕ)
    (rng : ℕ → F) : MLPCParam F × MaskParam F :=
  ({ num_vars := num_vars
     g := rng 0
     h_mask := (List.range num_vars).map fun i => rng 1 * rng (2 + i)
     h := rng 1
     powers_of_g := (List.range num_vars).map fun i =>
       (List.range (2 ^ (num_vars - i))).map fun x =>
         rng 0 * ((setup_eq_arr (fun i => rng (2 + i)) num_vars).getD
           i []).getD x 0
     powers_of_h := (List.range num_vars).map fun i =>
       (List.range (2 ^ (num_vars - i))).map fun x =>
         rng 1 * ((setup_eq_arr (fun i => rng (2 + i)) num_vars).getD
           i []).getD x 0 },
   { num_vars := num_vars
     max_degree := hiding_bound
     powers_of_g := maskTable (rng (2 + num_vars))
       (fun i => rng (2 + i)) num_vars hiding_bound
     gamma_g := rng (2 + num_vars + 1)
     powers_of_gamma_g := (List.range num_vars).map fun i =>
       (List.range (hiding_bound + 1)).map fun j =>
         rng (2 + num_vars + 1) * rng (2 + i) ^ (j + 1)
     h := rng (2 + num_vars + 2)
     beta_h := (List.range num_vars).map fun i =>
       rng (2 + num_vars + 2) * rng (2 + i) })


/-- Concrete polynomial for the division correctness witness. -/
def pW : List (ZMod 101 × List (ℕ × ℕ)) := [(3, [(0, 1), (1, 2)])]

/-- Concrete (empty) mask committer key for the division correctness
witness. -/
def ckW : MaskCommitterKey (ZMod 101) :=
  { powers_of_g := []
    gamma_g := 0
    powers_of_gamma_g := []
    num_vars := 2 }


/-- Extract the value of a non-failing `Except`, with a default for the
error case. -/
def exceptGetD {e a : Type} (r : Except e a) (d : a) : a :=
  match r with
  | .ok v => v
  | .error _ => d

/-- The concrete mask committer key produced by the external trim step
of the concrete pipeline. -/
def ck2C : MaskCommitterKey (ZMod 101) :=
  (exceptGetD (pst_trim paramC.2 1 0) (keysDefaultC.1.2, keysDefaultC.2.2)).1

/-- The concrete mask verifier key produced by the external trim step
of the concrete pipeline. -/
def vk2C : MaskVerifierKey (ZMod 101) :=
  (exceptGetD (pst_trim paramC.2 1 0) (keysDefaultC.1.2, keysDefaultC.2.2)).2

-- ===== THEOREMS =====

/-! ### Lemmas about `bsearch` -/

theorem bsearch_inl {c : ℕ} :
    ∀ {l : List ℕ} {i : ℕ}, bsearch c l = Sum.inl i →
      i < l.length ∧ l.getD i 0 = c := by
  intro l
  induction l with
  | nil => intro i h; simp [bsearch] at h
  | cons x xs ih =>
    intro i h
    by_cases hx : x < c
    · simp only [bsearch, if_pos hx] at h
      cases heq : bsearch c xs with
      | inl k =>
        rw [heq] at h
        obtain ⟨hk, hv⟩ := ih heq
        cases h
        exact ⟨by simpa using Nat.succ_lt_succ hk, by simpa using hv⟩
      | inr k => rw [heq] at h; cases h
    · by_cases hxc : x = c
      · simp only [bsearch, if_neg hx, if_pos hxc] at h
        cases h
        exact ⟨Nat.succ_pos _, by simpa using hxc⟩
      · simp [bsearch, if_neg hx, if_neg hxc] at h

theorem bsearch_inr {c : ℕ} :
    ∀ {l : List ℕ} {i : ℕ}, bsearch c l = Sum.inr i →
      i ≤ l.length ∧ ∀ k, k < i → l.getD k 0 < c := by
  intro l
  induction l with
  | nil =>
    intro i h
    simp only [bsearch] at h
    cases h
    exact ⟨Nat.le_refl _, by omega⟩
  | cons x xs ih =>
    intro i h
    by_cases hx : x < c
    · simp only [bsearch, if_pos hx] at h
      cases heq : bsearch c xs with
      | inl k => rw [heq] at h; cases h
      | inr k =>
        rw [heq] at h
        obtain ⟨hk, hlt⟩ := ih heq
        cases h
        refine ⟨by simpa using Nat.succ_le_succ hk, ?_⟩
        intro j hj
        cases j with
        | zero => simpa using hx
        | succ j => simpa using hlt j (by omega)
    · by_cases hxc : x = c
      · simp [bsearch, if_neg hx, if_pos hxc] at h
      · simp only [bsearch, if_neg hx, if_neg hxc] at h
        cases h
        exact ⟨Nat.zero_le _, by omega⟩

theorem bsearch_inr_not_mem {c : ℕ} :
    ∀ {l : List ℕ} {i : ℕ}, l.Sorted (· < ·) → bsearch c l = Sum.inr i →
      c ∉ l := by
  intro l
  induction l with
  | nil => intro i _ _; simp
  | cons x xs ih =>
    intro i hs h
    by_cases hx : x < c
    · simp only [bsearch, if_pos hx] at h
      cases heq : bsearch c xs with
      | inl k => rw [heq] at h; cases h
      | inr k =>
        intro hmem
        rcases List.mem_cons.mp hmem with rfl | hmem
        · omega
        · exact ih (List.Sorted.of_cons hs) heq hmem
    · by_cases hxc : x = c
      · simp [bsearch, if_neg hx, if_pos hxc] at h
      · intro hmem
        rcases List.mem_cons.mp hmem with rfl | hmem
        · exact hxc rfl
        · have := (List.sorted_cons.mp hs).1 c hmem
          omega

theorem bsearch_mem_inl {c : ℕ} {l : List ℕ} (hs : l.Sorted (· < ·))
    (hmem : c ∈ l) : ∃ i, bsearch c l = Sum.inl i := by
  cases h : bsearch c l with
  | inl i => exact ⟨i, rfl⟩
  | inr i => exact absurd hmem (bsearch_inr_not_mem hs h)

theorem bsearch_insert_sorted {c : ℕ} :
    ∀ {l : List ℕ} {i : ℕ}, l.Sorted (· < ·) → bsearch c l = Sum.inr i →
      (l.insertIdx i c).Sorted (· < ·) := by
  intro l
  induction l with
  | nil =>
    intro i _ h
    simp only [bsearch] at h
    cases h
    simp
  | cons x xs ih =>
    intro i hs h
    by_cases hx : x < c
    · simp only [bsearch, if_pos hx] at h
      cases heq : bsearch c xs with
      | inl k => rw [heq] at h; cases h
      | inr k =>
        rw [heq] at h
        cases h
        have hk := (bsearch_inr heq).1
        rw [List.insertIdx_succ_cons]
        rw [List.sorted_cons]
        refine ⟨?_, ih (List.Sorted.of_cons hs) heq⟩
        intro b hb
        rcases (List.mem_insertIdx hk).mp hb with rfl | hb
        · exact hx
        · exact (List.sorted_cons.mp hs).1 b hb
    · by_cases hxc : x = c
      · simp [bsearch, if_neg hx, if_pos hxc] at h
      · simp only [bsearch, if_neg hx, if_neg hxc] at h
        cases h
        rw [List.insertIdx_zero, List.sorted_cons]
        refine ⟨?_, hs⟩
        intro b hb
        rcases List.mem_cons.mp hb with rfl | hb
        · omega
        · have := (List.sorted_cons.mp hs).1 b hb
          omega

/-! ### Slice lemmas for the sparse matrix under well-formedness -/

theorem SparseMatrix.rowStart_le_values {V : Type} {m : SparseMatrix V}
    (hwf : m.WF) (row : ℕ) : m.rowStart row ≤ m.values.length := by
  obtain ⟨hri, hcv, hsor, hbnd, hcols⟩ := hwf
  unfold SparseMatrix.rowStart
  by_cases h : row < m.row_indices.length
  · rw [List.getD_eq_getElem _ _ h]
    exact hbnd _ (List.getElem_mem h)
  · rw [List.getD_eq_default _ _ (by omega)]
    exact Nat.zero_le _

theorem SparseMatrix.rowEnd_le_values {V : Type} {m : SparseMatrix V}
    (hwf : m.WF) (row : ℕ) : m.rowEnd row ≤ m.values.length := by
  obtain ⟨hri, hcv, hsor, hbnd, hcols⟩ := hwf
  unfold SparseMatrix.rowEnd
  by_cases h : row + 1 < m.row_indices.length
  · rw [List.getD_eq_getElem _ _ h]
    exact hbnd _ (List.getElem_mem h)
  · rw [List.getD_eq_default _ _ (by omega)]

theorem SparseMatrix.sorted_getD_le {V : Type} {m : SparseMatrix V}
    (hwf : m.WF) {a b : ℕ} (hab : a ≤ b) (hb : b < m.row_indices.length) :
    m.row_indices.getD a 0 ≤ m.row_indices.getD b 0 := by
  obtain ⟨hri, hcv, hsor, hbnd, hcols⟩ := hwf
  rw [List.getD_eq_getElem _ _ (by omega), List.getD_eq_getElem _ _ hb]
  rcases Nat.lt_or_ge a b with h | h
  · exact List.pairwise_iff_getElem.mp hsor a b (by omega) hb h
  · have : a = b := by omega
    subst this
    exact Nat.le_refl _

theorem SparseMatrix.rowStart_le_rowEnd {V : Type} {m : SparseMatrix V}
    (hwf : m.WF) {row : ℕ} (hr : row < m.rows) :
    m.rowStart row ≤ m.rowEnd row := by
  have hri := hwf.1
  by_cases h : row + 1 < m.row_indices.length
  · unfold SparseMatrix.rowStart SparseMatrix.rowEnd
    rw [List.getD_eq_getElem _ _ h, ← List.getD_eq_getElem _ 0 h]
    exact SparseMatrix.sorted_getD_le hwf (by omega) h
  · have h2 : m.rowEnd row = m.values.length := by
      unfold SparseMatrix.rowEnd
      exact List.getD_eq_default _ _ (by omega)
    rw [h2]
    exact SparseMatrix.rowStart_le_values hwf row

theorem SparseMatrix.rowEnd_le_rowStart {V : Type} {m : SparseMatrix V}
    (hwf : m.WF) {r1 r2 : ℕ} (h12 : r1 < r2) (hr2 : r2 < m.rows) :
    m.rowEnd r1 ≤ m.rowStart r2 := by
  have hri := hwf.1
  unfold SparseMatrix.rowEnd SparseMatrix.rowStart
  have h : r1 + 1 < m.row_indices.length := by omega
  rw [List.getD_eq_getElem _ _ h]
  rw [← List.getD_eq_getElem _ 0 h]
  exact SparseMatrix.sorted_getD_le hwf (by omega) (by omega)

theorem SparseMatrix.colsOfRow_length {V : Type} {m : SparseMatrix V}
    (hwf : m.WF) {row : ℕ} (hr : row < m.rows) :
    (m.colsOfRow row).length = m.rowEnd row - m.rowStart row := by
  have h1 := SparseMatrix.rowEnd_le_values hwf row
  have hcv := hwf.2.1
  unfold SparseMatrix.colsOfRow
  rw [List.length_take, List.length_drop]
  omega

theorem SparseMatrix.valsOfRow_length {V : Type} {m : SparseMatrix V}
    (hwf : m.WF) {row : ℕ} (hr : row < m.rows) :
    (m.valsOfRow row).length = m.rowEnd row - m.rowStart row := by
  have h1 := SparseMatrix.rowEnd_le_values hwf row
  unfold SparseMatrix.valsOfRow
  rw [List.length_take, List.length_drop]
  omega

theorem SparseMatrix.colsOfRow_getD {V : Type} {m : SparseMatrix V}
    (hwf : m.WF) {row : ℕ} (hr : row < m.rows) {k : ℕ}
    (hk : k < m.rowEnd row - m.rowStart row) :
    (m.colsOfRow row).getD k 0 = m.col_indices.getD (m.rowStart row + k) 0 := by
  have h1 := SparseMatrix.rowEnd_le_values hwf row
  have hcv := hwf.2.1
  have hlen := SparseMatrix.colsOfRow_length hwf hr
  rw [List.getD_eq_getElem _ _ (by omega)]
  rw [List.getD_eq_getElem _ _ (by omega)]
  unfold SparseMatrix.colsOfRow
  rw [List.getElem_take, List.getElem_drop]

theorem insertIdx_take_cons_drop {α : Type} (a : α) :
    ∀ (n : ℕ) (l : List α), n ≤ l.length →
      l.insertIdx n a = l.take n ++ a :: l.drop n := by
  intro n
  induction n with
  | zero => intro l _; simp [List.insertIdx_zero]
  | succ n ih =>
    intro l hl
    cases l with
    | nil => simp at hl
    | cons x xs =>
      rw [List.insertIdx_succ_cons, ih xs (by simpa using hl)]
      simp

theorem set_take_cons_drop {α : Type} (a : α) :
    ∀ (n : ℕ) (l : List α), n < l.length →
      l.set n a = l.take n ++ a :: l.drop (n + 1) := by
  intro n
  induction n with
  | zero =>
    intro l hl
    cases l with
    | nil => simp at hl
    | cons x xs => simp
  | succ n ih =>
    intro l hl
    cases l with
    | nil => simp at hl
    | cons x xs =>
      rw [List.set_cons_succ, ih xs (by simpa using hl)]
      simp

theorem eq_take_cons_drop {α : Type} (n : ℕ) (l : List α)
    (h : n < l.length) : l = l.take n ++ l[n] :: l.drop (n + 1) := by
  conv_lhs => rw [← List.take_append_drop n l]
  rw [List.drop_eq_getElem_cons h]

theorem mem_take_getD {α : Type} {d : α} {l : List α} {i : ℕ}
    {P : α → Prop} (h : ∀ k, k < i → P (l.getD k d)) :
    ∀ x ∈ l.take i, P x := by
  intro x hx
  obtain ⟨k, hk, hval⟩ := List.mem_iff_getElem.mp hx
  have hki : k < i := by
    have := List.length_take i l
    omega
  have hkl : k < l.length := by
    have := List.length_take i l
    omega
  have : x = l.getD k d := by
    rw [List.getD_eq_getElem _ _ hkl, ← hval, List.getElem_take]
  rw [this]
  exact h k hki

theorem find?_zip_keys_ne {V : Type} {cols : List ℕ} {vals : List V}
    {c : ℕ} (h : ∀ x ∈ cols, x ≠ c) :
    (cols.zip vals).find? (fun p => p.1 == c) = none := by
  rw [List.find?_eq_none]
  intro p hp
  have := (List.mem_zip hp).1
  simpa using h _ this

theorem SparseMatrix.valsOfRow_getD {V : Type} {m : SparseMatrix V}
    (hwf : m.WF) {row : ℕ} (hr : row < m.rows) {k : ℕ} {d : V}
    (hk : k < m.rowEnd row - m.rowStart row) :
    (m.valsOfRow row).getD k d = m.values.getD (m.rowStart row + k) d := by
  have h1 := SparseMatrix.rowEnd_le_values hwf row
  have hlen := SparseMatrix.valsOfRow_length hwf hr
  rw [List.getD_eq_getElem _ _ (by omega)]
  rw [List.getD_eq_getElem _ _ (by omega)]
  unfold SparseMatrix.valsOfRow
  rw [List.getElem_take, List.getElem_drop]

/-! ### Effect of `set` on slices: the overwrite branch -/

theorem SparseMatrix.set_inl_def {V : Type} {m : SparseMatrix V}
    {row col i : ℕ} {v : V}
    (heq : bsearch col (m.colsOfRow row) = Sum.inl i) :
    m.set row col v =
      { m with values := m.values.set (m.rowStart row + i) v } := by
  unfold SparseMatrix.set
  rw [heq]

theorem SparseMatrix.set_inr_def {V : Type} {m : SparseMatrix V}
    {row col i : ℕ} {v : V}
    (heq : bsearch col (m.colsOfRow row) = Sum.inr i) :
    m.set row col v =
      { m with
        col_indices := m.col_indices.insertIdx (i + m.rowStart row) col
        values := m.values.insertIdx (i + m.rowStart row) v
        row_indices := m.row_indices.take (row + 1) ++
          (m.row_indices.drop (row + 1)).map (· + 1) } := by
  unfold SparseMatrix.set
  rw [heq]

theorem SparseMatrix.overwrite_rowStart {V : Type} {m : SparseMatrix V}
    {row col i : ℕ} {v : V}
    (heq : bsearch col (m.colsOfRow row) = Sum.inl i) (r : ℕ) :
    (m.set row col v).rowStart r = m.rowStart r := by
  rw [SparseMatrix.set_inl_def heq]
  rfl

theorem SparseMatrix.overwrite_rowEnd {V : Type} {m : SparseMatrix V}
    {row col i : ℕ} {v : V}
    (heq : bsearch col (m.colsOfRow row) = Sum.inl i) (r : ℕ) :
    (m.set row col v).rowEnd r = m.rowEnd r := by
  rw [SparseMatrix.set_inl_def heq]
  unfold SparseMatrix.rowEnd
  simp [List.length_set]

theorem SparseMatrix.overwrite_colsOfRow {V : Type} {m : SparseMatrix V}
    {row col i : ℕ} {v : V}
    (heq : bsearch col (m.colsOfRow row) = Sum.inl i) (r : ℕ) :
    (m.set row col v).colsOfRow r = m.colsOfRow r := by
  unfold SparseMatrix.colsOfRow
  rw [SparseMatrix.overwrite_rowStart heq, SparseMatrix.overwrite_rowEnd heq,
    SparseMatrix.set_inl_def heq]

theorem SparseMatrix.overwrite_valsOfRow_ne {V : Type} {m : SparseMatrix V}
    {row col i : ℕ} {v : V} (hwf : m.WF) (hr : row < m.rows)
    (heq : bsearch col (m.colsOfRow row) = Sum.inl i)
    {r : ℕ} (hrr : r < m.rows) (hne : r ≠ row) :
    (m.set row col v).valsOfRow r = m.valsOfRow r := by
  have hi : i < m.rowEnd row - m.rowStart row := by
    have := (bsearch_inl heq).1
    rwa [SparseMatrix.colsOfRow_length hwf hr] at this
  have h1 : (m.set row col v).valsOfRow r =
      ((m.values.set (m.rowStart row + i) v).drop (m.rowStart r)).take
        (m.rowEnd r - m.rowStart r) := by
    rw [SparseMatrix.set_inl_def heq]
    unfold SparseMatrix.valsOfRow SparseMatrix.rowStart SparseMatrix.rowEnd
    simp [List.length_set]
  rw [h1]
  unfold SparseMatrix.valsOfRow
  have hse := SparseMatrix.rowStart_le_rowEnd hwf hr
  apply List.ext_getElem
  · simp [List.length_set]
  · intro n hn1 hn2
    rw [List.length_take, List.length_drop, List.length_set] at hn1
    have hn' : n < m.rowEnd r - m.rowStart r := by omega
    have hneq : ¬ (m.rowStart row + i = m.rowStart r + n) := by
      rcases Nat.lt_or_ge r row with hc | hc
      · have := SparseMatrix.rowEnd_le_rowStart hwf hc hr
        omega
      · have hc2 : row < r := by omega
        have := SparseMatrix.rowEnd_le_rowStart hwf hc2 hrr
        omega
    rw [List.getElem_take, List.getElem_drop, List.getElem_take,
      List.getElem_drop, List.getElem_set, if_neg hneq]

theorem SparseMatrix.overwrite_valsOfRow_self {V : Type} {m : SparseMatrix V}
    {row col i : ℕ} {v : V} (hwf : m.WF) (hr : row < m.rows)
    (heq : bsearch col (m.colsOfRow row) = Sum.inl i) :
    (m.set row col v).valsOfRow row = (m.valsOfRow row).set i v := by
  have hi : i < m.rowEnd row - m.rowStart row := by
    have := (bsearch_inl heq).1
    rwa [SparseMatrix.colsOfRow_length hwf hr] at this
  have h1 : (m.set row col v).valsOfRow row =
      ((m.values.set (m.rowStart row + i) v).drop (m.rowStart row)).take
        (m.rowEnd row - m.rowStart row) := by
    rw [SparseMatrix.set_inl_def heq]
    unfold SparseMatrix.valsOfRow SparseMatrix.rowStart SparseMatrix.rowEnd
    simp [List.length_set]
  rw [h1]
  unfold SparseMatrix.valsOfRow
  apply List.ext_getElem
  · simp [List.length_set]
  · intro n hn1 hn2
    rw [List.getElem_take, List.getElem_drop, List.getElem_set,
      List.getElem_set, List.getElem_take, List.getElem_drop]
    by_cases hcase : i = n
    · rw [if_pos (by omega), if_pos hcase]
    · rw [if_neg (by omega), if_neg hcase]

/-! ### Effect of `set` on slices: the insert branch -/

theorem SparseMatrix.insert_row_indices_getD {V : Type} {m : SparseMatrix V}
    {row col i : ℕ} {v : V} (hwf : m.WF) (hr : row < m.rows)
    (heq : bsearch col (m.colsOfRow row) = Sum.inr i)
    {r : ℕ} (hrr : r < m.rows) :
    (m.set row col v).row_indices.getD r 0 =
      if r ≤ row then m.row_indices.getD r 0 else m.row_indices.getD r 0 + 1 := by
  have hri := hwf.1
  rw [SparseMatrix.set_inr_def heq]
  simp only
  have hlen_take : (m.row_indices.take (row + 1)).length = row + 1 := by
    rw [List.length_take]
    omega
  have hlen_all : (m.row_indices.take (row + 1) ++
      (m.row_indices.drop (row + 1)).map (· + 1)).length = m.row_indices.length := by
    simp [List.length_take, List.length_drop]
    omega
  rw [List.getD_eq_getElem _ _ (by omega), List.getElem_append]
  by_cases hc : r ≤ row
  · rw [dif_pos (by omega)]
    rw [List.getElem_take, List.getD_eq_getElem _ _ (by omega)]
    rw [if_pos hc]
  · rw [dif_neg (by omega)]
    rw [List.getElem_map, List.getElem_drop, if_neg hc,
      List.getD_eq_getElem _ _ (by omega)]
    congr 2
    omega

theorem SparseMatrix.insert_lengths {V : Type} {m : SparseMatrix V}
    {row col i : ℕ} {v : V} (hwf : m.WF) (hr : row < m.rows)
    (heq : bsearch col (m.colsOfRow row) = Sum.inr i) :
    (m.set row col v).values.length = m.values.length + 1 ∧
      (m.set row col v).col_indices.length = m.col_indices.length + 1 ∧
      (m.set row col v).row_indices.length = m.row_indices.length := by
  have hi : i ≤ m.rowEnd row - m.rowStart row := by
    have := (bsearch_inr heq).1
    rwa [SparseMatrix.colsOfRow_length hwf hr] at this
  have hse := SparseMatrix.rowStart_le_rowEnd hwf hr
  have hev := SparseMatrix.rowEnd_le_values hwf row
  have hcv := hwf.2.1
  have hri := hwf.1
  rw [SparseMatrix.set_inr_def heq]
  refine ⟨?_, ?_, ?_⟩
  · simp only
    rw [List.length_insertIdx _ _ (by omega)]
  · simp only
    rw [List.length_insertIdx _ _ (by omega)]
  · simp only [List.length_append, List.length_map, List.length_take,
      List.length_drop]
    omega

theorem SparseMatrix.insert_rowStart {V : Type} {m : SparseMatrix V}
    {row col i : ℕ} {v : V} (hwf : m.WF) (hr : row < m.rows)
    (heq : bsearch col (m.colsOfRow row) = Sum.inr i)
    {r : ℕ} (hrr : r < m.rows) :
    (m.set row col v).rowStart r =
      if r ≤ row then m.rowStart r else m.rowStart r + 1 := by
  exact SparseMatrix.insert_row_indices_getD hwf hr heq hrr

theorem SparseMatrix.insert_rowEnd {V : Type} {m : SparseMatrix V}
    {row col i : ℕ} {v : V} (hwf : m.WF) (hr : row < m.rows)
    (heq : bsearch col (m.colsOfRow row) = Sum.inr i)
    {r : ℕ} (hrr : r < m.rows) :
    (m.set row col v).rowEnd r =
      if r < row then m.rowEnd r else m.rowEnd r + 1 := by
  have hri := hwf.1
  have hlens := @SparseMatrix.insert_lengths V m row col i v hwf hr heq
  unfold SparseMatrix.rowEnd
  by_cases hb : r + 1 < m.rows
  · have h1 : (m.set row col v).row_indices.getD (r + 1)
        (m.set row col v).values.length =
        (m.set row col v).row_indices.getD (r + 1) 0 := by
      rw [List.getD_eq_getElem _ _ (by omega), List.getD_eq_getElem _ _ (by omega)]
    have h2 : m.row_indices.getD (r + 1) m.values.length =
        m.row_indices.getD (r + 1) 0 := by
      rw [List.getD_eq_getElem m.row_indices m.values.length
          (show r + 1 < m.row_indices.length by omega),
        List.getD_eq_getElem m.row_indices 0
          (show r + 1 < m.row_indices.length by omega)]
    rw [h1, h2, SparseMatrix.insert_row_indices_getD hwf hr heq (by omega)]
    by_cases hc : r < row
    · rw [if_pos (by omega), if_pos hc]
    · rw [if_neg (by omega), if_neg hc]
  · have hge : ¬ r < row := by omega
    rw [if_neg hge]
    rw [List.getD_eq_default _ _ (by omega), List.getD_eq_default _ _ (by omega),
      hlens.1]

theorem list_ext_getD {α : Type} (d : α) {l1 l2 : List α}
    (hlen : l1.length = l2.length)
    (h : ∀ n, n < l1.length → l1.getD n d = l2.getD n d) : l1 = l2 := by
  apply List.ext_getElem hlen
  intro n h1 h2
  rw [← List.getD_eq_getElem l1 d h1, ← List.getD_eq_getElem l2 d h2]
  exact h n h1

theorem getD_take_drop {α : Type} (l : List α) (d : α) (s t n : ℕ)
    (hn : n < t) (hl : s + n < l.length) :
    ((l.drop s).take t).getD n d = l.getD (s + n) d := by
  rw [List.getD_eq_getElem _ _ (by
      rw [List.length_take, List.length_drop]; omega),
    List.getD_eq_getElem _ _ hl, List.getElem_take, List.getElem_drop]

theorem getD_insertIdx_lt {α : Type} (a d : α) :
    ∀ (l : List α) (j k : ℕ), k < j → k < l.length →
      (l.insertIdx j a).getD k d = l.getD k d := by
  intro l
  induction l with
  | nil => intro j k _ h2; simp at h2
  | cons x xs ih =>
    intro j k h1 h2
    cases j with
    | zero => omega
    | succ j =>
      rw [List.insertIdx_succ_cons]
      cases k with
      | zero => simp
      | succ k =>
        simp only [List.getD_cons_succ]
        exact ih j k (by omega) (by simpa using h2)

theorem getD_insertIdx_self {α : Type} (a d : α) :
    ∀ (l : List α) (j : ℕ), j ≤ l.length →
      (l.insertIdx j a).getD j d = a := by
  intro l
  induction l with
  | nil =>
    intro j h
    have : j = 0 := by simpa using h
    subst this
    simp
  | cons x xs ih =>
    intro j h
    cases j with
    | zero => simp
    | succ j =>
      rw [List.insertIdx_succ_cons]
      simp only [List.getD_cons_succ]
      exact ih j (by simpa using h)

theorem getD_insertIdx_gt {α : Type} (a d : α) :
    ∀ (l : List α) (j k : ℕ), j < k → k ≤ l.length →
      (l.insertIdx j a).getD k d = l.getD (k - 1) d := by
  intro l
  induction l with
  | nil => intro j k h1 h2; simp at h2; omega
  | cons x xs ih =>
    intro j k h1 h2
    cases j with
    | zero =>
      rw [List.insertIdx_zero]
      cases k with
      | zero => omega
      | succ k => simp
    | succ j =>
      rw [List.insertIdx_succ_cons]
      cases k with
      | zero => omega
      | succ k =>
        simp only [List.getD_cons_succ]
        rw [ih j k (by omega) (by simpa using h2)]
        cases k with
        | zero => omega
        | succ k => simp

theorem slice_insertIdx_below {α : Type} (l : List α) (a : α) {j s e : ℕ}
    (hje : e ≤ j) (hel : e ≤ l.length) (hjl : j ≤ l.length) :
    ((l.insertIdx j a).drop s).take (e - s) = (l.drop s).take (e - s) := by
  apply list_ext_getD a
  · rw [List.length_take, List.length_take, List.length_drop, List.length_drop,
      List.length_insertIdx _ _ hjl]
    omega
  · intro n hn
    rw [List.length_take, List.length_drop, List.length_insertIdx _ _ hjl] at hn
    rw [getD_take_drop _ _ _ _ _ (by omega) (by
      rw [List.length_insertIdx _ _ hjl]; omega)]
    rw [getD_take_drop _ _ _ _ _ (by omega) (by omega)]
    exact getD_insertIdx_lt a a l j (s + n) (by omega) (by omega)

theorem slice_insertIdx_above {α : Type} (l : List α) (a : α) {j s e : ℕ}
    (hjs : j ≤ s) (hel : e ≤ l.length) (hjl : j ≤ l.length) :
    ((l.insertIdx j a).drop (s + 1)).take (e - s) = (l.drop s).take (e - s) := by
  apply list_ext_getD a
  · rw [List.length_take, List.length_take, List.length_drop, List.length_drop,
      List.length_insertIdx _ _ hjl]
    omega
  · intro n hn
    rw [List.length_take, List.length_drop, List.length_insertIdx _ _ hjl] at hn
    rw [getD_take_drop _ _ _ _ _ (by omega) (by
      rw [List.length_insertIdx _ _ hjl]; omega)]
    rw [getD_take_drop _ _ _ _ _ (by omega) (by omega)]
    rw [getD_insertIdx_gt a a l j (s + 1 + n) (by omega) (by omega)]
    congr 1
    omega

theorem slice_insertIdx_at {α : Type} (l : List α) (a : α) {j s e : ℕ}
    (hsj : s ≤ j) (hje : j ≤ e) (hel : e ≤ l.length) :
    ((l.insertIdx j a).drop s).take (e + 1 - s) =
      ((l.drop s).take (e - s)).insertIdx (j - s) a := by
  have hjl : j ≤ l.length := by omega
  have hslice : (j - s) ≤ ((l.drop s).take (e - s)).length := by
    rw [List.length_take, List.length_drop]
    omega
  apply list_ext_getD a
  · rw [List.length_take, List.length_drop, List.length_insertIdx _ _ hjl,
      List.length_insertIdx _ _ hslice, List.length_take, List.length_drop]
    omega
  · intro n hn
    rw [List.length_take, List.length_drop, List.length_insertIdx _ _ hjl] at hn
    rw [getD_take_drop _ _ _ _ _ (by omega) (by
      rw [List.length_insertIdx _ _ hjl]; omega)]
    rcases Nat.lt_trichotomy n (j - s) with hc | hc | hc
    · rw [getD_insertIdx_lt a a l j (s + n) (by omega) (by omega)]
      rw [getD_insertIdx_lt a a _ (j - s) n (by omega) (by
        rw [List.length_take, List.length_drop]; omega)]
      rw [getD_take_drop _ _ _ _ _ (by omega) (by omega)]
    · subst hc
      rw [show s + (j - s) = j from by omega]
      rw [getD_insertIdx_self a a l j hjl]
      rw [getD_insertIdx_self a a _ (j - s) hslice]
    · rw [getD_insertIdx_gt a a l j (s + n) (by omega) (by omega)]
      rw [getD_insertIdx_gt a a _ (j - s) n (by omega) (by
        rw [List.length_take, List.length_drop]; omega)]
      rw [getD_take_drop _ _ _ _ _ (by omega) (by omega)]
      congr 1
      omega

theorem SparseMatrix.insert_bounds {V : Type} {m : SparseMatrix V}
    {row col i : ℕ} (hwf : m.WF) (hr : row < m.rows)
    (heq : bsearch col (m.colsOfRow row) = Sum.inr i) :
    i + m.rowStart row ≤ m.rowEnd row ∧
      m.rowEnd row ≤ m.values.length ∧
      m.rowStart row ≤ m.rowEnd row := by
  have hi : i ≤ m.rowEnd row - m.rowStart row := by
    have := (bsearch_inr heq).1
    rwa [SparseMatrix.colsOfRow_length hwf hr] at this
  have hse := SparseMatrix.rowStart_le_rowEnd hwf hr
  have hev := SparseMatrix.rowEnd_le_values hwf row
  exact ⟨by omega, hev, hse⟩

theorem SparseMatrix.insert_colsOfRow_lt {V : Type} {m : SparseMatrix V}
    {row col i : ℕ} {v : V} (hwf : m.WF) (hr : row < m.rows)
    (heq : bsearch col (m.colsOfRow row) = Sum.inr i)
    {r : ℕ} (hrlt : r < row) :
    (m.set row col v).colsOfRow r = m.colsOfRow r := by
  have hrr : r < m.rows := by omega
  have hb := SparseMatrix.insert_bounds hwf hr heq
  have hcv := hwf.2.1
  have hre := SparseMatrix.rowEnd_le_rowStart hwf hrlt hr
  unfold SparseMatrix.colsOfRow
  rw [SparseMatrix.insert_rowStart hwf hr heq hrr,
    SparseMatrix.insert_rowEnd hwf hr heq hrr,
    if_pos (show r ≤ row from by omega), if_pos (show r < row from hrlt)]
  have hcol : (m.set row col v).col_indices =
      m.col_indices.insertIdx (i + m.rowStart row) col := by
    rw [SparseMatrix.set_inr_def heq]
  rw [hcol]
  have hrev := SparseMatrix.rowEnd_le_values hwf r
  exact slice_insertIdx_below m.col_indices col (by omega) (by omega) (by omega)

theorem SparseMatrix.insert_valsOfRow_lt {V : Type} {m : SparseMatrix V}
    {row col i : ℕ} {v : V} (hwf : m.WF) (hr : row < m.rows)
    (heq : bsearch col (m.colsOfRow row) = Sum.inr i)
    {r : ℕ} (hrlt : r < row) :
    (m.set row col v).valsOfRow r = m.valsOfRow r := by
  have hrr : r < m.rows := by omega
  have hb := SparseMatrix.insert_bounds hwf hr heq
  have hre := SparseMatrix.rowEnd_le_rowStart hwf hrlt hr
  unfold SparseMatrix.valsOfRow
  rw [SparseMatrix.insert_rowStart hwf hr heq hrr,
    SparseMatrix.insert_rowEnd hwf hr heq hrr,
    if_pos (show r ≤ row from by omega), if_pos (show r < row from hrlt)]
  have hval : (m.set row col v).values =
      m.values.insertIdx (i + m.rowStart row) v := by
    rw [SparseMatrix.set_inr_def heq]
  rw [hval]
  have hrev := SparseMatrix.rowEnd_le_values hwf r
  exact slice_insertIdx_below m.values v (by omega) (by omega) (by omega)

theorem SparseMatrix.insert_colsOfRow_gt {V : Type} {m : SparseMatrix V}
    {row col i : ℕ} {v : V} (hwf : m.WF) (hr : row < m.rows)
    (heq : bsearch col (m.colsOfRow row) = Sum.inr i)
    {r : ℕ} (hrgt : row < r) (hrr : r < m.rows) :
    (m.set row col v).colsOfRow r = m.colsOfRow r := by
  have hb := SparseMatrix.insert_bounds hwf hr heq
  have hcv := hwf.2.1
  have hre := SparseMatrix.rowEnd_le_rowStart hwf hrgt hrr
  have hrev := SparseMatrix.rowEnd_le_values hwf r
  unfold SparseMatrix.colsOfRow
  rw [SparseMatrix.insert_rowStart hwf hr heq hrr,
    SparseMatrix.insert_rowEnd hwf hr heq hrr,
    if_neg (show ¬ r ≤ row from by omega), if_neg (show ¬ r < row from by omega)]
  have hcol : (m.set row col v).col_indices =
      m.col_indices.insertIdx (i + m.rowStart row) col := by
    rw [SparseMatrix.set_inr_def heq]
  rw [hcol]
  rw [show m.rowEnd r + 1 - (m.rowStart r + 1) = m.rowEnd r - m.rowStart r
    from by omega]
  exact slice_insertIdx_above m.col_indices col (by omega) (by omega) (by omega)

theorem SparseMatrix.insert_valsOfRow_gt {V : Type} {m : SparseMatrix V}
    {row col i : ℕ} {v : V} (hwf : m.WF) (hr : row < m.rows)
    (heq : bsearch col (m.colsOfRow row) = Sum.inr i)
    {r : ℕ} (hrgt : row < r) (hrr : r < m.rows) :
    (m.set row col v).valsOfRow r = m.valsOfRow r := by
  have hb := SparseMatrix.insert_bounds hwf hr heq
  have hre := SparseMatrix.rowEnd_le_rowStart hwf hrgt hrr
  have hrev := SparseMatrix.rowEnd_le_values hwf r
  unfold SparseMatrix.valsOfRow
  rw [SparseMatrix.insert_rowStart hwf hr heq hrr,
    SparseMatrix.insert_rowEnd hwf hr heq hrr,
    if_neg (show ¬ r ≤ row from by omega), if_neg (show ¬ r < row from by omega)]
  have hval : (m.set row col v).values =
      m.values.insertIdx (i + m.rowStart row) v := by
    rw [SparseMatrix.set_inr_def heq]
  rw [hval]
  rw [show m.rowEnd r + 1 - (m.rowStart r + 1) = m.rowEnd r - m.rowStart r
    from by omega]
  exact slice_insertIdx_above m.values v (by omega) (by omega) (by omega)

theorem SparseMatrix.insert_colsOfRow_self {V : Type} {m : SparseMatrix V}
    {row col i : ℕ} {v : V} (hwf : m.WF) (hr : row < m.rows)
    (heq : bsearch col (m.colsOfRow row) = Sum.inr i) :
    (m.set row col v).colsOfRow row = (m.colsOfRow row).insertIdx i col := by
  have hb := SparseMatrix.insert_bounds hwf hr heq
  have hcv := hwf.2.1
  unfold SparseMatrix.colsOfRow
  rw [SparseMatrix.insert_rowStart hwf hr heq hr,
    SparseMatrix.insert_rowEnd hwf hr heq hr,
    if_pos (show row ≤ row from Nat.le_refl _),
    if_neg (show ¬ row < row from by omega)]
  have hcol : (m.set row col v).col_indices =
      m.col_indices.insertIdx (i + m.rowStart row) col := by
    rw [SparseMatrix.set_inr_def heq]
  rw [hcol]
  have hmain := slice_insertIdx_at m.col_indices col
    (show m.rowStart row ≤ i + m.rowStart row from by omega)
    (show i + m.rowStart row ≤ m.rowEnd row from hb.1)
    (show m.rowEnd row ≤ m.col_indices.length from by omega)
  rw [hmain]
  congr 1
  omega

theorem SparseMatrix.insert_valsOfRow_self {V : Type} {m : SparseMatrix V}
    {row col i : ℕ} {v : V} (hwf : m.WF) (hr : row < m.rows)
    (heq : bsearch col (m.colsOfRow row) = Sum.inr i) :
    (m.set row col v).valsOfRow row = (m.valsOfRow row).insertIdx i v := by
  have hb := SparseMatrix.insert_bounds hwf hr heq
  unfold SparseMatrix.valsOfRow
  rw [SparseMatrix.insert_rowStart hwf hr heq hr,
    SparseMatrix.insert_rowEnd hwf hr heq hr,
    if_pos (show row ≤ row from Nat.le_refl _),
    if_neg (show ¬ row < row from by omega)]
  have hval : (m.set row col v).values =
      m.values.insertIdx (i + m.rowStart row) v := by
    rw [SparseMatrix.set_inr_def heq]
  rw [hval]
  have hmain := slice_insertIdx_at m.values v
    (show m.rowStart row ≤ i + m.rowStart row from by omega)
    (show i + m.rowStart row ≤ m.rowEnd row from hb.1)
    (show m.rowEnd row ≤ m.values.length from hb.2.1)
  rw [hmain]
  congr 1
  omega

/-! ### Behaviour of `set`: specifications of the two branches -/

theorem SparseMatrix.set_spec_overwrite {V : Type} {m : SparseMatrix V}
    {row col i : ℕ} {v : V} (hwf : m.WF) (hr : row < m.rows)
    (heq : bsearch col (m.colsOfRow row) = Sum.inl i) :
    (m.set row col v).getEntry row col = some v ∧
    (col, v) ∈ (m.set row col v).iter_row row ∧
    (∀ r c, r < m.rows → ¬(r = row ∧ c = col) →
      (m.set row col v).getEntry r c = m.getEntry r c) ∧
    (((m.set row col v).iter_row row).map Prod.fst).Sorted (· < ·) := by
  have hsor := hwf.2.2.2.2 row hr
  have hi : i < (m.colsOfRow row).length := (bsearch_inl heq).1
  have hci : (m.colsOfRow row).getD i 0 = col := (bsearch_inl heq).2
  have hlen : (m.colsOfRow row).length = (m.valsOfRow row).length := by
    rw [SparseMatrix.colsOfRow_length hwf hr, SparseMatrix.valsOfRow_length hwf hr]
  have hiv : i < (m.valsOfRow row).length := by omega
  have hcols_dec : m.colsOfRow row =
      (m.colsOfRow row).take i ++ col :: (m.colsOfRow row).drop (i + 1) := by
    have h := eq_take_cons_drop i (m.colsOfRow row) hi
    rw [← List.getD_eq_getElem (m.colsOfRow row) 0 hi, hci] at h
    exact h
  have hvals_dec : m.valsOfRow row =
      (m.valsOfRow row).take i ++ (m.valsOfRow row).getD i v ::
        (m.valsOfRow row).drop (i + 1) := by
    have h := eq_take_cons_drop i (m.valsOfRow row) hiv
    rw [← List.getD_eq_getElem (m.valsOfRow row) v hiv] at h
    exact h
  have hset_dec : (m.valsOfRow row).set i v =
      (m.valsOfRow row).take i ++ v :: (m.valsOfRow row).drop (i + 1) :=
    set_take_cons_drop v i _ hiv
  have htk : ((m.colsOfRow row).take i).length =
      ((m.valsOfRow row).take i).length := by
    rw [List.length_take, List.length_take]
    omega
  have hiter_new : (m.set row col v).iter_row row =
      ((m.colsOfRow row).take i).zip ((m.valsOfRow row).take i) ++
        (col, v) :: ((m.colsOfRow row).drop (i + 1)).zip
          ((m.valsOfRow row).drop (i + 1)) := by
    unfold SparseMatrix.iter_row
    rw [SparseMatrix.overwrite_colsOfRow heq,
      SparseMatrix.overwrite_valsOfRow_self hwf hr heq]
    conv_lhs => rw [hcols_dec, hset_dec]
    rw [List.zip_append htk, List.zip_cons_cons]
  have hiter_old : m.iter_row row =
      ((m.colsOfRow row).take i).zip ((m.valsOfRow row).take i) ++
        (col, (m.valsOfRow row).getD i v) :: ((m.colsOfRow row).drop (i + 1)).zip
          ((m.valsOfRow row).drop (i + 1)) := by
    unfold SparseMatrix.iter_row
    conv_lhs => rw [hcols_dec, hvals_dec]
    rw [List.zip_append htk, List.zip_cons_cons]
  have hkeysA : ∀ p ∈ ((m.colsOfRow row).take i).zip ((m.valsOfRow row).take i),
      p.1 ≠ col := by
    intro p hp
    have hm := (List.mem_zip hp).1
    have hlt : ∀ k, k < i → (m.colsOfRow row).getD k 0 < col := by
      intro k hk
      have h2 := List.pairwise_iff_getElem.mp hsor k i (by omega) hi hk
      rw [← List.getD_eq_getElem (m.colsOfRow row) 0 hi, hci] at h2
      rwa [List.getD_eq_getElem _ _ (by omega)]
    have := @mem_take_getD ℕ 0 (m.colsOfRow row) i (fun x => x < col) hlt p.1 hm
    omega
  have hfindA : (((m.colsOfRow row).take i).zip
      ((m.valsOfRow row).take i)).find? (fun p => p.1 == col) = none := by
    rw [List.find?_eq_none]
    intro p hp
    simpa using hkeysA p hp
  refine ⟨?_, ?_, ?_, ?_⟩
  · unfold SparseMatrix.getEntry
    rw [hiter_new, List.find?_append, hfindA,
      List.find?_cons_of_pos _ (by simp)]
    rfl
  · rw [hiter_new]
    exact List.mem_append_right _ (List.mem_cons_self _ _)
  · intro r c hrr hne
    by_cases hc : r = row
    · subst hc
      have hcne : c ≠ col := fun h => hne ⟨rfl, h⟩
      unfold SparseMatrix.getEntry
      rw [hiter_new, hiter_old, List.find?_append, List.find?_append,
        List.find?_cons_of_neg _ (by simpa using Ne.symm hcne),
        List.find?_cons_of_neg _ (by simpa using Ne.symm hcne)]
    · have hiter_eq : (m.set row col v).iter_row r = m.iter_row r := by
        unfold SparseMatrix.iter_row
        rw [SparseMatrix.overwrite_colsOfRow heq,
          SparseMatrix.overwrite_valsOfRow_ne hwf hr heq hrr hc]
      unfold SparseMatrix.getEntry
      rw [hiter_eq]
  · have hmap : ((m.set row col v).iter_row row).map Prod.fst =
        m.colsOfRow row := by
      unfold SparseMatrix.iter_row
      rw [SparseMatrix.overwrite_colsOfRow heq,
        SparseMatrix.overwrite_valsOfRow_self hwf hr heq]
      exact List.map_fst_zip _ _ (by rw [List.length_set]; omega)
    rw [hmap]
    exact hsor

theorem SparseMatrix.set_spec_insert {V : Type} {m : SparseMatrix V}
    {row col i : ℕ} {v : V} (hwf : m.WF) (hr : row < m.rows)
    (heq : bsearch col (m.colsOfRow row) = Sum.inr i) :
    (m.set row col v).getEntry row col = some v ∧
    (col, v) ∈ (m.set row col v).iter_row row ∧
    (∀ r c, r < m.rows → ¬(r = row ∧ c = col) →
      (m.set row col v).getEntry r c = m.getEntry r c) ∧
    (((m.set row col v).iter_row row).map Prod.fst).Sorted (· < ·) := by
  have hsor := hwf.2.2.2.2 row hr
  have hi : i ≤ (m.colsOfRow row).length := (bsearch_inr heq).1
  have hltc : ∀ k, k < i → (m.colsOfRow row).getD k 0 < col := (bsearch_inr heq).2
  have hlen : (m.colsOfRow row).length = (m.valsOfRow row).length := by
    rw [SparseMatrix.colsOfRow_length hwf hr, SparseMatrix.valsOfRow_length hwf hr]
  have hiv : i ≤ (m.valsOfRow row).length := by omega
  have hcols_dec : (m.colsOfRow row).insertIdx i col =
      (m.colsOfRow row).take i ++ col :: (m.colsOfRow row).drop i :=
    insertIdx_take_cons_drop col i _ hi
  have hvals_dec : (m.valsOfRow row).insertIdx i v =
      (m.valsOfRow row).take i ++ v :: (m.valsOfRow row).drop i :=
    insertIdx_take_cons_drop v i _ hiv
  have htk : ((m.colsOfRow row).take i).length =
      ((m.valsOfRow row).take i).length := by
    rw [List.length_take, List.length_take]
    omega
  have hiter_new : (m.set row col v).iter_row row =
      ((m.colsOfRow row).take i).zip ((m.valsOfRow row).take i) ++
        (col, v) :: ((m.colsOfRow row).drop i).zip ((m.valsOfRow row).drop i) := by
    unfold SparseMatrix.iter_row
    rw [SparseMatrix.insert_colsOfRow_self hwf hr heq,
      SparseMatrix.insert_valsOfRow_self hwf hr heq, hcols_dec, hvals_dec,
      List.zip_append htk, List.zip_cons_cons]
  have hiter_old : m.iter_row row =
      ((m.colsOfRow row).take i).zip ((m.valsOfRow row).take i) ++
        ((m.colsOfRow row).drop i).zip ((m.valsOfRow row).drop i) := by
    unfold SparseMatrix.iter_row
    conv_lhs => rw [← List.take_append_drop i (m.colsOfRow row),
      ← List.take_append_drop i (m.valsOfRow row)]
    rw [List.zip_append htk]
  have hkeysA : ∀ p ∈ ((m.colsOfRow row).take i).zip ((m.valsOfRow row).take i),
      p.1 ≠ col := by
    intro p hp
    have hm := (List.mem_zip hp).1
    have := @mem_take_getD ℕ 0 (m.colsOfRow row) i (fun x => x < col) hltc p.1 hm
    omega
  have hfindA : (((m.colsOfRow row).take i).zip
      ((m.valsOfRow row).take i)).find? (fun p => p.1 == col) = none := by
    rw [List.find?_eq_none]
    intro p hp
    simpa using hkeysA p hp
  refine ⟨?_, ?_, ?_, ?_⟩
  · unfold SparseMatrix.getEntry
    rw [hiter_new, List.find?_append, hfindA,
      List.find?_cons_of_pos _ (by simp)]
    rfl
  · rw [hiter_new]
    exact List.mem_append_right _ (List.mem_cons_self _ _)
  · intro r c hrr hne
    by_cases hc : r = row
    · subst hc
      have hcne : c ≠ col := fun h => hne ⟨rfl, h⟩
      unfold SparseMatrix.getEntry
      rw [hiter_new, hiter_old, List.find?_append, List.find?_append,
        List.find?_cons_of_neg _ (by simpa using Ne.symm hcne)]
    · have hiter_eq : (m.set row col v).iter_row r = m.iter_row r := by
        unfold SparseMatrix.iter_row
        rcases Nat.lt_or_ge r row with hlt | hge
        · rw [SparseMatrix.insert_colsOfRow_lt hwf hr heq hlt,
            SparseMatrix.insert_valsOfRow_lt hwf hr heq hlt]
        · have hgt : row < r := by omega
          rw [SparseMatrix.insert_colsOfRow_gt hwf hr heq hgt hrr,
            SparseMatrix.insert_valsOfRow_gt hwf hr heq hgt hrr]
      unfold SparseMatrix.getEntry
      rw [hiter_eq]
  · have hmap : ((m.set row col v).iter_row row).map Prod.fst =
        (m.colsOfRow row).insertIdx i col := by
      unfold SparseMatrix.iter_row
      rw [SparseMatrix.insert_colsOfRow_self hwf hr heq,
        SparseMatrix.insert_valsOfRow_self hwf hr heq]
      apply List.map_fst_zip
      rw [List.length_insertIdx _ _ hi, List.length_insertIdx _ _ hiv]
      omega
    rw [hmap]
    exact bsearch_insert_sorted hsor heq

/-! ### Well-formedness is established by `new` and preserved by `grow`
and `set` -/

theorem SparseMatrix.wf_new {V : Type} (rows cols : ℕ) :
    (SparseMatrix.new V rows cols).WF := by
  refine ⟨by simp [SparseMatrix.new], by simp [SparseMatrix.new], ?_, ?_, ?_⟩
  · exact List.pairwise_replicate.mpr (Or.inr (Nat.le_refl 0))
  · intro x hx
    simp only [SparseMatrix.new] at hx ⊢
    rw [List.eq_of_mem_replicate hx]
    simp
  · intro r _
    unfold SparseMatrix.colsOfRow
    simp [SparseMatrix.new]

theorem SparseMatrix.grow_rowStart {V : Type} {m : SparseMatrix V}
    {rows cols : ℕ} (hwf : m.WF) (hrows : m.rows ≤ rows) {r : ℕ}
    (hr : r < m.rows) : (m.grow rows cols).rowStart r = m.rowStart r := by
  have hri := hwf.1
  unfold SparseMatrix.grow SparseMatrix.rowStart
  simp only
  rw [List.getD_eq_getElem _ _ (by
    simp only [List.length_append, List.length_take, List.length_replicate]
    omega)]
  rw [List.getElem_append, dif_pos (by rw [List.length_take]; omega),
    List.getElem_take, List.getD_eq_getElem _ _ (by omega)]

theorem SparseMatrix.grow_rowEnd {V : Type} {m : SparseMatrix V}
    {rows cols : ℕ} (hwf : m.WF) (hrows : m.rows ≤ rows) {r : ℕ}
    (hr : r < m.rows) : (m.grow rows cols).rowEnd r = m.rowEnd r := by
  have hri := hwf.1
  unfold SparseMatrix.grow SparseMatrix.rowEnd
  simp only
  by_cases hb : r + 1 < m.rows
  · rw [List.getD_eq_getElem _ _ (by
      simp only [List.length_append, List.length_take, List.length_replicate]
      omega)]
    rw [List.getElem_append, dif_pos (by rw [List.length_take]; omega),
      List.getElem_take, List.getD_eq_getElem _ _ (by omega)]
  · have hb2 : r + 1 = m.rows := by omega
    rw [List.getD_eq_default m.row_indices _ (by omega)]
    by_cases hc : r + 1 < rows
    · rw [List.getD_eq_getElem _ _ (by
        simp only [List.length_append, List.length_take, List.length_replicate]
        omega)]
      rw [List.getElem_append, dif_neg (by rw [List.length_take]; omega),
        List.getElem_replicate]
    · rw [List.getD_eq_default _ _ (by
        simp only [List.length_append, List.length_take, List.length_replicate]
        omega)]

theorem SparseMatrix.grow_colsOfRow_lt {V : Type} {m : SparseMatrix V}
    {rows cols : ℕ} (hwf : m.WF) (hrows : m.rows ≤ rows) {r : ℕ}
    (hr : r < m.rows) : (m.grow rows cols).colsOfRow r = m.colsOfRow r := by
  unfold SparseMatrix.colsOfRow
  rw [SparseMatrix.grow_rowStart hwf hrows hr,
    SparseMatrix.grow_rowEnd hwf hrows hr]
  rfl

theorem SparseMatrix.grow_colsOfRow_ge {V : Type} {m : SparseMatrix V}
    {rows cols : ℕ} (hwf : m.WF) (hrows : m.rows ≤ rows) {r : ℕ}
    (hge : m.rows ≤ r) (hlt : r < rows) :
    (m.grow rows cols).colsOfRow r = [] := by
  have hri := hwf.1
  have hstart : (m.grow rows cols).rowStart r =
      (m.grow rows cols).rowEnd r := by
    unfold SparseMatrix.grow SparseMatrix.rowStart SparseMatrix.rowEnd
    simp only
    rw [List.getD_eq_getElem _ _ (by
      simp only [List.length_append, List.length_take, List.length_replicate]
      omega)]
    rw [List.getElem_append, dif_neg (by rw [List.length_take]; omega),
      List.getElem_replicate]
    by_cases hc2 : r + 1 < rows
    · rw [List.getD_eq_getElem _ _ (by
        simp only [List.length_append, List.length_take, List.length_replicate]
        omega)]
      rw [List.getElem_append, dif_neg (by rw [List.length_take]; omega),
        List.getElem_replicate]
    · rw [List.getD_eq_default _ _ (by
        simp only [List.length_append, List.length_take, List.length_replicate]
        omega)]
  unfold SparseMatrix.colsOfRow
  rw [hstart]
  simp

theorem SparseMatrix.wf_grow {V : Type} {m : SparseMatrix V}
    {rows cols : ℕ} (hwf : m.WF) (hrows : m.rows ≤ rows)
    (hcols : m.cols ≤ cols) : (m.grow rows cols).WF := by
  obtain ⟨hri, hcv, hsor, hbnd, hcolsor⟩ := hwf
  have htk : m.row_indices.take rows = m.row_indices :=
    List.take_of_length_le (by omega)
  refine ⟨?_, hcv, ?_, ?_, ?_⟩
  · unfold SparseMatrix.grow
    simp only [List.length_append, List.length_take, List.length_replicate]
    omega
  · unfold SparseMatrix.grow
    simp only [htk]
    refine List.pairwise_append.mpr
      ⟨hsor, List.pairwise_replicate.mpr (Or.inr (Nat.le_refl _)), ?_⟩
    intro x hx y hy
    rw [List.eq_of_mem_replicate hy]
    exact hbnd x hx
  · intro x hx
    unfold SparseMatrix.grow at hx
    simp only [htk, List.mem_append] at hx
    rcases hx with hx | hx
    · exact hbnd x hx
    · rw [List.eq_of_mem_replicate hx]
      exact Nat.le_refl _
  · intro r hr
    have hrlt : r < rows := hr
    rcases Nat.lt_or_ge r m.rows with hc | hc
    · rw [SparseMatrix.grow_colsOfRow_lt ⟨hri, hcv, hsor, hbnd, hcolsor⟩ hrows hc]
      exact hcolsor r hc
    · rw [SparseMatrix.grow_colsOfRow_ge ⟨hri, hcv, hsor, hbnd, hcolsor⟩
        hrows hc hrlt]
      exact List.sorted_nil

theorem SparseMatrix.wf_set {V : Type} {m : SparseMatrix V}
    {row col : ℕ} {v : V} (hwf : m.WF) (hr : row < m.rows)
    (hc : col < m.cols) : (m.set row col v).WF := by
  cases hb : bsearch col (m.colsOfRow row) with
  | inl i =>
    obtain ⟨hri, hcv, hsor, hbnd, hcolsor⟩ := hwf
    refine ⟨?_, ?_, ?_, ?_, ?_⟩
    · rw [SparseMatrix.set_inl_def hb]
      exact hri
    · rw [SparseMatrix.set_inl_def hb]
      simpa [List.length_set] using hcv
    · rw [SparseMatrix.set_inl_def hb]
      exact hsor
    · rw [SparseMatrix.set_inl_def hb]
      simpa [List.length_set] using hbnd
    · intro r hrr
      have hrows : (m.set row col v).rows = m.rows := by
        rw [SparseMatrix.set_inl_def hb]
      rw [SparseMatrix.overwrite_colsOfRow hb]
      exact hcolsor r (by rw [hrows] at hrr; exact hrr)
  | inr i =>
    have hwf2 := hwf
    obtain ⟨hri, hcv, hsor, hbnd, hcolsor⟩ := hwf
    have hlens := @SparseMatrix.insert_lengths V m row col i v hwf2 hr hb
    have hrows : (m.set row col v).rows = m.rows := by
      rw [SparseMatrix.set_inr_def hb]
    have hgetd := fun (r : ℕ) (hrr : r < m.rows) =>
      @SparseMatrix.insert_row_indices_getD V m row col i v hwf2 hr hb r hrr
    refine ⟨?_, ?_, ?_, ?_, ?_⟩
    · rw [hlens.2.2, hri, hrows]
    · rw [hlens.2.1, hlens.1, hcv]
    · refine List.pairwise_iff_getElem.mpr ?_
      intro a b ha hb2 hab
      rw [hlens.2.2] at ha hb2
      rw [← List.getD_eq_getElem _ 0 (by rw [hlens.2.2]; omega),
        ← List.getD_eq_getElem _ 0 (by rw [hlens.2.2]; omega)]
      rw [hgetd a (by omega), hgetd b (by omega)]
      have hmono := SparseMatrix.sorted_getD_le hwf2 (show a ≤ b from by omega)
        (show b < m.row_indices.length from by omega)
      by_cases hca : a ≤ row <;> by_cases hcb : b ≤ row <;>
        simp only [if_pos, if_neg, hca, hcb, ite_true, ite_false] <;> omega
    · intro x hx
      rw [hlens.1]
      obtain ⟨k, hk, hval⟩ := List.mem_iff_getElem.mp hx
      rw [hlens.2.2] at hk
      rw [← List.getD_eq_getElem _ 0 (by rw [hlens.2.2]; omega)] at hval
      rw [hgetd k (by omega)] at hval
      have hkmem : m.row_indices.getD k 0 ≤ m.values.length := by
        have hklt : k < m.row_indices.length := by omega
        have : m.row_indices.getD k 0 = m.row_indices[k] :=
          List.getD_eq_getElem _ _ hklt
        rw [this]
        exact hbnd _ (List.getElem_mem hklt)
      by_cases hck : k ≤ row
      · rw [if_pos hck] at hval
        omega
      · rw [if_neg hck] at hval
        omega
    · intro r hrr
      rw [hrows] at hrr
      rcases Nat.lt_trichotomy r row with hlt | hEq | hgt
      · rw [SparseMatrix.insert_colsOfRow_lt hwf2 hr hb hlt]
        exact hcolsor r hrr
      · subst hEq
        rw [SparseMatrix.insert_colsOfRow_self hwf2 hr hb]
        exact bsearch_insert_sorted (hcolsor r hrr) hb
      · rw [SparseMatrix.insert_colsOfRow_gt hwf2 hr hb hgt hrr]
        exact hcolsor r hrr

/-- C10: for every well-formed `SparseMatrix` (as built by `new`/`grow`/`set`,
see `SparseMatrix.wf_new`, `SparseMatrix.wf_grow`, `SparseMatrix.wf_set`) and
every in-bounds `set (row, col, v)` call: if position `(row, col)` already
holds a value the call overwrites it and `num_entries` is unchanged, otherwise
it inserts and `num_entries` grows by exactly one; `iter_row row` afterwards
contains `(col, v)`; every entry at any other position is unchanged; and the
column indices yielded by `iter_row row` are strictly increasing. -/
theorem C10_sparse_matrix_set {V : Type} (m : SparseMatrix V) (row col : ℕ)
    (v : V) (hwf : m.WF) (hr : row < m.rows) (hc : col < m.cols) :
    ((col ∈ m.colsOfRow row →
        (m.set row col v).num_entries = m.num_entries) ∧
      (col ∉ m.colsOfRow row →
        (m.set row col v).num_entries = m.num_entries + 1)) ∧
    (m.set row col v).getEntry row col = some v ∧
    (col, v) ∈ (m.set row col v).iter_row row ∧
    (∀ r c, r < m.rows → ¬(r = row ∧ c = col) →
      (m.set row col v).getEntry r c = m.getEntry r c) ∧
    (((m.set row col v).iter_row row).map Prod.fst).Sorted (· < ·) := by
  cases hb : bsearch col (m.colsOfRow row) with
  | inl i =>
    have hmem : col ∈ m.colsOfRow row := by
      obtain ⟨h1, h2⟩ := bsearch_inl hb
      rw [← h2, List.getD_eq_getElem _ _ h1]
      exact List.getElem_mem h1
    obtain ⟨g1, g2, g3, g4⟩ := SparseMatrix.set_spec_overwrite hwf hr hb
    refine ⟨⟨fun _ => ?_, fun hnm => absurd hmem hnm⟩, g1, g2, g3, g4⟩
    unfold SparseMatrix.num_entries
    rw [SparseMatrix.set_inl_def hb]
    simp [List.length_set]
  | inr i =>
    have hnmem : col ∉ m.colsOfRow row :=
      bsearch_inr_not_mem (hwf.2.2.2.2 row hr) hb
    obtain ⟨g1, g2, g3, g4⟩ := SparseMatrix.set_spec_insert hwf hr hb
    refine ⟨⟨fun hm => absurd hm hnmem, fun _ => ?_⟩, g1, g2, g3, g4⟩
    unfold SparseMatrix.num_entries
    exact (@SparseMatrix.insert_lengths V m row col i v hwf hr hb).1

/-- Witness for C10 at a concrete matrix: a fresh 2-by-3 matrix with one
entry already stored at position (0, 1); setting position (0, 2) inserts. -/
theorem C10_sparse_matrix_set_witness :
    ((SparseMatrix.new ℕ 2 3).set 0 1 5).WF ∧ 0 < 2 ∧ 2 < 3 ∧
      ((((SparseMatrix.new ℕ 2 3).set 0 1 5).set 0 2 7).getEntry 0 2 =
        some 7) :=
  ⟨SparseMatrix.wf_set (SparseMatrix.wf_new 2 3) (by decide) (by decide),
    by decide, by decide,
    (C10_sparse_matrix_set ((SparseMatrix.new ℕ 2 3).set 0 1 5) 0 2 7
      (SparseMatrix.wf_set (SparseMatrix.wf_new 2 3) (by decide) (by decide))
      (by decide) (by decide)).2.1⟩

/-! ### Sums over `List.range` and the Boolean hypercube -/

theorem list_range_map_sum {M : Type} [AddCommMonoid M] (n : ℕ) (f : ℕ → M) :
    ((List.range n).map f).sum = ∑ i ∈ Finset.range n, f i := by
  induction n with
  | zero => simp
  | succ n ih =>
    rw [List.range_succ, List.map_append, List.sum_append,
      Finset.sum_range_succ, ih]
    simp

theorem sum_range_two_mul {M : Type} [AddCommMonoid M] (N : ℕ) (f : ℕ → M) :
    ∑ m ∈ Finset.range (2 * N), f m =
      ∑ b ∈ Finset.range N, (f (2 * b) + f (2 * b + 1)) := by
  induction N with
  | zero => simp
  | succ N ih =>
    rw [show 2 * (N + 1) = 2 * N + 1 + 1 from by omega,
      Finset.sum_range_succ, Finset.sum_range_succ, ih,
      Finset.sum_range_succ]
    rw [show 2 * N + 1 = 2 * N + 1 from rfl]
    abel

theorem sum_indicator_testBit {F : Type} [Field F] :
    ∀ (k v : ℕ), v < k →
      (∑ m ∈ Finset.range (2 ^ k),
        (if Nat.testBit m v then (1 : F) else 0)) = ((2 ^ (k - 1) : ℕ) : F) := by
  intro k
  induction k with
  | zero => intro v hv; omega
  | succ k ih =>
    intro v hv
    rw [show (2 : ℕ) ^ (k + 1) = 2 * 2 ^ k from by ring, sum_range_two_mul]
    cases v with
    | zero =>
      have h0 : ∀ b : ℕ, Nat.testBit (2 * b) 0 = false := by
        intro b
        rw [Nat.testBit_zero]
        simp
      have h1 : ∀ b : ℕ, Nat.testBit (2 * b + 1) 0 = true := by
        intro b
        rw [Nat.testBit_zero]
        simp
        omega
      have hterm : ∀ b : ℕ,
          ((if Nat.testBit (2 * b) 0 then (1 : F) else 0) +
            if Nat.testBit (2 * b + 1) 0 then (1 : F) else 0) = 1 := by
        intro b
        rw [h0 b, h1 b]
        simp
      rw [Finset.sum_congr rfl (fun b _ => hterm b)]
      rw [Finset.sum_const, Finset.card_range, nsmul_eq_mul, mul_one]
      simp
    | succ w =>
      have hw : w < k := by omega
      have hsh : ∀ b : ℕ, Nat.testBit (2 * b) (w + 1) = Nat.testBit b w := by
        intro b
        rw [show w + 1 = w.succ from rfl, Nat.testBit_succ]
        congr 1
        omega
      have hsh1 : ∀ b : ℕ, Nat.testBit (2 * b + 1) (w + 1) = Nat.testBit b w := by
        intro b
        rw [show w + 1 = w.succ from rfl, Nat.testBit_succ]
        congr 1
        omega
      have hterm : ∀ b : ℕ,
          ((if Nat.testBit (2 * b) (w + 1) then (1 : F) else 0) +
            if Nat.testBit (2 * b + 1) (w + 1) then (1 : F) else 0) =
          (if Nat.testBit b w then (1 : F) else 0) +
            (if Nat.testBit b w then (1 : F) else 0) := by
        intro b
        rw [hsh b, hsh1 b]
      rw [Finset.sum_congr rfl (fun b _ => hterm b), Finset.sum_add_distrib,
        ih w hw]
      rw [show (2 : ℕ) ^ (k + 1 - 1) = 2 ^ (k - 1) + 2 ^ (k - 1) from by
        cases k with
        | zero => omega
        | succ k => simp; ring]
      push_cast
      ring

/-! ### Hypercube sums of generated mask polynomials -/

theorem term_new_single_zero (v : ℕ) : term_new [(v, 0)] = [] := rfl

theorem term_new_single_succ (v d : ℕ) :
    term_new [(v, d + 1)] = [(v, d + 1)] := rfl

theorem term_new_single (v d : ℕ) :
    term_new [(v, d)] = if d = 0 then [] else [(v, d)] := by
  cases d with
  | zero => rw [term_new_single_zero, if_pos rfl]
  | succ d => rw [term_new_single_succ, if_neg (Nat.succ_ne_zero d)]

theorem hypercube_sum_nil {F : Type} [Field F] (k : ℕ) :
    hypercube_sum k ([] : List (F × List (ℕ × ℕ))) = 0 := by
  unfold hypercube_sum sparse_evaluate
  simp

theorem hypercube_sum_cons {F : Type} [Field F] (k : ℕ)
    (t : F × List (ℕ × ℕ)) (p : List (F × List (ℕ × ℕ))) :
    hypercube_sum k (t :: p) = hypercube_sum k [t] + hypercube_sum k p := by
  unfold hypercube_sum sparse_evaluate
  rw [list_range_map_sum, list_range_map_sum, list_range_map_sum,
    ← Finset.sum_add_distrib]
  apply Finset.sum_congr rfl
  intro m _
  simp [add_comm]

theorem hypercube_sum_eq_sum_terms {F : Type} [Field F] (k : ℕ)
    (p : List (F × List (ℕ × ℕ))) :
    hypercube_sum k p = (p.map (fun t => hypercube_sum k [t])).sum := by
  induction p with
  | nil => simpa using hypercube_sum_nil k
  | cons t q ih => rw [hypercube_sum_cons, ih, List.map_cons, List.sum_cons]

theorem hcsum_single {F : Type} [Field F] {k v : ℕ} (hv : v < k)
    (c : F) (d : ℕ) :
    hypercube_sum k [(c, term_new [(v, d)])] =
      if d = 0 then ((2 ^ k : ℕ) : F) * c
      else ((2 ^ (k - 1) : ℕ) : F) * c := by
  cases d with
  | zero =>
    rw [term_new_single_zero, if_pos rfl]
    unfold hypercube_sum sparse_evaluate
    rw [list_range_map_sum]
    simp only [List.map_cons, List.map_nil, List.prod_nil, mul_one,
      List.sum_cons, List.sum_nil, add_zero]
    rw [Finset.sum_const, Finset.card_range, nsmul_eq_mul]
  | succ d =>
    rw [term_new_single_succ, if_neg (Nat.succ_ne_zero d)]
    unfold hypercube_sum sparse_evaluate
    rw [list_range_map_sum]
    have hterm : ∀ m : ℕ,
        ((([(c, [(v, d + 1)])] : List (F × List (ℕ × ℕ))).map
          (fun t => t.1 * (t.2.map (fun ve =>
            (if Nat.testBit m ve.1 then (1 : F) else 0) ^ ve.2)).prod)).sum) =
        c * (if Nat.testBit m v then (1 : F) else 0) := by
      intro m
      simp only [List.map_cons, List.map_nil, List.prod_cons, List.prod_nil,
        mul_one, List.sum_cons, List.sum_nil, add_zero]
      congr 1
      by_cases hb : Nat.testBit m v
      · rw [if_pos hb, one_pow]
      · rw [if_neg hb, zero_pow (Nat.succ_ne_zero d)]
    rw [Finset.sum_congr rfl (fun m _ => hterm m), ← Finset.mul_sum,
      sum_indicator_testBit k v hv, mul_comm]

theorem range_map_getD {α : Type} (d : α) (l : List α) :
    (List.range l.length).map (fun i => l.getD i d) = l := by
  apply List.ext_getElem
  · simp
  · intro n h1 h2
    simp only [List.getElem_map, List.getElem_range]
    rw [List.getD_eq_getElem _ _ (by simpa using h1)]

theorem enum_map_eq_range_map {α β : Type} (d : α) (l : List α)
    (f : ℕ × α → β) :
    l.enum.map f = (List.range l.length).map (fun i => f (i, l.getD i d)) := by
  apply List.ext_getElem
  · simp [List.enum_length]
  · intro n h1 h2
    simp only [List.getElem_map, List.getElem_range]
    rw [List.getElem_enum]
    rw [List.getD_eq_getElem _ _ (by
      simp only [List.length_map, List.enum_length] at h1
      exact h1)]

theorem enum_map_snd {α β : Type} (l : List α) (g : α → β) :
    l.enum.map (fun ve => g ve.2) = l.map g := by
  apply List.ext_getElem
  · simp [List.enum_length]
  · intro n h1 h2
    simp [List.getElem_enum]

theorem sum_map_flatten {M α : Type} [AddCommMonoid M] (L : List (List α))
    (f : α → M) :
    ((L.flatten).map f).sum = (L.map (fun l => (l.map f).sum)).sum := by
  induction L with
  | nil => simp
  | cons l L ih =>
    rw [List.flatten_cons, List.map_append, List.sum_append, ih,
      List.map_cons, List.sum_cons]

theorem range_getD_sum {F : Type} [Field F] (l : List F) :
    (∑ i ∈ Finset.range l.length, l.getD i 0) = l.sum := by
  rw [← list_range_map_sum, range_map_getD]

theorem hcsum_var {F : Type} [Field F] {k v : ℕ} (hv : v < k)
    (mp : List F) :
    ((mp.enum.map (fun dc => ((dc.2 : F), term_new [(v, dc.1)]))).map
      (fun t => hypercube_sum k [t])).sum =
    ((2 ^ (k - 1) : ℕ) : F) * (mp.getD 0 0 + mp.getD 0 0 + (mp.drop 1).sum) := by
  rw [List.map_map]
  rw [enum_map_eq_range_map 0 mp]
  rw [list_range_map_sum]
  have hpt : ∀ i : ℕ,
      ((fun t => hypercube_sum k [t]) ∘
        fun dc : ℕ × F => (dc.2, term_new [(v, dc.1)])) (i, mp.getD i 0) =
      if i = 0 then ((2 ^ k : ℕ) : F) * mp.getD i 0
      else ((2 ^ (k - 1) : ℕ) : F) * mp.getD i 0 := by
    intro i
    exact hcsum_single hv (mp.getD i 0) i
  rw [Finset.sum_congr rfl (fun i _ => hpt i)]
  cases mp with
  | nil => simp
  | cons c cs =>
    rw [show (c :: cs).length = cs.length + 1 from rfl, Finset.sum_range_succ']
    have htail : ∀ i : ℕ,
        (if i + 1 = 0 then ((2 ^ k : ℕ) : F) * (c :: cs).getD (i + 1) 0
          else ((2 ^ (k - 1) : ℕ) : F) * (c :: cs).getD (i + 1) 0) =
        ((2 ^ (k - 1) : ℕ) : F) * cs.getD i 0 := by
      intro i
      rw [if_neg (Nat.succ_ne_zero i)]
      rfl
    rw [Finset.sum_congr rfl (fun i _ => htail i), if_pos rfl, ← Finset.mul_sum,
      range_getD_sum]
    have hpow : ((2 ^ k : ℕ) : F) =
        ((2 ^ (k - 1) : ℕ) : F) + ((2 ^ (k - 1) : ℕ) : F) := by
      rw [← Nat.cast_add]
      congr 1
      cases k with
      | zero => omega
      | succ k2 => simp [pow_succ]; ring
    rw [hpow]
    simp only [List.getD_cons_zero, List.drop_succ_cons, List.drop_zero]
    ring

theorem mask_terms_hcsum {F : Type} [Field F] (k : ℕ) (mps : List (List F))
    (hlen : mps.length ≤ k) :
    hypercube_sum k (mask_terms mps) =
      ((2 ^ (k - 1) : ℕ) : F) * mask_sum_g mps := by
  unfold mask_terms
  rw [hypercube_sum_eq_sum_terms, sum_map_flatten, List.map_map]
  have hpt : ∀ ve ∈ mps.enum,
      ((fun l => (List.map (fun t => hypercube_sum k [t]) l).sum) ∘
        fun ve : ℕ × List F =>
          ve.2.enum.map (fun dc => (dc.2, term_new [(ve.1, dc.1)]))) ve =
      ((2 ^ (k - 1) : ℕ) : F) *
        (ve.2.getD 0 0 + ve.2.getD 0 0 + (ve.2.drop 1).sum) := by
    intro ve hve
    have hlt : ve.1 < mps.length :=
      (List.mem_enum (show (ve.1, ve.2) ∈ mps.enum from by simpa using hve)).1
    exact hcsum_var (show ve.1 < k from by omega) ve.2
  rw [List.map_congr_left hpt, List.sum_map_mul_left]
  congr 1
  unfold mask_sum_g
  exact congrArg List.sum (enum_map_snd mps
    (fun mp => mp.getD 0 0 + mp.getD 0 0 + (mp.drop 1).sum))

theorem mask_sum_g_adjust {F : Type} [Field F] (h2 : (2 : F) ≠ 0)
    (s c : F) (cs : List F) (rest : List (List F)) :
    mask_sum_g (((c - s / 2) :: cs) :: rest) =
      mask_sum_g ((c :: cs) :: rest) - s := by
  have hs : s / 2 + s / 2 = s := by
    rw [div_add_div_same, show s + s = s * 2 from by ring]
    exact mul_div_cancel_right₀ s h2
  unfold mask_sum_g
  simp only [List.map_cons, List.sum_cons, List.getD_cons_zero,
    List.drop_succ_cons, List.drop_zero]
  linear_combination -hs

/-- C3: for every number of variables `k ≥ 1`, every degree bound `d` and
every randomness stream, the sparse polynomial returned by
`generate_mask_polynomial (rng, k, d, sum_to_zero := true)` sums to the
field zero over all `2 ^ k` points of the Boolean hypercube.  The
hypothesis `(2 : F) ≠ 0` records that the scalar field has odd
characteristic (division by `F::from(2)` in the source). -/
theorem C3_mask_sum_to_zero {F : Type} [Field F] (mask_rng : ℕ → F)
    (k d : ℕ) (hk : 1 ≤ k) (h2 : (2 : F) ≠ 0) :
    hypercube_sum k (generate_mask_polynomial mask_rng k d true) = 0 := by
  unfold generate_mask_polynomial
  have hne : mask_coeff_lists mask_rng k d ≠ [] := by
    unfold mask_coeff_lists
    simp
    omega
  obtain ⟨mp0, rest, hL⟩ := List.exists_cons_of_ne_nil hne
  have hmp0len : mp0.length = d + 1 := by
    have hm : mp0 ∈ mask_coeff_lists mask_rng k d := by
      rw [hL]
      exact List.mem_cons_self _ _
    unfold mask_coeff_lists at hm
    rw [List.mem_map] at hm
    obtain ⟨var, _, hvar⟩ := hm
    rw [← hvar]
    simp
  obtain ⟨c0, cs, hmp0⟩ := List.exists_cons_of_ne_nil
    (show mp0 ≠ [] from fun h => by rw [h] at hmp0len; simp at hmp0len)
  rw [hmp0] at hL
  have hmps : mask_coeff_lists mask_rng k d = (c0 :: cs) :: rest := hL
  have hklen : ((c0 :: cs) :: rest).length = k := by
    rw [← hmps]
    unfold mask_coeff_lists
    simp
  rw [hmps]
  have hadj : mask_adjust true (mask_sum_g ((c0 :: cs) :: rest))
      ((c0 :: cs) :: rest) =
      ((c0 - mask_sum_g ((c0 :: cs) :: rest) / 2) :: cs) :: rest := rfl
  rw [hadj]
  rw [mask_terms_hcsum k _ (by simp at hklen ⊢; omega)]
  rw [mask_sum_g_adjust h2]
  rw [sub_self, mul_zero]

/-- Witness for C3 at `k = 2`, `d = 1` over the field with 101
elements. -/
theorem C3_mask_sum_to_zero_witness :
    (1 ≤ 2 ∧ (2 : ZMod 101) ≠ 0) ∧
      hypercube_sum 2 (generate_mask_polynomial
        (fun i => ((i + 3 : ℕ) : ZMod 101)) 2 1 true) = 0 :=
  ⟨⟨by decide, by decide⟩,
    C3_mask_sum_to_zero (fun i => ((i + 3 : ℕ) : ZMod 101)) 2 1
      (by decide) (by decide)⟩

theorem mask_adjust_length_bound {F : Type} [Field F] {B : ℕ}
    (sum_to_zero : Bool) (s : F) (mps : List (List F))
    (hb : ∀ l ∈ mps, l.length ≤ B) :
    ∀ l ∈ mask_adjust sum_to_zero s mps, l.length ≤ B := by
  intro l hl
  unfold mask_adjust at hl
  cases sum_to_zero with
  | false => exact hb l (by simpa using hl)
  | true =>
    cases mps with
    | nil => simp at hl
    | cons mp rest =>
      simp only at hl
      rcases List.mem_cons.mp hl with rfl | hl
      · cases mp with
        | nil => simp
        | cons c0 cs =>
          have := hb (c0 :: cs) (List.mem_cons_self _ _)
          simpa using this
      · exact hb l (List.mem_cons_of_mem _ hl)

/-- C9: every term of a generated mask polynomial has an exponent vector
touching at most one variable, with degree at most the configured bound
`d`, for either value of `sum_to_zero`. -/
theorem C9_mask_term_structure {F : Type} [Field F] (mask_rng : ℕ → F)
    (n d : ℕ) (sum_to_zero : Bool) :
    ∀ t ∈ generate_mask_polynomial mask_rng n d sum_to_zero,
      t.2.length ≤ 1 ∧ ∀ ve ∈ t.2, ve.2 ≤ d := by
  intro t ht
  unfold generate_mask_polynomial mask_terms at ht
  rw [List.mem_flatten] at ht
  obtain ⟨inner, hinner, htin⟩ := ht
  rw [List.mem_map] at hinner
  obtain ⟨ve, hve, rfl⟩ := hinner
  rw [List.mem_map] at htin
  obtain ⟨dc, hdc, rfl⟩ := htin
  have hcoefflen : ∀ l ∈ mask_coeff_lists mask_rng n d, l.length ≤ d + 1 := by
    intro l hl
    unfold mask_coeff_lists at hl
    rw [List.mem_map] at hl
    obtain ⟨var, _, hvar⟩ := hl
    rw [← hvar]
    simp
  have hvemem : ve.2 ∈ mask_adjust sum_to_zero
      (mask_sum_g (mask_coeff_lists mask_rng n d))
      (mask_coeff_lists mask_rng n d) := by
    have h := List.mem_enum (show (ve.1, ve.2) ∈ _ from by simpa using hve)
    rw [h.2]
    exact List.getElem_mem h.1
  have hd : dc.1 ≤ d := by
    have h1 : dc.1 < ve.2.length :=
      (List.mem_enum (show (dc.1, dc.2) ∈ _ from by simpa using hdc)).1
    have h2 : ve.2.length ≤ d + 1 :=
      mask_adjust_length_bound sum_to_zero _ _ hcoefflen ve.2 hvemem
    omega
  rw [term_new_single]
  by_cases h0 : dc.1 = 0
  · rw [if_pos h0]
    exact ⟨by simp, by simp⟩
  · rw [if_neg h0]
    refine ⟨by simp, ?_⟩
    intro ve2 hve2
    rw [List.mem_singleton] at hve2
    rw [hve2]
    exact hd

/-- Witness for C9 at a concrete generated polynomial (one variable,
degree bound 1): the term `4 * X_0` is among the generated terms and
satisfies the structural invariant. -/
theorem C9_mask_term_structure_witness :
    ((4 : ZMod 101), [(0, 1)]) ∈ generate_mask_polynomial
        (fun i => ((i + 3 : ℕ) : ZMod 101)) 1 1 false ∧
      (([(0, 1)] : List (ℕ × ℕ)).length ≤ 1 ∧
        ∀ ve ∈ [(0, 1)], ve.2 ≤ 1) :=
  ⟨by decide, C9_mask_term_structure
    (fun i => ((i + 3 : ℕ) : ZMod 101)) 1 1 false
    ((4 : ZMod 101), [(0, 1)]) (by decide)⟩

/-! ### Division at a point: term-level lemmas -/

theorem mergeAdj_id :
    ∀ {tv : List (ℕ × ℕ)}, tv.Pairwise (fun a b => a.1 < b.1) →
      mergeAdj tv = tv := by
  intro tv
  induction tv with
  | nil => intro _; rfl
  | cons p rest ih =>
    intro hp
    unfold mergeAdj
    rw [ih (List.Pairwise.of_cons hp)]
    cases rest with
    | nil => rfl
    | cons q qs =>
      have hne : p.1 ≠ q.1 :=
        Nat.ne_of_lt ((List.pairwise_cons.mp hp).1 q (List.mem_cons_self _ _))
      simp [hne]

theorem term_new_id {tv : List (ℕ × ℕ)} (hwf : TermBasicWF tv) :
    term_new tv = tv := by
  obtain ⟨hp, hpow⟩ := hwf
  unfold term_new
  have hfilter : tv.filter (fun p => p.2 != 0) = tv := by
    apply List.filter_eq_self.mpr
    intro p hp2
    have := hpow p hp2
    simp
    omega
  rw [hfilter]
  have hsorted : List.Sorted (fun p q : ℕ × ℕ => p.1 ≤ q.1) tv :=
    hp.imp (fun h => Nat.le_of_lt h)
  rw [List.Sorted.insertionSort_eq hsorted]
  exact mergeAdj_id hp

theorem toMvT_nil {F : Type} [Field F] :
    toMvT ([] : List (ℕ × ℕ)) = (1 : MvPolynomial ℕ F) := by
  unfold toMvT
  simp

theorem toMvT_cons {F : Type} [Field F] (ve : ℕ × ℕ) (tv : List (ℕ × ℕ)) :
    (toMvT (ve :: tv) : MvPolynomial ℕ F) =
      MvPolynomial.X ve.1 ^ ve.2 * toMvT tv := by
  unfold toMvT
  rw [List.map_cons, List.prod_cons]

theorem toMv_nil {F : Type} [Field F] :
    toMv ([] : List (F × List (ℕ × ℕ))) = 0 := rfl

theorem toMv_cons {F : Type} [Field F] (t : F × List (ℕ × ℕ))
    (p : List (F × List (ℕ × ℕ))) :
    toMv (t :: p) = MvPolynomial.C t.1 * toMvT t.2 + toMv p := by
  unfold toMv
  rw [List.map_cons, List.sum_cons]

theorem toMv_append {F : Type} [Field F] (p q : List (F × List (ℕ × ℕ))) :
    toMv (p ++ q) = toMv p + toMv q := by
  unfold toMv
  rw [List.map_append, List.sum_append]

theorem toMv_flatten {F : Type} [Field F]
    (L : List (List (F × List (ℕ × ℕ)))) :
    toMv L.flatten = (L.map toMv).sum := by
  induction L with
  | nil => rfl
  | cons l L ih =>
    rw [List.flatten_cons, toMv_append, ih, List.map_cons, List.sum_cons]

theorem find?_var {i : ℕ} {tv : List (ℕ × ℕ)} {pe : ℕ × ℕ}
    (h : tv.find? (fun p => p.1 == i) = some pe) :
    pe.1 = i ∧ pe ∈ tv :=
  ⟨by simpa using List.find?_some h, List.mem_of_find?_eq_some h⟩

theorem toMvT_erase {F : Type} [Field F] {i : ℕ} :
    ∀ {tv : List (ℕ × ℕ)} {pe : ℕ × ℕ},
      tv.Pairwise (fun a b => a.1 < b.1) →
      tv.find? (fun p => p.1 == i) = some pe →
      (toMvT tv : MvPolynomial ℕ F) =
        MvPolynomial.X i ^ pe.2 * toMvT (tvErase tv i) := by
  intro tv
  induction tv with
  | nil => intro pe _ h; simp at h
  | cons q rest ih =>
    intro pe hp hfind
    by_cases hq : q.1 = i
    · have hpe : pe = q := by
        rw [List.find?_cons_of_pos _ (by simpa using hq)] at hfind
        exact (Option.some_injective _ hfind).symm
      subst hpe
      have herase : tvErase (pe :: rest) i = rest := by
        unfold tvErase
        rw [List.filter_cons_of_neg (by simpa using hq)]
        apply List.filter_eq_self.mpr
        intro p hp2
        have := (List.pairwise_cons.mp hp).1 p hp2
        simp
        omega
      rw [herase, toMvT_cons, hq]
    · rw [List.find?_cons_of_neg _ (by simpa using hq)] at hfind
      have herase : tvErase (q :: rest) i = q :: tvErase rest i := by
        unfold tvErase
        rw [List.filter_cons_of_pos (by simpa using hq)]
      rw [herase, toMvT_cons, toMvT_cons,
        ih (List.Pairwise.of_cons hp) hfind]
      ring

theorem toMvT_setPow {F : Type} [Field F] {i : ℕ} (k : ℕ) :
    ∀ {tv : List (ℕ × ℕ)} {pe : ℕ × ℕ},
      tv.Pairwise (fun a b => a.1 < b.1) →
      tv.find? (fun p => p.1 == i) = some pe →
      (toMvT (setPow tv i k) : MvPolynomial ℕ F) =
        MvPolynomial.X i ^ k * toMvT (tvErase tv i) := by
  intro tv
  induction tv with
  | nil => intro pe _ h; simp at h
  | cons q rest ih =>
    intro pe hp hfind
    by_cases hq : q.1 = i
    · have herase : tvErase (q :: rest) i = rest := by
        unfold tvErase
        rw [List.filter_cons_of_neg (by simpa using hq)]
        apply List.filter_eq_self.mpr
        intro p hp2
        have := (List.pairwise_cons.mp hp).1 p hp2
        simp
        omega
      have hsp : setPow (q :: rest) i k = (i, k) :: rest := by
        unfold setPow
        rw [List.map_cons, if_pos hq]
        congr 1
        have hmap : List.map (fun p : ℕ × ℕ => if p.1 = i then (i, k) else p) rest =
            List.map id rest := by
          apply List.map_congr_left
          intro p hp2
          have := (List.pairwise_cons.mp hp).1 p hp2
          rw [if_neg (show ¬p.1 = i from by omega)]
          rfl
        rw [hmap, List.map_id]
      rw [herase, hsp, toMvT_cons]
    · rw [List.find?_cons_of_neg _ (by simpa using hq)] at hfind
      have herase : tvErase (q :: rest) i = q :: tvErase rest i := by
        unfold tvErase
        rw [List.filter_cons_of_pos (by simpa using hq)]
      have hsp : setPow (q :: rest) i k = q :: setPow rest i k := by
        unfold setPow
        rw [List.map_cons, if_neg hq]
      rw [herase, hsp, toMvT_cons, toMvT_cons,
        ih (List.Pairwise.of_cons hp) hfind]
      ring

theorem tvErase_wf {tv : List (ℕ × ℕ)} (hwf : TermBasicWF tv) (i : ℕ) :
    TermBasicWF (tvErase tv i) ∧
      ∀ ve ∈ tvErase tv i, ve ∈ tv ∧ ve.1 ≠ i := by
  obtain ⟨hp, hpow⟩ := hwf
  refine ⟨⟨List.Pairwise.filter _ hp, ?_⟩, ?_⟩
  · intro ve hve
    exact hpow ve (List.mem_of_mem_filter hve)
  · intro ve hve
    have h1 := List.mem_of_mem_filter hve
    have h2 := List.of_mem_filter hve
    simp at h2
    exact ⟨h1, h2⟩

theorem setPow_wf {tv : List (ℕ × ℕ)} (hwf : TermBasicWF tv) (i k : ℕ)
    (hk : 1 ≤ k) : TermBasicWF (setPow tv i k) := by
  obtain ⟨hp, hpow⟩ := hwf
  constructor
  · unfold setPow
    rw [List.pairwise_map]
    apply hp.imp_of_mem
    intro a b _ _ hab
    by_cases ha : a.1 = i <;> by_cases hb : b.1 = i <;>
      simp [ha, hb] <;> omega
  · intro ve hve
    unfold setPow at hve
    rw [List.mem_map] at hve
    obtain ⟨p, hpmem, hpe⟩ := hve
    by_cases hpi : p.1 = i
    · rw [if_pos hpi] at hpe
      rw [← hpe]
      exact hk
    · rw [if_neg hpi] at hpe
      rw [← hpe]
      exact hpow p hpmem

theorem stripVar_zero {F : Type} [Field F] (i : ℕ) (zi : F)
    (tv : List (ℕ × ℕ)) (c : F) : stripVar i zi tv c 0 = ([], c) := rfl

theorem stripVar_one {F : Type} [Field F] (i : ℕ) (zi : F)
    (tv : List (ℕ × ℕ)) (c : F) : stripVar i zi tv c 1 = ([], c) := rfl

theorem stripVar_succ2 {F : Type} [Field F] (i : ℕ) (zi : F)
    (tv : List (ℕ × ℕ)) (c : F) (e : ℕ) :
    stripVar i zi tv c (e + 2) =
      ((c, term_new (setPow tv i (e + 1))) ::
        (stripVar i zi tv (c * zi) (e + 1)).1,
       (stripVar i zi tv (c * zi) (e + 1)).2) := rfl

theorem stripVar_spec {F : Type} [Field F] (i : ℕ) (zi : F)
    (tv : List (ℕ × ℕ)) (R : MvPolynomial ℕ F)
    (hset : ∀ k, 1 ≤ k →
      (toMvT (term_new (setPow tv i k)) : MvPolynomial ℕ F) =
        MvPolynomial.X i ^ k * R) :
    ∀ e, 1 ≤ e → ∀ c : F,
      (stripVar i zi tv c e).2 = c * zi ^ (e - 1) ∧
      (MvPolynomial.X i - MvPolynomial.C zi) * toMv (stripVar i zi tv c e).1 =
        MvPolynomial.C c * MvPolynomial.X i ^ e * R -
          MvPolynomial.C (c * zi ^ (e - 1)) * MvPolynomial.X i * R := by
  intro e
  induction e with
  | zero => intro h; omega
  | succ e ih =>
    intro _ c
    cases e with
    | zero =>
      constructor
      · rw [stripVar_one]
        simp
      · rw [stripVar_one]
        show (MvPolynomial.X i - MvPolynomial.C zi) * toMv [] = _
        rw [toMv_nil]
        simp
    | succ e2 =>
      have ihe := ih (by omega) (c * zi)
      rw [stripVar_succ2]
      constructor
      · show (stripVar i zi tv (c * zi) (e2 + 1)).2 = c * zi ^ (e2 + 2 - 1)
        rw [ihe.1]
        show c * zi * zi ^ e2 = c * zi ^ (e2 + 1)
        ring
      · rw [toMv_cons]
        show (MvPolynomial.X i - MvPolynomial.C zi) *
            (MvPolynomial.C c * toMvT (term_new (setPow tv i (e2 + 1))) +
              toMv (stripVar i zi tv (c * zi) (e2 + 1)).1) = _
        rw [hset (e2 + 1) (by omega)]
        have ihe2 := ihe.2
        simp only [Nat.add_sub_cancel] at ihe2 ⊢
        simp only [map_mul, map_pow] at ihe2 ⊢
        linear_combination ihe2

theorem divideTermStep_nil {F : Type} [Field F] (i : ℕ) (zi c : F) :
    divideTermStep i zi c ([] : List (ℕ × ℕ)) = ([], []) := rfl

theorem divideTermStep_none {F : Type} [Field F] (i : ℕ) (zi c : F)
    {tv : List (ℕ × ℕ)} (h0 : tv ≠ [])
    (hfind : tv.find? (fun p => p.1 == i) = none) :
    divideTermStep i zi c tv = ([], [(c, tv)]) := by
  unfold divideTermStep
  rw [if_neg h0, hfind]

theorem divideTermStep_some {F : Type} [Field F] (i : ℕ) (zi c : F)
    {tv : List (ℕ × ℕ)} {pe : ℕ × ℕ} (h0 : tv ≠ [])
    (hfind : tv.find? (fun p => p.1 == i) = some pe) :
    divideTermStep i zi c tv =
      ((stripVar i zi tv c pe.2).1 ++
        [((stripVar i zi tv c pe.2).2, term_new (tvErase tv i))],
       [(zi * (stripVar i zi tv c pe.2).2, term_new (tvErase tv i))]) := by
  unfold divideTermStep
  rw [if_neg h0, hfind]

theorem divideTermStep_spec {F : Type} [Field F] (i : ℕ) (zi c : F)
    {tv : List (ℕ × ℕ)} (hwf : TermBasicWF tv) :
    MvPolynomial.C c * (toMvT tv : MvPolynomial ℕ F) =
      (MvPolynomial.X i - MvPolynomial.C zi) *
          toMv (divideTermStep i zi c tv).1 +
        toMv (divideTermStep i zi c tv).2 +
        (if tv = [] then MvPolynomial.C c else 0) := by
  by_cases h0 : tv = []
  · subst h0
    rw [divideTermStep_nil, if_pos rfl, toMvT_nil]
    show MvPolynomial.C c * 1 =
      (MvPolynomial.X i - MvPolynomial.C zi) * toMv [] + toMv [] +
        MvPolynomial.C c
    rw [toMv_nil]
    ring
  · rw [if_neg h0]
    cases hfind : tv.find? (fun p => p.1 == i) with
    | none =>
      rw [divideTermStep_none i zi c h0 hfind, toMv_nil, toMv_cons, toMv_nil]
      ring
    | some pe =>
      obtain ⟨hpe1, hpemem⟩ := find?_var hfind
      have hpe2 : 1 ≤ pe.2 := hwf.2 pe hpemem
      have htn_erase : term_new (tvErase tv i) = tvErase tv i :=
        term_new_id (tvErase_wf hwf i).1
      have hset : ∀ k, 1 ≤ k →
          (toMvT (term_new (setPow tv i k)) : MvPolynomial ℕ F) =
            MvPolynomial.X i ^ k * toMvT (tvErase tv i) := by
        intro k hk
        rw [term_new_id (setPow_wf hwf i k hk)]
        exact toMvT_setPow k hwf.1 hfind
      have hsv := stripVar_spec i zi tv (toMvT (tvErase tv i)) hset pe.2 hpe2 c
      rw [divideTermStep_some i zi c h0 hfind, toMv_append, toMv_cons,
        toMv_nil, toMv_cons, toMv_nil, htn_erase,
        toMvT_erase hwf.1 hfind]
      dsimp only
      rw [hsv.1]
      have hsv2 := hsv.2
      simp only [map_mul, map_pow] at hsv2 ⊢
      linear_combination -hsv2

theorem divideTermStep_rem_facts {F : Type} [Field F] (i : ℕ) (zi c : F)
    {tv : List (ℕ × ℕ)} (hwf : TermBasicWF tv) :
    ∀ t ∈ (divideTermStep i zi c tv).2, TermBasicWF t.2 ∧
      ∀ ve ∈ t.2, ve ∈ tv ∧ ve.1 ≠ i := by
  by_cases h0 : tv = []
  · subst h0
    rw [divideTermStep_nil]
    intro t ht
    simp at ht
  · cases hfind : tv.find? (fun p => p.1 == i) with
    | none =>
      rw [divideTermStep_none i zi c h0 hfind]
      intro t ht
      rw [List.mem_singleton] at ht
      subst ht
      refine ⟨hwf, fun ve hve => ⟨hve, ?_⟩⟩
      have := List.find?_eq_none.mp hfind ve hve
      simpa using this
    | some pe =>
      rw [divideTermStep_some i zi c h0 hfind]
      intro t ht
      rw [List.mem_singleton] at ht
      subst ht
      have hef := tvErase_wf hwf i
      rw [term_new_id hef.1]
      exact ⟨hef.1, hef.2⟩

theorem divStep_nil {F : Type} [Field F] (i : ℕ) (zi : F) :
    divStep i zi ([] : List (F × List (ℕ × ℕ))) = ([], []) := rfl

theorem divStep_cons {F : Type} [Field F] (i : ℕ) (zi : F)
    (t : F × List (ℕ × ℕ)) (cur : List (F × List (ℕ × ℕ))) :
    divStep i zi (t :: cur) =
      ((divideTermStep i zi t.1 t.2).1 ++ (divStep i zi cur).1,
       (divideTermStep i zi t.1 t.2).2 ++ (divStep i zi cur).2) := rfl

theorem divStep_spec {F : Type} [Field F] (i : ℕ) (zi : F)
    (cur : List (F × List (ℕ × ℕ))) (hwf : ∀ t ∈ cur, TermBasicWF t.2) :
    ∃ d : F, toMv cur =
      (MvPolynomial.X i - MvPolynomial.C zi) * toMv (divStep i zi cur).1 +
        toMv (divStep i zi cur).2 + MvPolynomial.C d := by
  induction cur with
  | nil =>
    refine ⟨0, ?_⟩
    rw [divStep_nil]
    show toMv [] = _ * toMv [] + toMv [] + MvPolynomial.C 0
    rw [toMv_nil]
    simp
  | cons t cur ih =>
    obtain ⟨d, hd⟩ := ih (fun t2 ht2 => hwf t2 (List.mem_cons_of_mem _ ht2))
    refine ⟨(if t.2 = [] then t.1 else 0) + d, ?_⟩
    have hstep := divideTermStep_spec i zi t.1 (hwf t (List.mem_cons_self _ _))
    rw [divStep_cons, toMv_cons]
    dsimp only
    rw [toMv_append, toMv_append, hd, hstep, map_add]
    by_cases h0 : t.2 = []
    · rw [if_pos h0, if_pos h0]
      ring
    · rw [if_neg h0, if_neg h0, map_zero]
      ring

theorem divStep_rem_facts {F : Type} [Field F] (i : ℕ) (zi : F)
    (cur : List (F × List (ℕ × ℕ))) (hwf : ∀ t ∈ cur, TermBasicWF t.2) :
    ∀ t ∈ (divStep i zi cur).2, TermBasicWF t.2 ∧
      ∀ ve ∈ t.2, ve.1 ≠ i ∧ ∃ t0 ∈ cur, ve ∈ t0.2 := by
  intro t ht
  simp only [divStep] at ht
  rw [List.mem_flatten] at ht
  obtain ⟨l, hl, htl⟩ := ht
  rw [List.mem_map] at hl
  obtain ⟨t0, ht0, hlt0⟩ := hl
  rw [← hlt0] at htl
  have hfacts := divideTermStep_rem_facts i zi t0.1 (hwf t0 ht0) t htl
  exact ⟨hfacts.1, fun ve hve =>
    ⟨(hfacts.2 ve hve).2, ⟨t0, ht0, (hfacts.2 ve hve).1⟩⟩⟩

theorem divideLoopFull_zero_fst {F : Type} [Field F] (z : ℕ → F)
    (cur : List (F × List (ℕ × ℕ))) (i : ℕ) :
    (divideLoopFull z cur i 0).1 = [] := rfl

theorem divideLoopFull_zero_snd {F : Type} [Field F] (z : ℕ → F)
    (cur : List (F × List (ℕ × ℕ))) (i : ℕ) :
    (divideLoopFull z cur i 0).2 = cur := rfl

theorem divideLoopFull_succ_fst {F : Type} [Field F] (z : ℕ → F)
    (cur : List (F × List (ℕ × ℕ))) (i k : ℕ) :
    (divideLoopFull z cur i (k + 1)).1 =
      (divStep i (z i) cur).1 ::
        (divideLoopFull z (divStep i (z i) cur).2 (i + 1) k).1 := rfl

theorem divideLoopFull_succ_snd {F : Type} [Field F] (z : ℕ → F)
    (cur : List (F × List (ℕ × ℕ))) (i k : ℕ) :
    (divideLoopFull z cur i (k + 1)).2 =
      (divideLoopFull z (divStep i (z i) cur).2 (i + 1) k).2 := rfl

theorem divideLoopFull_spec {F : Type} [Field F] (z : ℕ → F) :
    ∀ (k i : ℕ) (cur : List (F × List (ℕ × ℕ))),
      (∀ t ∈ cur, TermBasicWF t.2) → VarsGE i cur →
      (∃ d : F, toMv cur =
        (∑ j ∈ Finset.range k,
          (MvPolynomial.X (i + j) - MvPolynomial.C (z (i + j))) *
            toMv ((divideLoopFull z cur i k).1.getD j [])) +
          toMv (divideLoopFull z cur i k).2 + MvPolynomial.C d) ∧
      (∀ t ∈ (divideLoopFull z cur i k).2, TermBasicWF t.2) ∧
      VarsGE (i + k) (divideLoopFull z cur i k).2 ∧
      (∀ n, (∀ t ∈ cur, ∀ ve ∈ t.2, ve.1 < n) →
        ∀ t ∈ (divideLoopFull z cur i k).2, ∀ ve ∈ t.2, ve.1 < n) ∧
      (divideLoopFull z cur i k).1.length = k := by
  intro k
  induction k with
  | zero =>
    intro i cur hwf hge
    refine ⟨⟨0, ?_⟩, hwf, by simpa using hge, fun n h => h, rfl⟩
    rw [divideLoopFull_zero_snd]
    simp
  | succ k ih =>
    intro i cur hwf hge
    have hrem := divStep_rem_facts i (z i) cur hwf
    have hwf2 : ∀ t ∈ (divStep i (z i) cur).2, TermBasicWF t.2 :=
      fun t ht => (hrem t ht).1
    have hge2 : VarsGE (i + 1) (divStep i (z i) cur).2 := by
      intro t ht ve hve
      obtain ⟨hne, t0, ht0, hvet0⟩ := (hrem t ht).2 ve hve
      have := hge t0 ht0 ve hvet0
      omega
    obtain ⟨⟨d1, hd1⟩, hwfr, hger, hbound, hlen⟩ :=
      ih (i + 1) (divStep i (z i) cur).2 hwf2 hge2
    obtain ⟨d0, hd0⟩ := divStep_spec i (z i) cur hwf
    refine ⟨⟨d0 + d1, ?_⟩, ?_, ?_, ?_, ?_⟩
    · rw [divideLoopFull_succ_fst, divideLoopFull_succ_snd,
        Finset.sum_range_succ']
      have hsum : ∑ j ∈ Finset.range k,
          (MvPolynomial.X (i + (j + 1)) -
              MvPolynomial.C (z (i + (j + 1)))) *
            toMv (((divStep i (z i) cur).1 ::
              (divideLoopFull z (divStep i (z i) cur).2 (i + 1) k).1).getD
                (j + 1) []) =
          ∑ j ∈ Finset.range k,
          (MvPolynomial.X (i + 1 + j) - MvPolynomial.C (z (i + 1 + j))) *
            toMv ((divideLoopFull z (divStep i (z i) cur).2
              (i + 1) k).1.getD j []) := by
        apply Finset.sum_congr rfl
        intro j _
        rw [List.getD_cons_succ, show i + (j + 1) = i + 1 + j from by omega]
      rw [hsum]
      simp only [Nat.add_zero, List.getD_cons_zero]
      rw [hd0, hd1, map_add]
      abel
    · rw [divideLoopFull_succ_snd]
      exact hwfr
    · rw [divideLoopFull_succ_snd]
      have : i + (k + 1) = i + 1 + k := by omega
      rw [this]
      exact hger
    · intro n h
      rw [divideLoopFull_succ_snd]
      apply hbound n
      intro t ht ve hve
      obtain ⟨hne, t0, ht0, hvet0⟩ := (hrem t ht).2 ve hve
      exact h t0 ht0 ve hvet0
    · rw [divideLoopFull_succ_fst, List.length_cons, hlen]

theorem toMv_all_const {F : Type} [Field F] :
    ∀ {q : List (F × List (ℕ × ℕ))}, (∀ t ∈ q, t.2 = []) →
      toMv q = MvPolynomial.C ((q.map (fun t => t.1)).sum) := by
  intro q
  induction q with
  | nil =>
    intro _
    rw [toMv_nil]
    simp
  | cons t q ih =>
    intro h
    rw [toMv_cons, h t (List.mem_cons_self _ _), toMvT_nil, List.map_cons,
      List.sum_cons, map_add, ih (fun t2 ht2 => h t2 (List.mem_cons_of_mem _ ht2))]
    ring

theorem toMvT_eval {F : Type} [Field F] (tv : List (ℕ × ℕ)) (z : ℕ → F) :
    MvPolynomial.eval z (toMvT tv) =
      (tv.map (fun ve => z ve.1 ^ ve.2)).prod := by
  induction tv with
  | nil =>
    rw [toMvT_nil]
    simp
  | cons ve tv ih =>
    rw [toMvT_cons, map_mul, map_pow, MvPolynomial.eval_X, ih,
      List.map_cons, List.prod_cons]

theorem sparse_evaluate_eq_eval {F : Type} [Field F]
    (p : List (F × List (ℕ × ℕ))) (z : ℕ → F) :
    sparse_evaluate p z = MvPolynomial.eval z (toMv p) := by
  induction p with
  | nil =>
    rw [toMv_nil]
    simp [sparse_evaluate]
  | cons t p ih =>
    rw [toMv_cons, map_add, map_mul, MvPolynomial.eval_C, ← ih, toMvT_eval]
    unfold sparse_evaluate
    rw [List.map_cons, List.sum_cons]

theorem replicate_getD_self {α : Type} :
    ∀ (n j : ℕ) (a : α), (List.replicate n a).getD j a = a := by
  intro n
  induction n with
  | zero =>
    intro j a
    simp
  | succ n ih =>
    intro j a
    cases j with
    | zero => rfl
    | succ j => exact ih j a

theorem divide_at_point_identity {F : Type} [Field F] [DecidableEq F]
    (n : ℕ) (p : List (F × List (ℕ × ℕ))) (z : ℕ → F) (hwf : PolyWF n p) :
    toMv p - MvPolynomial.C (sparse_evaluate p z) =
      (∑ i ∈ Finset.range n,
        toMv ((divide_at_point n p z).getD i []) *
          (MvPolynomial.X i - MvPolynomial.C (z i))) ∧
    (divide_at_point n p z).length = n := by
  by_cases h0 : p = []
  · subst h0
    constructor
    · rw [toMv_nil]
      have hz : sparse_evaluate ([] : List (F × List (ℕ × ℕ))) z = 0 := by
        simp [sparse_evaluate]
      rw [hz]
      have hq : ∀ i,
          (divide_at_point n ([] : List (F × List (ℕ × ℕ))) z).getD i [] =
            [] := by
        intro i
        unfold divide_at_point
        rw [if_pos rfl]
        exact replicate_getD_self n i []
      rw [Finset.sum_congr rfl (fun i _ => by rw [hq i, toMv_nil, zero_mul])]
      simp
    · unfold divide_at_point
      rw [if_pos rfl, List.length_replicate]
  · have hwf1 : ∀ t ∈ p, TermBasicWF t.2 := fun t ht => (hwf t ht).1
    have hge : VarsGE 0 p := fun t _ ve _ => Nat.zero_le _
    obtain ⟨⟨d, hd⟩, hwfr, hger, hbound, hlen⟩ :=
      divideLoopFull_spec z n 0 p hwf1 hge
    have hconst : ∀ t ∈ (divideLoopFull z p 0 n).2, t.2 = [] := by
      intro t ht
      by_contra hne
      obtain ⟨ve, hve⟩ := List.exists_mem_of_ne_nil t.2 hne
      have h1 := hger t ht ve hve
      have h2 := hbound n (fun t2 ht2 ve2 hve2 => (hwf t2 ht2).2 ve2 hve2)
        t ht ve hve
      omega
    have hrC := toMv_all_const hconst
    have hdiv : divide_at_point n p z = (divideLoopFull z p 0 n).1 := by
      unfold divide_at_point
      rw [if_neg h0]
    have heval : sparse_evaluate p z =
        (((divideLoopFull z p 0 n).2).map (fun t => t.1)).sum + d := by
      rw [sparse_evaluate_eq_eval, hd, hrC, map_add, map_add,
        MvPolynomial.eval_C, MvPolynomial.eval_C]
      have hzero : MvPolynomial.eval z (∑ j ∈ Finset.range n,
          (MvPolynomial.X (0 + j) - MvPolynomial.C (z (0 + j))) *
            toMv ((divideLoopFull z p 0 n).1.getD j [])) = 0 := by
        rw [map_sum]
        apply Finset.sum_eq_zero
        intro j _
        rw [map_mul, map_sub, MvPolynomial.eval_X, MvPolynomial.eval_C,
          sub_self, zero_mul]
      rw [hzero, zero_add]
    constructor
    · rw [hdiv, hd, hrC, heval, map_add]
      have hswap : ∑ j ∈ Finset.range n,
          (MvPolynomial.X (0 + j) - MvPolynomial.C (z (0 + j))) *
            toMv ((divideLoopFull z p 0 n).1.getD j []) =
          ∑ j ∈ Finset.range n,
          toMv ((divideLoopFull z p 0 n).1.getD j []) *
            (MvPolynomial.X j - MvPolynomial.C (z j)) := by
        apply Finset.sum_congr rfl
        intro j _
        rw [Nat.zero_add, mul_comm]
      rw [hswap]
      ring
    · rw [hdiv]
      exact hlen

/-! ### Branch evaluation of the setup and trim functions -/

theorem special_setup_with_beta_none {F : Type} [Field F]
    (max_degree : ℕ) (rng betas : ℕ → F) :
    special_setup_with_beta max_degree none rng betas =
      Except.error ArkError.invalidNumberOfVariables := rfl

theorem special_setup_with_beta_err_nv {F : Type} [Field F]
    (max_degree nv : ℕ) (rng betas : ℕ → F) (h : nv = 0) :
    special_setup_with_beta max_degree (some nv) rng betas =
      Except.error ArkError.invalidNumberOfVariables := by
  subst h
  rfl

theorem special_setup_with_beta_err_deg {F : Type} [Field F]
    (max_degree nv : ℕ) (rng betas : ℕ → F) (h1 : 1 ≤ nv)
    (h2 : max_degree = 0) :
    special_setup_with_beta max_degree (some nv) rng betas =
      Except.error ArkError.degreeIsZero := by
  subst h2
  simp only [special_setup_with_beta]
  rw [if_neg (by omega), if_pos (by omega)]

theorem special_setup_with_beta_ok {F : Type} [Field F]
    (max_degree nv : ℕ) (rng betas : ℕ → F) (h1 : 1 ≤ nv)
    (h2 : 1 ≤ max_degree) :
    special_setup_with_beta max_degree (some nv) rng betas =
      Except.ok { num_vars := nv
                  max_degree := max_degree
                  powers_of_g := maskTable (rng 0) betas nv max_degree
                  gamma_g := rng 1
                  powers_of_gamma_g := (List.range nv).map fun i =>
                    (List.range (max_degree + 1)).map fun j =>
                      rng 1 * betas i ^ (j + 1)
                  h := rng 2
                  beta_h := (List.range nv).map fun i =>
                    rng 2 * betas i } := by
  simp only [special_setup_with_beta]
  rw [if_neg (by omega), if_neg (by omega)]

theorem zkml_setup_ok {F : Type} [Field F] (num_vars hiding_bound : ℕ)
    (rng : ℕ → F) (h1 : 1 ≤ num_vars) (h2 : 1 ≤ hiding_bound) :
    zkml_setup num_vars hiding_bound rng =
      Res.ok (zkml_setup_value num_vars hiding_bound rng) := by
  simp only [zkml_setup]
  rw [if_neg (by omega),
    special_setup_with_beta_ok hiding_bound num_vars
      (fun k => rng (2 + num_vars + k)) (fun i => rng (2 + i)) h1 h2]
  rfl

theorem zkml_setup_panics_deg {F : Type} [Field F]
    (num_vars : ℕ) (rng : ℕ → F) (h1 : 1 ≤ num_vars) :
    zkml_setup num_vars 0 rng =
      Res.panicked (arkErrorMessage ArkError.degreeIsZero) := by
  simp only [zkml_setup]
  rw [if_neg (by omega),
    special_setup_with_beta_err_deg 0 num_vars
      (fun k => rng (2 + num_vars + k)) (fun i => rng (2 + i)) h1 rfl]

/-- C5: `special_setup` returns `InvalidNumberOfVariables` exactly when
the variable count is absent or below one, `DegreeIsZero` exactly when
the variable count is at least one but the maximum degree is below one,
and parameters otherwise. -/
theorem C5_special_setup_errors {F : Type} [Field F] (max_degree : ℕ)
    (num_vars : Option ℕ) (rng : ℕ → F) :
    (special_setup max_degree num_vars rng =
        Except.error ArkError.invalidNumberOfVariables ↔
      num_vars = none ∨ ∃ nv, num_vars = some nv ∧ nv < 1) ∧
    (special_setup max_degree num_vars rng =
        Except.error ArkError.degreeIsZero ↔
      ∃ nv, num_vars = some nv ∧ 1 ≤ nv ∧ max_degree < 1) ∧
    ((∃ pp, special_setup max_degree num_vars rng = Except.ok pp) ↔
      ∃ nv, num_vars = some nv ∧ 1 ≤ nv ∧ 1 ≤ max_degree) := by
  cases num_vars with
  | none => simp [special_setup]
  | some nv =>
    by_cases h1 : nv < 1
    · simp only [special_setup]
      rw [if_pos h1]
      refine ⟨⟨fun _ => Or.inr ⟨nv, rfl, h1⟩, fun _ => rfl⟩, ?_, ?_⟩
      · constructor
        · intro h
          simp at h
        · intro ⟨nv2, hnv2, hge, _⟩
          rw [Option.some_inj] at hnv2
          omega
      · constructor
        · intro ⟨pp, hpp⟩
          simp at hpp
        · intro ⟨nv2, hnv2, hge, _⟩
          rw [Option.some_inj] at hnv2
          omega
    · by_cases h2 : max_degree < 1
      · simp only [special_setup]
        rw [if_neg h1, if_pos h2]
        refine ⟨?_, ⟨fun _ => ⟨nv, rfl, by omega, h2⟩, fun _ => rfl⟩, ?_⟩
        · constructor
          · intro h
            simp at h
          · intro h
            rcases h with h | ⟨nv2, hnv2, hlt⟩
            · simp at h
            · rw [Option.some_inj] at hnv2
              omega
        · constructor
          · intro ⟨pp, hpp⟩
            simp at hpp
          · intro ⟨nv2, hnv2, _, hdeg⟩
            omega
      · simp only [special_setup]
        rw [if_neg h1, if_neg h2,
          special_setup_with_beta_ok max_degree nv
            (fun k => rng (nv + k)) (fun i => rng i) (by omega) (by omega)]
        refine ⟨?_, ?_, ?_⟩
        · constructor
          · intro h
            simp at h
          · intro h
            rcases h with h | ⟨nv2, hnv2, hlt⟩
            · simp at h
            · rw [Option.some_inj] at hnv2
              omega
        · constructor
          · intro h
            simp at h
          · intro ⟨nv2, hnv2, _, hdeg⟩
            omega
        · exact ⟨fun _ => ⟨nv, rfl, by omega, by omega⟩, fun _ => ⟨_, rfl⟩⟩

/-- C6 (counterexample to the claim as stated): with zero variables the
setup aborts by panic (the failed assertion) instead of returning a
recoverable error value. -/
theorem C6_zkml_setup_counterexample :
    zkml_setup 0 1 rngC =
      Res.panicked "constant polynomial not supported" := rfl

/-- C6 (amended): `ZKMLCommit::setup` enforces the same dimension
preconditions as the mask-PC setup, but violations abort by panic (the
assertion message for zero variables, the unwrap message of
`DegreeIsZero` for a zero hiding bound) rather than propagating as
recoverable error values; the setup returns a value exactly when both
preconditions hold. -/
theorem C6_zkml_setup_panics {F : Type} [Field F]
    (num_vars hiding_bound : ℕ) (rng : ℕ → F) :
    (num_vars = 0 →
      zkml_setup num_vars hiding_bound rng =
        Res.panicked "constant polynomial not supported") ∧
    (1 ≤ num_vars → hiding_bound = 0 →
      zkml_setup num_vars hiding_bound rng =
        Res.panicked (arkErrorMessage ArkError.degreeIsZero)) ∧
    ((∃ pp, zkml_setup num_vars hiding_bound rng = Res.ok pp) ↔
      1 ≤ num_vars ∧ 1 ≤ hiding_bound) := by
  refine ⟨?_, ?_, ?_, ?_⟩
  · intro h
    subst h
    rfl
  · intro h1 h2
    subst h2
    exact zkml_setup_panics_deg num_vars rng h1
  · intro ⟨pp, hpp⟩
    by_cases h1 : num_vars = 0
    · subst h1
      simp [zkml_setup] at hpp
    · by_cases h2 : hiding_bound = 0
      · subst h2
        rw [zkml_setup_panics_deg num_vars rng (by omega)] at hpp
        simp at hpp
      · exact ⟨by omega, by omega⟩
  · intro ⟨h1, h2⟩
    exact ⟨_, zkml_setup_ok num_vars hiding_bound rng h1 h2⟩

theorem C6_zkml_setup_panics_witness :
    zkml_setup 1 0 rngC =
      Res.panicked (arkErrorMessage ArkError.degreeIsZero) :=
  (C6_zkml_setup_panics 1 0 rngC).2.1 (by decide) rfl

/-- C8: the zero-knowledge sumcheck wrapper accepts exactly when both
the round verification and the mask-opening check succeed, reports a
round failure, a mask-check error and a mask rejection through three
distinct constructors, and never reports a mask failure as a round
failure. -/
theorem C8_wrapper_accept_iff {F : Type}
    (verify_zk : F → Except String (SubClaimM F))
    (pst_check : SubClaimM F → Except String Bool) (challenge : F) :
    ((∃ sc, zk_sumcheck_verifier_wrapper verify_zk pst_check challenge =
        Except.ok sc) ↔
      ∃ sc, verify_zk challenge = Except.ok sc ∧
        pst_check sc = Except.ok true) ∧
    (∀ e, verify_zk challenge = Except.error e →
      zk_sumcheck_verifier_wrapper verify_zk pst_check challenge =
        Except.error (WrapErr.roundError e)) ∧
    (∀ sc, verify_zk challenge = Except.ok sc →
      ∀ e, pst_check sc = Except.error e →
        zk_sumcheck_verifier_wrapper verify_zk pst_check challenge =
          Except.error (WrapErr.maskCheckError e)) ∧
    (∀ sc, verify_zk challenge = Except.ok sc →
      pst_check sc = Except.ok false →
        zk_sumcheck_verifier_wrapper verify_zk pst_check challenge =
          Except.error WrapErr.maskRejected) ∧
    (∀ sc, verify_zk challenge = Except.ok sc →
      ∀ e, zk_sumcheck_verifier_wrapper verify_zk pst_check challenge ≠
        Except.error (WrapErr.roundError e)) := by
  refine ⟨⟨?_, ?_⟩, ?_, ?_, ?_, ?_⟩
  · intro ⟨sc, hsc⟩
    unfold zk_sumcheck_verifier_wrapper at hsc
    cases hv : verify_zk challenge with
    | error e =>
      rw [hv] at hsc
      exact Except.noConfusion hsc
    | ok sc2 =>
      rw [hv] at hsc
      cases hp : pst_check sc2 with
      | error e =>
        have hsc2 : (match pst_check sc2 with
            | Except.error e => Except.error (WrapErr.maskCheckError e)
            | Except.ok flag => if flag = true then Except.ok sc2
                else Except.error WrapErr.maskRejected) =
            Except.ok sc := hsc
        rw [hp] at hsc2
        exact Except.noConfusion hsc2
      | ok flag =>
        have hsc2 : (match pst_check sc2 with
            | Except.error e => Except.error (WrapErr.maskCheckError e)
            | Except.ok flag => if flag = true then Except.ok sc2
                else Except.error WrapErr.maskRejected) =
            Except.ok sc := hsc
        rw [hp] at hsc2
        cases flag with
        | false => exact Except.noConfusion hsc2
        | true => exact ⟨sc2, rfl, hp⟩
  · intro ⟨sc, hv, hp⟩
    refine ⟨sc, ?_⟩
    unfold zk_sumcheck_verifier_wrapper
    rw [hv]
    show (match pst_check sc with
      | Except.error e => Except.error (WrapErr.maskCheckError e)
      | Except.ok flag => if flag = true then Except.ok sc
          else Except.error WrapErr.maskRejected) = Except.ok sc
    rw [hp]
    rfl
  · intro e hv
    unfold zk_sumcheck_verifier_wrapper
    rw [hv]
  · intro sc hv e hp
    unfold zk_sumcheck_verifier_wrapper
    rw [hv]
    show (match pst_check sc with
      | Except.error e => Except.error (WrapErr.maskCheckError e)
      | Except.ok flag => if flag = true then Except.ok sc
          else Except.error WrapErr.maskRejected) =
      Except.error (WrapErr.maskCheckError e)
    rw [hp]
  · intro sc hv hp
    unfold zk_sumcheck_verifier_wrapper
    rw [hv]
    show (match pst_check sc with
      | Except.error e => Except.error (WrapErr.maskCheckError e)
      | Except.ok flag => if flag = true then Except.ok sc
          else Except.error WrapErr.maskRejected) =
      Except.error WrapErr.maskRejected
    rw [hp]
    rfl
  · intro sc hv e
    unfold zk_sumcheck_verifier_wrapper
    rw [hv]
    show (match pst_check sc with
      | Except.error e => Except.error (WrapErr.maskCheckError e)
      | Except.ok flag => if flag = true then Except.ok sc
          else Except.error WrapErr.maskRejected) ≠
      Except.error (WrapErr.roundError e)
    cases hp : pst_check sc with
    | error e2 =>
      intro hcon
      exact WrapErr.noConfusion (Except.error.inj hcon)
    | ok flag =>
      cases flag with
      | false =>
        intro hcon
        exact WrapErr.noConfusion (Except.error.inj hcon)
      | true =>
        intro hcon
        exact Except.noConfusion hcon

theorem C8_wrapper_accept_iff_witness :
    ∃ sc, zk_sumcheck_verifier_wrapper
      (fun _ => Except.ok (⟨[], 0⟩ : SubClaimM (ZMod 101)))
      (fun _ => Except.ok true) 0 = Except.ok sc :=
  (C8_wrapper_accept_iff
    (fun _ => Except.ok (⟨[], 0⟩ : SubClaimM (ZMod 101)))
    (fun _ => Except.ok true) 0).1.mpr ⟨⟨[], 0⟩, rfl, rfl⟩

theorem getD_zipWith_add {F : Type} [Field F] (a b : List F) (i : ℕ)
    (h : i < (List.zipWith (fun x y => x + y) a b).length) :
    (List.zipWith (fun x y => x + y) a b).getD i 0 =
      a.getD i 0 + b.getD i 0 := by
  have h2 := h
  rw [List.length_zipWith] at h2
  rw [List.getD_eq_getElem _ _ h, List.getElem_zipWith,
    List.getD_eq_getElem a 0 (by omega), List.getD_eq_getElem b 0 (by omega)]

/-- C2 (amended): `ZKMLCommit::open` returns quotient commitments that
are element-wise group sums of the base proof and the mask proof, but
its scalar component is the mask polynomial's evaluation alone, not the
sum of base and mask evaluations. -/
theorem C2_open_components {F : Type} [Field F] [DecidableEq F]
    (ck : MLCommitterKey F × MaskCommitterKey F) (e : List F)
    (p_hat : List (F × List (ℕ × ℕ))) (mask_nv : ℕ) (point : ℕ → F) :
    (∀ i, i < (zkml_open ck e p_hat mask_nv point).1.length →
      (zkml_open ck e p_hat mask_nv point).1.getD i 0 =
        (ml_open ck.1 e point).getD i 0 +
          (special_open ck.2 p_hat mask_nv point).getD i 0) ∧
    (zkml_open ck e p_hat mask_nv point).2 =
      sparse_evaluate p_hat point := by
  refine ⟨?_, rfl⟩
  intro i hi
  exact getD_zipWith_add (ml_open ck.1 e point)
    (special_open ck.2 p_hat mask_nv point) i hi

theorem C2_open_components_witness :
    0 < (zkml_open ckC eC p_hatC 1 zC).1.length ∧
      (zkml_open ckC eC p_hatC 1 zC).1.getD 0 0 =
        (ml_open ckC.1 eC zC).getD 0 0 +
          (special_open ckC.2 p_hatC 1 zC).getD 0 0 :=
  ⟨by decide, (C2_open_components ckC eC p_hatC 1 zC).1 0 (by decide)⟩

/-- C2 (counterexample to the claim as stated): in the concrete
pipeline instance the returned scalar is the mask evaluation alone and
differs from the sum of the base and mask evaluations. -/
theorem C2_open_evaluation_counterexample :
    (zkml_open ckC eC p_hatC 1 zC).2 ≠
      mleEval zC 1 eC + sparse_evaluate p_hatC zC := by decide

/-- C4: for every well-formed polynomial over `num_vars` variables and
every point, `divide_at_point` returns exactly `num_vars` quotients
satisfying `p(X) - p(z) = Σ q_i(X) (X_i - z_i)` (so the discarded final
remainder, against the claimed value `p(z)`, is exactly zero), and
`special_open` returns one quotient commitment per variable. -/
theorem C4_divide_at_point_correct {F : Type} [Field F] [DecidableEq F]
    (ck : MaskCommitterKey F) (num_vars : ℕ)
    (p : List (F × List (ℕ × ℕ))) (z : ℕ → F) (hwf : PolyWF num_vars p) :
    (toMv p - MvPolynomial.C (sparse_evaluate p z) =
      ∑ i ∈ Finset.range num_vars,
        toMv ((divide_at_point num_vars p z).getD i []) *
          (MvPolynomial.X i - MvPolynomial.C (z i))) ∧
    (divide_at_point num_vars p z).length = num_vars ∧
    (special_open ck p num_vars z).length = num_vars := by
  obtain ⟨h1, h2⟩ := divide_at_point_identity num_vars p z hwf
  refine ⟨h1, h2, ?_⟩
  unfold special_open
  rw [List.length_map]
  exact h2

theorem C4_divide_at_point_correct_witness :
    PolyWF 2 pW ∧
      (divide_at_point 2 pW (fun _ => (2 : ZMod 101))).length = 2 ∧
      (special_open ckW pW 2 (fun _ => (2 : ZMod 101))).length = 2 := by
  have hwf : PolyWF 2 pW := by
    unfold PolyWF TermBasicWF pW
    decide
  have h := C4_divide_at_point_correct ckW 2 pW
    (fun _ => (2 : ZMod 101)) hwf
  exact ⟨hwf, h.2.1, h.2.2⟩

theorem getD_drop {α : Type} (l : List α) (n i : ℕ) (d : α) :
    (l.drop n).getD i d = l.getD (n + i) d := by
  rw [List.getD, List.getD, List.get?_drop]

/-- C7: `ZKMLCommit::trim` keeps exactly the trailing `num_variables`
slices of the base power tables (entry `i` of the trimmed tables is
entry `to_reduce + i` of the originals), hands the mask verifier key
through unchanged, removes every non-constant mask key term whose
variable index is below `to_reduce` and re-indexes each retained term
by subtracting `to_reduce` from its variable while keeping its degree
and coefficient, which preserves the relative order of retained
variables. -/
theorem C7_trim_restriction {F : Type} [Field F] [DecidableEq F]
    (param : MLPCParam F × MaskParam F)
    (num_variables deg_for_mask : ℕ)
    (ck2 : MaskCommitterKey F) (vk2 : MaskVerifierKey F)
    (hpst : pst_trim param.2 deg_for_mask 0 = Except.ok (ck2, vk2))
    (hshape : ∀ kv ∈ ck2.powers_of_g, kv.1 = [] ∨
      (kv.1.length = 1 ∧ 1 ≤ (kv.1.map fun ve => ve.2).headD 0)) :
    ∃ ck vk, zkml_trim param num_variables deg_for_mask =
        Res.ok (ck, vk) ∧
      (∀ i, ck.1.powers_of_g.getD i [] =
        param.1.powers_of_g.getD
          (param.1.num_vars - num_variables + i) []) ∧
      (∀ i, ck.1.powers_of_h.getD i [] =
        param.1.powers_of_h.getD
          (param.1.num_vars - num_variables + i) []) ∧
      (∀ i, vk.1.h_mask_random.getD i 0 =
        param.1.h_mask.getD (param.1.num_vars - num_variables + i) 0) ∧
      ck.1.powers_of_g.length =
        param.1.powers_of_g.length -
          (param.1.num_vars - num_variables) ∧
      vk.2 = vk2 ∧
      ck.2.powers_of_g = (ck2.powers_of_g.filter fun kv =>
          kv.1.isEmpty ||
            decide (param.1.num_vars - num_variables ≤
              ((kv.1.map fun ve => ve.1).headD 0))).map
        (fun kv => (kv.1.map fun ve =>
          (ve.1 - (param.1.num_vars - num_variables), ve.2), kv.2)) ∧
      (∀ v1 v2, param.1.num_vars - num_variables ≤ v1 → v1 < v2 →
        v1 - (param.1.num_vars - num_variables) <
          v2 - (param.1.num_vars - num_variables)) := by
  refine ⟨(
    { powers_of_h :=
        param.1.powers_of_h.drop (param.1.num_vars - num_variables)
      powers_of_g :=
        param.1.powers_of_g.drop (param.1.num_vars - num_variables)
      g := param.1.g
      h := param.1.h
      nv := num_variables },
    { ck2 with
      powers_of_g := (ck2.powers_of_g.filter (fun kv =>
          kv.1.isEmpty ||
            decide ((param.1.num_vars - num_variables) ≤
              ((kv.1.map (fun ve => ve.1)).headD 0)))).map
        (fun kv => if kv.1.isEmpty then kv
          else (term_new [((kv.1.map (fun ve => ve.1)).headD 0 -
              (param.1.num_vars - num_variables),
            (kv.1.map (fun ve => ve.2)).headD 0)], kv.2)) }),
   (
    { nv := num_variables
      g := param.1.g
      h := param.1.h
      h_mask_random :=
        param.1.h_mask.drop (param.1.num_vars - num_variables) },
    vk2), ?_, ?_, ?_, ?_, ?_, rfl, ?_, ?_⟩
  · simp only [zkml_trim]
    rw [hpst]
  · intro i
    exact getD_drop param.1.powers_of_g _ i []
  · intro i
    exact getD_drop param.1.powers_of_h _ i []
  · intro i
    exact getD_drop param.1.h_mask _ i 0
  · exact List.length_drop _ _
  · apply List.map_congr_left
    intro kv hkv
    have hmem := List.mem_of_mem_filter hkv
    have hkeep := List.of_mem_filter hkv
    rcases hshape kv hmem with hc | ⟨hlen, hdeg1⟩
    · rw [if_pos (by rw [hc]; rfl), hc, List.map_nil, ← hc]
    · obtain ⟨x, hx⟩ := List.length_eq_one.mp hlen
      have hne : ¬kv.1.isEmpty = true := by
        rw [hx]
        simp
      rw [if_neg hne, hx]
      rw [hx] at hdeg1
      obtain ⟨d2, hd2⟩ := Nat.exists_eq_add_of_le hdeg1
      have hterm : term_new [(x.1 - (param.1.num_vars - num_variables),
          x.2)] = [(x.1 - (param.1.num_vars - num_variables), x.2)] := by
        apply term_new_id
        constructor
        · exact List.pairwise_singleton _ _
        · intro ve hve
          rw [List.mem_singleton] at hve
          subst hve
          simp at hd2 ⊢
          omega
      rw [List.map_cons, List.map_cons, List.map_nil, List.map_nil]
      rw [show ([x.1] : List ℕ).headD 0 = x.1 from rfl,
        show ([x.2] : List ℕ).headD 0 = x.2 from rfl, hterm,
        List.map_cons, List.map_nil]
  · intro v1 v2 h1 h2
    omega

theorem C7_trim_restriction_witness :
    pst_trim paramC.2 1 0 = Except.ok (ck2C, vk2C) ∧
      (∀ kv ∈ ck2C.powers_of_g, kv.1 = [] ∨
        (kv.1.length = 1 ∧ 1 ≤ (kv.1.map fun ve => ve.2).headD 0)) ∧
      ∃ ck vk, zkml_trim paramC 1 1 = Res.ok (ck, vk) ∧
        (∀ i, ck.1.powers_of_g.getD i [] =
          paramC.1.powers_of_g.getD (paramC.1.num_vars - 1 + i) []) ∧
        (∀ i, ck.1.powers_of_h.getD i [] =
          paramC.1.powers_of_h.getD (paramC.1.num_vars - 1 + i) []) ∧
        (∀ i, vk.1.h_mask_random.getD i 0 =
          paramC.1.h_mask.getD (paramC.1.num_vars - 1 + i) 0) ∧
        ck.1.powers_of_g.length =
          paramC.1.powers_of_g.length - (paramC.1.num_vars - 1) ∧
        vk.2 = vk2C ∧
        ck.2.powers_of_g = (ck2C.powers_of_g.filter fun kv =>
            kv.1.isEmpty ||
              decide (paramC.1.num_vars - 1 ≤
                ((kv.1.map fun ve => ve.1).headD 0))).map
          (fun kv => (kv.1.map fun ve =>
            (ve.1 - (paramC.1.num_vars - 1), ve.2), kv.2)) ∧
        (∀ v1 v2, paramC.1.num_vars - 1 ≤ v1 → v1 < v2 →
          v1 - (paramC.1.num_vars - 1) < v2 - (paramC.1.num_vars - 1)) :=
  ⟨rfl, by decide, C7_trim_restriction paramC 1 1 ck2C vk2C rfl (by decide)⟩

/-! ### The setup power tables are equality-extension tensor slices -/

theorem log2fuel_pow : ∀ (k f : ℕ), 2 ^ k ≤ f + 1 → log2fuel f (2 ^ k) = k := by
  intro k
  induction k with
  | zero =>
    intro f _
    cases f with
    | zero => rfl
    | succ f =>
      show (if 2 ^ 0 ≥ 2 then log2fuel f (2 ^ 0 / 2) + 1 else 0) = 0
      rw [if_neg (by norm_num)]
  | succ k ih =>
    intro f hf
    have h2k : 1 ≤ 2 ^ k := Nat.one_le_two_pow
    have hpow : 2 ^ (k + 1) = 2 ^ k * 2 := pow_succ 2 k
    have hf1 : 1 ≤ f := by omega
    obtain ⟨f2, hf2⟩ := Nat.exists_eq_add_of_le hf1
    rw [show f = f2 + 1 from by omega]
    show (if 2 ^ (k + 1) ≥ 2 then log2fuel f2 (2 ^ (k + 1) / 2) + 1 else 0) =
      k + 1
    rw [if_pos (by omega), show 2 ^ (k + 1) / 2 = 2 ^ k from by omega,
      ih f2 (by omega)]

theorem log2c_pow (k : ℕ) : log2c (2 ^ k) = k :=
  log2fuel_pow k (2 ^ k) (Nat.le_succ _)

theorem getD_range_map {α : Type} (f : ℕ → α) (n j : ℕ) (d : α)
    (h : j < n) : ((List.range n).map f).getD j d = f j := by
  rw [List.getD_eq_getElem _ _ (by simpa using h), List.getElem_map,
    List.getElem_range]

theorem getD_zipWith_mul {F : Type} [Field F] (a b : List F) (i : ℕ)
    (h : i < (List.zipWith (fun x y => x * y) a b).length) :
    (List.zipWith (fun x y => x * y) a b).getD i 0 =
      a.getD i 0 * b.getD i 0 := by
  have h2 := h
  rw [List.length_zipWith] at h2
  rw [List.getD_eq_getElem _ _ h, List.getElem_zipWith,
    List.getD_eq_getElem a 0 (by omega), List.getD_eq_getElem b 0 (by omega)]

theorem eqExtension_row_length {F : Type} [Field F] (t : ℕ → F)
    (n j : ℕ) (hj : j < n) :
    ((eqExtension t n).getD j []).length = 2 ^ n := by
  unfold eqExtension
  rw [getD_range_map _ n j [] hj, List.length_map, List.length_range]

theorem eqExtension_getD {F : Type} [Field F] (t : ℕ → F) (n j y : ℕ)
    (hj : j < n) (hy : y < 2 ^ n) :
    ((eqExtension t n).getD j []).getD y 0 =
      eqf (t j) (Nat.testBit y j) := by
  unfold eqExtension
  rw [getD_range_map _ n j [] hj, getD_range_map _ (2 ^ n) y 0 hy]
  unfold eqf
  cases h : Nat.testBit y j with
  | false =>
    norm_num
    ring
  | true =>
    norm_num
    ring

theorem baseFrom_facts {F : Type} [Field F] (t : ℕ → F) (n : ℕ) :
    ∀ k, k < n → (baseFrom t n k).length = 2 ^ n ∧
      ∀ y, y < 2 ^ n → (baseFrom t n k).getD y 0 =
        ((List.range' (n - 1 - k) (k + 1)).map fun j =>
          eqf (t j) (Nat.testBit y j)).prod := by
  intro k
  induction k with
  | zero =>
    intro hk
    constructor
    · show ((eqExtension t n).getD (n - 1) []).length = 2 ^ n
      exact eqExtension_row_length t n (n - 1) (by omega)
    · intro y hy
      show ((eqExtension t n).getD (n - 1) []).getD y 0 = _
      rw [eqExtension_getD t n (n - 1) y (by omega) hy]
      rw [show List.range' (n - 1 - 0) 1 = [n - 1] from by
        rw [List.range'_succ]
        rfl]
      rw [List.map_cons, List.map_nil, List.prod_cons, List.prod_nil,
        mul_one]
  | succ k ih =>
    intro hk
    obtain ⟨ihl, ihd⟩ := ih (by omega)
    have hlen2 := eqExtension_row_length t n (n - 1 - (k + 1)) (by omega)
    constructor
    · show (List.zipWith _ (baseFrom t n k) _).length = 2 ^ n
      rw [List.length_zipWith, ihl, hlen2, min_self]
    · intro y hy
      show (List.zipWith (fun a b => a * b) (baseFrom t n k)
        ((eqExtension t n).getD (n - 1 - (k + 1)) [])).getD y 0 = _
      rw [getD_zipWith_mul _ _ y (by
          rw [List.length_zipWith, ihl, hlen2, min_self]
          exact hy),
        ihd y hy, eqExtension_getD t n (n - 1 - (k + 1)) y (by omega) hy]
      have hr : (List.range' (n - 1 - (k + 1)) (k + 1 + 1)).map
          (fun j => eqf (t j) (Nat.testBit y j)) =
          eqf (t (n - 1 - (k + 1))) (Nat.testBit y (n - 1 - (k + 1))) ::
            (List.range' (n - 1 - k) (k + 1)).map
              (fun j => eqf (t j) (Nat.testBit y j)) := by
        rw [List.range'_succ,
          show n - 1 - (k + 1) + 1 = n - 1 - k from by omega,
          List.map_cons]
      rw [hr, List.prod_cons]
      ring

theorem setup_eq_arr_facts {F : Type} [Field F] (t : ℕ → F) (n i : ℕ)
    (hi : i < n) :
    ((setup_eq_arr t n).getD i []).length = 2 ^ (n - i) ∧
    ∀ x, x < 2 ^ (n - i) →
      ((setup_eq_arr t n).getD i []).getD x 0 = eqTab t i (n - i) x := by
  obtain ⟨hbl, hbd⟩ := baseFrom_facts t n (n - 1 - i) (by omega)
  have harr : (setup_eq_arr t n).getD i [] =
      remove_dummy_variable (baseFrom t n (n - 1 - i)) i := by
    unfold setup_eq_arr
    rw [getD_range_map _ n i [] hi]
  by_cases h0 : i = 0
  · subst h0
    rw [harr]
    unfold remove_dummy_variable
    rw [if_pos rfl]
    refine ⟨by rw [hbl, Nat.sub_zero], ?_⟩
    intro x hx
    rw [hbd x (by simpa using hx)]
    unfold eqTab
    rw [show n - 1 - (n - 1 - 0) = 0 from by omega,
      show n - 1 - 0 + 1 = n - 0 from by omega,
      List.range'_eq_map_range, List.map_map]
    apply congrArg List.prod
    apply List.map_congr_left
    intro m _
    show eqf (t (0 + m)) (Nat.testBit x (0 + m)) = _
    rw [Nat.zero_add]
  · rw [harr]
    unfold remove_dummy_variable
    rw [if_neg h0, hbl, log2c_pow]
    refine ⟨by rw [List.length_map, List.length_range], ?_⟩
    intro x hx
    rw [getD_range_map _ (2 ^ (n - i)) x 0 hx]
    have hshift : x <<< i < 2 ^ n := by
      rw [Nat.shiftLeft_eq]
      have : x * 2 ^ i < 2 ^ (n - i) * 2 ^ i :=
        (Nat.mul_lt_mul_right (Nat.pos_pow_of_pos i (by omega))).mpr hx
      calc x * 2 ^ i < 2 ^ (n - i) * 2 ^ i := this
        _ = 2 ^ n := by
          rw [← pow_add]
          congr 1
          omega
    rw [hbd (x <<< i) hshift]
    unfold eqTab
    rw [show n - 1 - (n - 1 - i) = i from by omega,
      show n - 1 - i + 1 = n - i from by omega,
      List.range'_eq_map_range, List.map_map]
    apply congrArg List.prod
    apply List.map_congr_left
    intro m _
    show eqf (t (i + m)) (Nat.testBit (x <<< i) (i + m)) = _
    rw [show Nat.testBit (x <<< i) (i + m) = Nat.testBit x m from by
      rw [Nat.testBit_shiftLeft]
      simp]

/-! ### The open-loop pairing telescope -/

theorem fixLow_length {F : Type} [Field F] (zi : F) :
    ∀ r : List F, (fixLow zi r).length = r.length / 2
  | [] => by simp [fixLow]
  | [_] => by simp [fixLow]
  | _ :: _ :: rest => by
    show (fixLow zi rest).length + 1 = (rest.length + 1 + 1) / 2
    rw [fixLow_length zi rest]
    omega

theorem qLayer_length {F : Type} [Field F] :
    ∀ r : List F, (qLayer r).length = r.length / 2
  | [] => by simp [qLayer]
  | [_] => by simp [qLayer]
  | _ :: _ :: rest => by
    show (qLayer rest).length + 1 = (rest.length + 1 + 1) / 2
    rw [qLayer_length rest]
    omega

theorem dup2_length {F : Type} :
    ∀ q : List F, (dup2 q).length = 2 * q.length
  | [] => rfl
  | _ :: rest => by
    show (dup2 rest).length + 1 + 1 = 2 * (rest.length + 1)
    rw [dup2_length rest]
    omega

theorem qLayer_getD {F : Type} [Field F] :
    ∀ (r : List F) (b : ℕ), 2 * b + 1 < r.length →
      (qLayer r).getD b 0 = r.getD (2 * b + 1) 0 - r.getD (2 * b) 0
  | [], b, h => by simp at h
  | [_], b, h => by simp at h
  | a :: c :: rest, 0, h => rfl
  | a :: c :: rest, b + 1, h => by
    show (qLayer rest).getD b 0 = _
    rw [qLayer_getD rest b (by simp at h ⊢; omega)]
    rw [show 2 * (b + 1) + 1 = (2 * b + 1) + 1 + 1 from by omega,
      show 2 * (b + 1) = (2 * b) + 1 + 1 from by omega]
    rfl

theorem fixLow_getD {F : Type} [Field F] (zi : F) :
    ∀ (r : List F) (b : ℕ), 2 * b + 1 < r.length →
      (fixLow zi r).getD b 0 =
        r.getD (2 * b) 0 * (1 - zi) + r.getD (2 * b + 1) 0 * zi
  | [], b, h => by simp at h
  | [_], b, h => by simp at h
  | a :: c :: rest, 0, h => rfl
  | a :: c :: rest, b + 1, h => by
    show (fixLow zi rest).getD b 0 = _
    rw [fixLow_getD zi rest b (by simp at h ⊢; omega)]
    rw [show 2 * (b + 1) + 1 = (2 * b + 1) + 1 + 1 from by omega,
      show 2 * (b + 1) = (2 * b) + 1 + 1 from by omega]
    rfl

theorem dup2_getD {F : Type} [Field F] :
    ∀ (q : List F) (x : ℕ), x < 2 * q.length →
      (dup2 q).getD x 0 = q.getD (x / 2) 0
  | [], x, h => by simp at h
  | a :: rest, 0, h => rfl
  | a :: rest, 1, h => rfl
  | a :: rest, x + 2, h => by
    show (dup2 rest).getD x 0 = _
    rw [dup2_getD rest x (by simp at h ⊢; omega)]
    rw [show (x + 2) / 2 = x / 2 + 1 from by omega]
    rfl

theorem msmList_cons {F : Type} [Field F] (g x : F) (gs xs : List F) :
    msmList (g :: gs) (x :: xs) = g * x + msmList gs xs := rfl

theorem pairSum_cons {F : Type} [Field F] (p w : F) (ps ws : List F) :
    pairSum (p :: ps) (w :: ws) = p * w + pairSum ps ws := rfl

theorem msmList_range_map {F : Type} [Field F] :
    ∀ (xs : List F) (f : ℕ → F),
      msmList ((List.range xs.length).map f) xs =
        ((List.range xs.length).map fun j => f j * xs.getD j 0).sum
  | [], f => rfl
  | x :: xs, f => by
    rw [List.length_cons, List.range_succ_eq_map, List.map_cons,
      List.map_cons, List.map_map, List.map_map, msmList_cons,
      List.sum_cons]
    exact congrArg (fun s => f 0 * x + s)
      (msmList_range_map xs (fun j => f (j + 1)))

theorem wSum_zero {F : Type} [Field F] (t : ℕ → F) (i : ℕ) (r : List F) :
    wSum t i 0 r = r.getD 0 0 := by
  unfold wSum eqTab
  rw [pow_zero, show List.range 1 = [0] from rfl, List.map_cons,
    List.map_nil, List.sum_cons, List.sum_nil,
    show List.range 0 = ([] : List ℕ) from rfl, List.map_nil,
    List.prod_nil, mul_one, add_zero]

theorem eqTab_succ {F : Type} [Field F] (t : ℕ → F) (i k x : ℕ) :
    eqTab t i (k + 1) x =
      eqf (t i) (Nat.testBit x 0) * eqTab t (i + 1) k (x / 2) := by
  unfold eqTab
  rw [List.range_succ_eq_map, List.map_cons, List.prod_cons, List.map_map]
  have h0 : eqf (t (i + 0)) (Nat.testBit x 0) =
      eqf (t i) (Nat.testBit x 0) := by
    rw [Nat.add_zero]
  rw [h0]
  congr 1
  apply congrArg List.prod
  apply List.map_congr_left
  intro m _
  show eqf (t (i + (m + 1))) (Nat.testBit x (m + 1)) =
    eqf (t (i + 1 + m)) (Nat.testBit (x / 2) m)
  rw [show i + (m + 1) = i + 1 + m from by omega, Nat.testBit_succ]

theorem testBit_two_mul_zero (b : ℕ) : Nat.testBit (2 * b) 0 = false := by
  simp [Nat.testBit_zero]

theorem testBit_two_mul_add_one_zero (b : ℕ) :
    Nat.testBit (2 * b + 1) 0 = true := by
  simp [Nat.testBit_zero]
  omega

theorem wSum_split {F : Type} [Field F] (t : ℕ → F) (i k : ℕ)
    (r : List F) :
    wSum t i (k + 1) r =
      ((List.range (2 ^ k)).map fun b =>
        (r.getD (2 * b) 0 * (1 - t i) + r.getD (2 * b + 1) 0 * t i) *
          eqTab t (i + 1) k b).sum := by
  unfold wSum
  rw [list_range_map_sum, list_range_map_sum,
    show (2:ℕ) ^ (k + 1) = 2 * 2 ^ k from by rw [pow_succ]; ring,
    sum_range_two_mul]
  apply Finset.sum_congr rfl
  intro b _
  rw [eqTab_succ, eqTab_succ, testBit_two_mul_zero,
    testBit_two_mul_add_one_zero,
    show 2 * b / 2 = b from by omega,
    show (2 * b + 1) / 2 = b from by omega]
  unfold eqf
  norm_num
  ring

theorem wSum_round {F : Type} [Field F] (t z : ℕ → F) (i k : ℕ)
    (r : List F) (hr : r.length = 2 ^ (k + 1)) :
    wSum t i (k + 1) r =
      (t i - z i) * ((List.range (2 ^ k)).map fun b =>
        (qLayer r).getD b 0 * eqTab t (i + 1) k b).sum +
      wSum t (i + 1) k (fixLow (z i) r) := by
  rw [wSum_split t i k r]
  unfold wSum
  rw [list_range_map_sum, list_range_map_sum, list_range_map_sum,
    Finset.mul_sum, ← Finset.sum_add_distrib]
  apply Finset.sum_congr rfl
  intro b hb
  rw [Finset.mem_range] at hb
  have h2 : 1 ≤ 2 ^ k := Nat.one_le_two_pow
  have hb2 : 2 * b + 1 < r.length := by
    rw [hr, pow_succ]
    omega
  rw [qLayer_getD r b hb2, fixLow_getD (z i) r b hb2]
  ring

theorem msm_eqSlice_dup2 {F : Type} [Field F] (g : F) (t : ℕ → F)
    (i k : ℕ) (q : List F) (hq : q.length = 2 ^ k) :
    msmList (eqSlice g t i (k + 1)) (dup2 q) =
      g * ((List.range (2 ^ k)).map fun b =>
        q.getD b 0 * eqTab t (i + 1) k b).sum := by
  unfold eqSlice
  have hd : (dup2 q).length = 2 ^ (k + 1) := by
    rw [dup2_length, hq, pow_succ]
    ring
  rw [show (List.range (2 ^ (k + 1))).map
        (fun x => g * eqTab t i (k + 1) x) =
      (List.range ((dup2 q).length)).map
        (fun x => g * eqTab t i (k + 1) x) from by rw [hd],
    msmList_range_map, hd, list_range_map_sum, list_range_map_sum,
    Finset.mul_sum,
    show (2:ℕ) ^ (k + 1) = 2 * 2 ^ k from by rw [pow_succ]; ring,
    sum_range_two_mul]
  apply Finset.sum_congr rfl
  intro b hb
  rw [Finset.mem_range] at hb
  have hble : 2 * b + 1 < 2 * q.length := by omega
  rw [dup2_getD q (2 * b) (by omega), dup2_getD q (2 * b + 1) hble,
    eqTab_succ, eqTab_succ, testBit_two_mul_zero,
    testBit_two_mul_add_one_zero,
    show 2 * b / 2 = b from by omega,
    show (2 * b + 1) / 2 = b from by omega]
  unfold eqf
  norm_num
  ring

theorem ml_open_loop_length {F : Type} [Field F] (z : ℕ → F)
    (gtabs : List (List F)) :
    ∀ (k i : ℕ) (r : List F), (ml_open_loop z gtabs i k r).length = k
  | 0, _, _ => rfl
  | k + 1, i, r => by
    show (ml_open_loop z gtabs (i + 1) k (fixLow (z i) r)).length + 1 =
      k + 1
    rw [ml_open_loop_length z gtabs k (i + 1) (fixLow (z i) r)]

theorem ml_loop_pair {F : Type} [Field F] (z t : ℕ → F) (g hh : F)
    (gtabs : List (List F)) :
    ∀ (k i : ℕ) (r : List F), r.length = 2 ^ k →
      (∀ j, j < k → gtabs.getD (i + j) [] = eqSlice g t (i + j) (k - j)) →
      pairSum (ml_open_loop z gtabs i k r)
          ((List.range k).map fun j => hh * (t (i + j) - z (i + j))) =
        g * hh * (wSum t i k r - mleEvalFrom z i k r) := by
  intro k
  induction k with
  | zero =>
    intro i r hr htab
    show (0:F) = g * hh * (wSum t i 0 r - mleEvalFrom z i 0 r)
    rw [wSum_zero]
    show (0:F) = g * hh * (r.getD 0 0 - r.getD 0 0)
    rw [sub_self, mul_zero]
  | succ k ih =>
    intro i r hr htab
    have h2 : 1 ≤ 2 ^ k := Nat.one_le_two_pow
    have hfix : (fixLow (z i) r).length = 2 ^ k := by
      rw [fixLow_length, hr, pow_succ]
      omega
    have hq : (qLayer r).length = 2 ^ k := by
      rw [qLayer_length, hr, pow_succ]
      omega
    show pairSum (msmList (gtabs.getD i []) (dup2 (qLayer r)) ::
        ml_open_loop z gtabs (i + 1) k (fixLow (z i) r)) _ = _
    rw [List.range_succ_eq_map, List.map_cons, List.map_map, pairSum_cons]
    have ht0 := htab 0 (by omega)
    rw [Nat.add_zero] at ht0
    rw [ht0, show k + 1 - 0 = k + 1 from rfl,
      msm_eqSlice_dup2 g t i k (qLayer r) hq]
    have hw : (List.range k).map
        ((fun j => hh * (t (i + j) - z (i + j))) ∘ Nat.succ) =
        (List.range k).map
          (fun j => hh * (t (i + 1 + j) - z (i + 1 + j))) := by
      apply List.map_congr_left
      intro j _
      show hh * (t (i + (j + 1)) - z (i + (j + 1))) = _
      rw [show i + (j + 1) = i + 1 + j from by omega]
    rw [hw]
    have htab2 : ∀ j, j < k →
        gtabs.getD (i + 1 + j) [] = eqSlice g t (i + 1 + j) (k - j) := by
      intro j hj
      have hh2 := htab (j + 1) (by omega)
      rw [show i + (j + 1) = i + 1 + j from by omega] at hh2
      rw [hh2]
      congr 1
      omega
    rw [ih (i + 1) (fixLow (z i) r) hfix htab2, Nat.add_zero,
      wSum_round t z i k r hr,
      show mleEvalFrom z i (k + 1) r =
        mleEvalFrom z (i + 1) k (fixLow (z i) r) from rfl]
    ring

/-! ### The mask monomial table: keys, lookups and the trim identity -/

theorem tlookup_of_mem {F : Type} :
    ∀ {tbl : List (List (ℕ × ℕ) × F)} {k : List (ℕ × ℕ)} {v : F},
      (tbl.map fun kv => kv.1).Nodup → (k, v) ∈ tbl →
      tlookup tbl k = some v := by
  intro tbl
  induction tbl with
  | nil =>
    intro k v _ h
    simp at h
  | cons kv tbl ih =>
    intro k v hnd hmem
    rw [List.map_cons, List.nodup_cons] at hnd
    rcases List.mem_cons.mp hmem with heq | hmem2
    · rw [← heq]
      unfold tlookup
      rw [List.find?_cons_of_pos _ (by simp)]
      rfl
    · have hne : kv.1 ≠ k := by
        intro hc
        apply hnd.1
        rw [List.mem_map]
        exact ⟨(k, v), hmem2, by rw [hc]⟩
      unfold tlookup
      rw [List.find?_cons_of_neg _ (by simpa using hne)]
      exact ih hnd.2 hmem2

theorem maskTable_key_eq (nv var d : ℕ) (h1 : 1 ≤ d) (hvar : var < nv) :
    term_new ((List.range nv).map fun v =>
      (v, if v = var then d else 0)) = [(var, d)] := by
  have hfil : ∀ m, var < m →
      ((List.range m).map fun v =>
        ((v, if v = var then d else 0) : ℕ × ℕ)).filter
          (fun p => p.2 != 0) = [(var, d)] := by
    intro m
    induction m with
    | zero => intro h; omega
    | succ m ihm =>
      intro hm
      rw [List.range_succ, List.map_append, List.filter_append]
      by_cases hvm : var = m
      · subst hvm
        have hzero : ((List.range var).map fun v =>
            ((v, if v = var then d else 0) : ℕ × ℕ)).filter
              (fun p => p.2 != 0) = [] := by
          rw [List.filter_eq_nil_iff]
          intro p hp
          rw [List.mem_map] at hp
          obtain ⟨v, hv, hpv⟩ := hp
          rw [List.mem_range] at hv
          rw [← hpv]
          simp
          omega
        rw [hzero, List.nil_append, List.map_cons, List.map_nil,
          if_pos rfl]
        rw [List.filter_cons_of_pos (by simp; omega)]
        rfl
      · have hvlt : var < m := by omega
        rw [ihm hvlt, List.map_cons, List.map_nil, if_neg (by omega)]
        rw [List.filter_cons_of_neg (by simp)]
        rfl
  unfold term_new
  rw [hfil nv hvar]
  rfl

theorem nodup_flatMap_singleton (nv : ℕ) :
    ∀ L : List ℕ, L.Nodup →
      (L.flatMap fun d => (List.range nv).map fun var =>
        ([(var, d)] : List (ℕ × ℕ))).Nodup := by
  intro L
  induction L with
  | nil =>
    intro _
    exact List.Pairwise.nil
  | cons d L ih =>
    intro hnd
    rw [List.nodup_cons] at hnd
    rw [List.flatMap_cons]
    apply List.Nodup.append
    · apply List.Nodup.map
      · intro a b hab
        simpa using hab
      · exact List.nodup_range nv
    · exact ih hnd.2
    · rw [List.disjoint_left]
      intro x hx1 hx2
      rw [List.mem_map] at hx1
      obtain ⟨v1, _, hxv1⟩ := hx1
      rw [List.mem_flatMap] at hx2
      obtain ⟨d2, hd2, hx2b⟩ := hx2
      rw [List.mem_map] at hx2b
      obtain ⟨v2, _, hxv2⟩ := hx2b
      rw [← hxv1] at hxv2
      simp at hxv2
      apply hnd.1
      rw [← hxv2.2]
      exact hd2

theorem flatMap_congr_mem {α β : Type} {l : List α} {f g : α → List β}
    (h : ∀ a ∈ l, f a = g a) : l.flatMap f = l.flatMap g := by
  induction l with
  | nil => rfl
  | cons a l ih =>
    rw [List.flatMap_cons, List.flatMap_cons, h a (List.mem_cons_self _ _),
      ih (fun b hb => h b (List.mem_cons_of_mem _ hb))]

theorem maskTable_keys {F : Type} [Field F] (g : F) (betas : ℕ → F)
    (nv md : ℕ) :
    (maskTable g betas nv md).map (fun kv => kv.1) =
      ((List.range' 1 md).flatMap fun d =>
        (List.range nv).map fun var => ([(var, d)] : List (ℕ × ℕ))) ++
        [[]] := by
  unfold maskTable
  rw [List.map_append]
  congr 1
  · rw [List.map_flatMap]
    apply flatMap_congr_mem
    intro d hd
    rw [List.mem_range'_1] at hd
    rw [List.map_map]
    apply List.map_congr_left
    intro var hvar
    rw [List.mem_range] at hvar
    show term_new ((List.range nv).map fun v =>
      (v, if v = var then d else 0)) = [(var, d)]
    exact maskTable_key_eq nv var d (by omega) hvar

theorem maskTable_keys_nodup {F : Type} [Field F] (g : F)
    (betas : ℕ → F) (nv md : ℕ) :
    ((maskTable g betas nv md).map (fun kv => kv.1)).Nodup := by
  rw [maskTable_keys]
  apply List.Nodup.append
  · exact nodup_flatMap_singleton nv (List.range' 1 md)
      (List.nodup_range' _ _)
  · exact List.nodup_singleton _
  · rw [List.disjoint_left]
    intro x hx1 hx2
    rw [List.mem_flatMap] at hx1
    obtain ⟨d, _, hx1b⟩ := hx1
    rw [List.mem_map] at hx1b
    obtain ⟨v, _, hxv⟩ := hx1b
    rw [List.mem_singleton] at hx2
    rw [hx2] at hxv
    exact List.noConfusion hxv

theorem tlookup_maskTable_single {F : Type} [Field F] (g : F)
    (betas : ℕ → F) (nv md v d : ℕ) (hv : v < nv) (hd1 : 1 ≤ d)
    (hdm : d ≤ md) :
    tlookup (maskTable g betas nv md) [(v, d)] =
      some (g * betas v ^ d) := by
  apply tlookup_of_mem (maskTable_keys_nodup g betas nv md)
  unfold maskTable
  rw [List.mem_append]
  left
  rw [List.mem_flatMap]
  refine ⟨d, ?_, ?_⟩
  · rw [List.mem_range'_1]
    omega
  · rw [List.mem_map]
    refine ⟨v, by rw [List.mem_range]; omega, ?_⟩
    rw [maskTable_key_eq nv v d hd1 hv]

theorem tlookup_maskTable_const {F : Type} [Field F] (g : F)
    (betas : ℕ → F) (nv md : ℕ) :
    tlookup (maskTable g betas nv md) [] = some g := by
  apply tlookup_of_mem (maskTable_keys_nodup g betas nv md)
  unfold maskTable
  rw [List.mem_append]
  right
  rw [List.mem_singleton]
  rfl

theorem maskTable_shape {F : Type} [Field F] (g : F) (betas : ℕ → F)
    (nv md : ℕ) :
    ∀ kv ∈ maskTable g betas nv md, kv.1 = [] ∨
      ∃ v d, v < nv ∧ 1 ≤ d ∧ d ≤ md ∧ kv.1 = [(v, d)] := by
  intro kv hkv
  unfold maskTable at hkv
  rw [List.mem_append] at hkv
  rcases hkv with hkv | hkv
  · rw [List.mem_flatMap] at hkv
    obtain ⟨d, hd, hkv2⟩ := hkv
    rw [List.mem_range'_1] at hd
    rw [List.mem_map] at hkv2
    obtain ⟨v, hv, hkv3⟩ := hkv2
    rw [List.mem_range] at hv
    right
    refine ⟨v, d, hv, by omega, by omega, ?_⟩
    rw [← hkv3]
    show term_new ((List.range nv).map fun v2 =>
      (v2, if v2 = v then d else 0)) = [(v, d)]
    exact maskTable_key_eq nv v d (by omega) hv
  · rw [List.mem_singleton] at hkv
    left
    rw [hkv]
    rfl

theorem maskTable_filter_deg {F : Type} [Field F] (g : F)
    (betas : ℕ → F) (nv md : ℕ) :
    (maskTable g betas nv md).filter
      (fun kv => decide (termDegree kv.1 ≤ md)) =
      maskTable g betas nv md := by
  apply List.filter_eq_self.mpr
  intro kv hkv
  rcases maskTable_shape g betas nv md kv hkv with hc | ⟨v, d, _, _, hdm, hk⟩
  · rw [hc]
    simp [termDegree]
  · rw [hk]
    simp [termDegree]
    omega

theorem maskTable_trim_map_id {F : Type} [Field F] (g : F)
    (betas : ℕ → F) (nv md : ℕ) :
    ((maskTable g betas nv md).filter (fun kv =>
      kv.1.isEmpty || decide (0 ≤ ((kv.1.map (fun ve => ve.1)).headD 0)))).map
      (fun kv => if kv.1.isEmpty then kv
        else (term_new [((kv.1.map (fun ve => ve.1)).headD 0 - 0,
          (kv.1.map (fun ve => ve.2)).headD 0)], kv.2)) =
      maskTable g betas nv md := by
  have hfil : (maskTable g betas nv md).filter (fun kv =>
      kv.1.isEmpty ||
        decide (0 ≤ ((kv.1.map (fun ve => ve.1)).headD 0))) =
      maskTable g betas nv md := by
    apply List.filter_eq_self.mpr
    intro kv _
    simp
  rw [hfil]
  have hmap : ∀ kv ∈ maskTable g betas nv md,
      (if kv.1.isEmpty then kv
        else (term_new [((kv.1.map (fun ve => ve.1)).headD 0 - 0,
          (kv.1.map (fun ve => ve.2)).headD 0)], kv.2)) = id kv := by
    intro kv hkv
    rcases maskTable_shape g betas nv md kv hkv with hc | ⟨v, d, _, hd1, _, hk⟩
    · rw [if_pos (by rw [hc]; rfl)]
      rfl
    · rw [if_neg (by rw [hk]; simp), hk]
      show (term_new [(([v].headD 0) - 0, [d].headD 0)], kv.2) = kv
      obtain ⟨d2, hd2⟩ := Nat.exists_eq_add_of_le hd1
      rw [show ([v].headD 0) - 0 = v from rfl,
        show [d].headD 0 = d from rfl,
        show d = d2 + 1 from by omega, term_new_single_succ]
      rw [show d2 + 1 = d from by omega, ← hk]
  rw [List.map_congr_left hmap, List.map_id]

theorem pst_trim_setup {F : Type} [Field F] (n hb : ℕ) (rng : ℕ → F) :
    pst_trim (zkml_setup_value n hb rng).2 hb 0 =
      Except.ok
        ({ powers_of_g :=
             maskTable (rng (2 + n)) (fun i => rng (2 + i)) n hb
           gamma_g := rng (2 + n + 1)
           powers_of_gamma_g := ((List.range n).map fun i =>
             (List.range (hb + 1)).map fun j =>
               rng (2 + n + 1) * rng (2 + i) ^ (j + 1)).map
                 (fun e => e.take 1)
           num_vars := n },
         { g := rng (2 + n)
           gamma_g := rng (2 + n + 1)
           h := rng (2 + n + 2)
           beta_h := (List.range n).map fun i =>
             rng (2 + n + 2) * rng (2 + i)
           num_vars := n }) := by
  unfold pst_trim zkml_setup_value
  dsimp only
  rw [if_neg (lt_irrefl hb)]
  rw [maskTable_filter_deg, show term_new ([] : List (ℕ × ℕ)) = []
    from rfl, tlookup_maskTable_const]
  rfl

theorem zkml_trim_setup_facts {F : Type} [Field F] [DecidableEq F]
    (n hb : ℕ) (rng : ℕ → F) :
    ∃ ck vk, zkml_trim (zkml_setup_value n hb rng) n hb =
        Res.ok (ck, vk) ∧
      ck.1.powers_of_g = (zkml_setup_value n hb rng).1.powers_of_g ∧
      ck.1.nv = n ∧
      ck.2.powers_of_g =
        maskTable (rng (2 + n)) (fun i => rng (2 + i)) n hb ∧
      vk.1.nv = n ∧
      vk.1.g = rng 0 ∧
      vk.1.h = rng 1 ∧
      vk.1.h_mask_random =
        (List.range n).map (fun i => rng 1 * rng (2 + i)) ∧
      vk.2.g = rng (2 + n) := by
  have hstep : zkml_trim (zkml_setup_value n hb rng) n hb =
      Res.ok ((
        { powers_of_h := (zkml_setup_value n hb rng).1.powers_of_h.drop
            ((zkml_setup_value n hb rng).1.num_vars - n)
          powers_of_g := (zkml_setup_value n hb rng).1.powers_of_g.drop
            ((zkml_setup_value n hb rng).1.num_vars - n)
          g := (zkml_setup_value n hb rng).1.g
          h := (zkml_setup_value n hb rng).1.h
          nv := n },
        { powers_of_g := ((maskTable (rng (2 + n))
              (fun i => rng (2 + i)) n hb).filter
            (fun kv => kv.1.isEmpty ||
              decide ((zkml_setup_value n hb rng).1.num_vars - n ≤
                ((kv.1.map (fun ve => ve.1)).headD 0)))).map
            (fun kv => if kv.1.isEmpty then kv
              else (term_new [((kv.1.map (fun ve => ve.1)).headD 0 -
                  ((zkml_setup_value n hb rng).1.num_vars - n),
                (kv.1.map (fun ve => ve.2)).headD 0)], kv.2))
          gamma_g := rng (2 + n + 1)
          powers_of_gamma_g := ((List.range n).map fun i =>
            (List.range (hb + 1)).map fun j =>
              rng (2 + n + 1) * rng (2 + i) ^ (j + 1)).map
                (fun e => e.take 1)
          num_vars := n }),
       (
        { nv := n
          g := (zkml_setup_value n hb rng).1.g
          h := (zkml_setup_value n hb rng).1.h
          h_mask_random := (zkml_setup_value n hb rng).1.h_mask.drop
            ((zkml_setup_value n hb rng).1.num_vars - n) },
        { g := rng (2 + n)
          gamma_g := rng (2 + n + 1)
          h := rng (2 + n + 2)
          beta_h := (List.range n).map fun i =>
            rng (2 + n + 2) * rng (2 + i)
          num_vars := n })) := by
    simp only [zkml_trim]
    rw [pst_trim_setup n hb rng]
  rw [show (zkml_setup_value n hb rng).1.num_vars = n from rfl,
    Nat.sub_self] at hstep
  simp only [List.drop_zero] at hstep
  rw [maskTable_trim_map_id] at hstep
  exact ⟨_, _, hstep, rfl, rfl, rfl, rfl, rfl, rfl, rfl, rfl⟩

/-! ### Shape preservation through the division and mask commitments -/

theorem maskShape_polyWF {F : Type} [Field F] {nv md : ℕ}
    {p : List (F × List (ℕ × ℕ))} (h : MaskShape nv md p) :
    PolyWF nv p := by
  intro u hu
  rcases h u hu with hc | ⟨v, d, hv, hd1, _, hk⟩
  · rw [hc]
    refine ⟨⟨List.Pairwise.nil, ?_⟩, ?_⟩ <;> intro ve hve <;> simp at hve
  · rw [hk]
    refine ⟨⟨List.pairwise_singleton _ _, ?_⟩, ?_⟩ <;> intro ve hve <;>
      rw [List.mem_singleton] at hve <;> subst hve
    · exact hd1
    · exact hv

theorem mask_adjust_false {F : Type} [Field F] (s : F)
    (mps : List (List F)) : mask_adjust false s mps = mps := rfl

theorem generate_mask_polynomial_false {F : Type} [Field F]
    (rng : ℕ → F) (nv hb : ℕ) :
    generate_mask_polynomial rng nv hb false =
      mask_terms (mask_coeff_lists rng nv hb) := by
  unfold generate_mask_polynomial
  rw [mask_adjust_false]

theorem generate_mask_shape {F : Type} [Field F] (rng : ℕ → F)
    (nv hb : ℕ) :
    MaskShape nv hb (generate_mask_polynomial rng nv hb false) := by
  intro u hu
  rw [generate_mask_polynomial_false] at hu
  unfold mask_terms at hu
  rw [List.mem_flatten] at hu
  obtain ⟨l, hl, hul⟩ := hu
  rw [List.mem_map] at hl
  obtain ⟨ve, hve, hlve⟩ := hl
  rw [← hlve] at hul
  rw [List.mem_map] at hul
  obtain ⟨dc, hdc, hdu⟩ := hul
  have hm := List.mem_enum hve
  have hlen : (mask_coeff_lists rng nv hb).length = nv := by
    unfold mask_coeff_lists
    rw [List.length_map, List.length_range]
  have hv : ve.1 < nv := by
    rw [← hlen]
    exact hm.1
  have hm2 := List.mem_enum hdc
  have hlen2 : ve.2.length = hb + 1 := by
    have h3 := congrArg List.length hm.2
    rw [h3]
    have hb2 : ve.1 < ((List.range nv).map fun var =>
        (List.range (hb + 1)).map fun i =>
          rng (var * (hb + 1) + i)).length := by
      rw [List.length_map, List.length_range]
      exact hv
    show (((List.range nv).map fun var =>
      (List.range (hb + 1)).map fun i =>
        rng (var * (hb + 1) + i))[ve.1]).length = hb + 1
    rw [List.getElem_map, List.length_map, List.length_range]
  have hd : dc.1 ≤ hb := by
    have := hm2.1
    omega
  rw [← hdu]
  show term_new [(ve.1, dc.1)] = [] ∨
    ∃ v2 d3, v2 < nv ∧ 1 ≤ d3 ∧ d3 ≤ hb ∧
      term_new [(ve.1, dc.1)] = [(v2, d3)]
  cases hdc1 : dc.1 with
  | zero =>
    left
    exact term_new_single_zero ve.1
  | succ d2 =>
    right
    exact ⟨ve.1, d2 + 1, hv, by omega, by omega,
      term_new_single_succ ve.1 d2⟩

theorem stripVar_quot_shape {F : Type} [Field F] (i : ℕ) (zi : F)
    (d : ℕ) :
    ∀ (e : ℕ) (c : F), ∀ u ∈ (stripVar i zi [(i, d)] c e).1,
      ∃ e2, 1 ≤ e2 ∧ e2 < e ∧ u.2 = [(i, e2)] := by
  intro e
  induction e with
  | zero =>
    intro c u hu
    rw [stripVar_zero] at hu
    simp at hu
  | succ e ih =>
    intro c u hu
    cases e with
    | zero =>
      rw [stripVar_one] at hu
      simp at hu
    | succ e2 =>
      rw [stripVar_succ2] at hu
      rcases List.mem_cons.mp hu with heq | hmem
      · refine ⟨e2 + 1, by omega, by omega, ?_⟩
        rw [heq]
        show term_new (setPow [(i, d)] i (e2 + 1)) = [(i, e2 + 1)]
        rw [show setPow [(i, d)] i (e2 + 1) = [(i, e2 + 1)] from by
          unfold setPow
          rw [List.map_cons, List.map_nil, if_pos rfl]]
        exact term_new_single_succ i e2
      · obtain ⟨e3, ha, hb, hc⟩ := ih (c * zi) u hmem
        exact ⟨e3, ha, by omega, hc⟩

theorem divideTermStep_shape {F : Type} [Field F] (nv md i : ℕ)
    (zi c : F) {tv : List (ℕ × ℕ)}
    (hs : tv = [] ∨ ∃ v d, v < nv ∧ 1 ≤ d ∧ d ≤ md ∧ tv = [(v, d)]) :
    (∀ u ∈ (divideTermStep i zi c tv).1, u.2 = [] ∨
      ∃ v2 d2, v2 < nv ∧ 1 ≤ d2 ∧ d2 ≤ md ∧ u.2 = [(v2, d2)]) ∧
    (∀ u ∈ (divideTermStep i zi c tv).2, u.2 = [] ∨
      ∃ v2 d2, v2 < nv ∧ 1 ≤ d2 ∧ d2 ≤ md ∧ u.2 = [(v2, d2)]) := by
  rcases hs with hc | ⟨v, d, hv, hd1, hdm, hk⟩
  · subst hc
    rw [divideTermStep_nil]
    exact ⟨fun u hu => absurd hu (by simp),
      fun u hu => absurd hu (by simp)⟩
  · subst hk
    by_cases hvi : v = i
    · subst hvi
      have hfind : ([(v, d)] : List (ℕ × ℕ)).find?
          (fun p => p.1 == v) = some (v, d) := by
        rw [List.find?_cons_of_pos _ (by simp)]
      rw [divideTermStep_some v zi c (by simp) hfind]
      have htne : term_new (tvErase [(v, d)] v) = [] := by
        unfold tvErase
        rw [List.filter_cons_of_neg (by simp)]
        rfl
      constructor
      · intro u hu
        rw [List.mem_append] at hu
        rcases hu with hu | hu
        · obtain ⟨e2, ha, hb, hc2⟩ := stripVar_quot_shape v zi d d c u hu
          right
          exact ⟨v, e2, hv, ha, by omega, hc2⟩
        · rw [List.mem_singleton] at hu
          left
          rw [hu]
          exact htne
      · intro u hu
        rw [List.mem_singleton] at hu
        left
        rw [hu]
        exact htne
    · have hfind : ([(v, d)] : List (ℕ × ℕ)).find?
          (fun p => p.1 == i) = none := by
        rw [List.find?_cons_of_neg _ (by simpa using hvi),
          List.find?_nil]
      rw [divideTermStep_none i zi c (by simp) hfind]
      constructor
      · intro u hu
        simp at hu
      · intro u hu
        rw [List.mem_singleton] at hu
        right
        rw [hu]
        exact ⟨v, d, hv, hd1, hdm, rfl⟩

theorem divStep_shape {F : Type} [Field F] (nv md i : ℕ) (zi : F)
    (cur : List (F × List (ℕ × ℕ))) (hs : MaskShape nv md cur) :
    MaskShape nv md (divStep i zi cur).1 ∧
      MaskShape nv md (divStep i zi cur).2 := by
  constructor
  · intro u hu
    simp only [divStep] at hu
    rw [List.mem_flatten] at hu
    obtain ⟨l, hl, hul⟩ := hu
    rw [List.mem_map] at hl
    obtain ⟨t0, ht0, hlt0⟩ := hl
    rw [← hlt0] at hul
    exact (divideTermStep_shape nv md i zi t0.1 (hs t0 ht0)).1 u hul
  · intro u hu
    simp only [divStep] at hu
    rw [List.mem_flatten] at hu
    obtain ⟨l, hl, hul⟩ := hu
    rw [List.mem_map] at hl
    obtain ⟨t0, ht0, hlt0⟩ := hl
    rw [← hlt0] at hul
    exact (divideTermStep_shape nv md i zi t0.1 (hs t0 ht0)).2 u hul

theorem divideLoopFull_shape {F : Type} [Field F] (nv md : ℕ)
    (z : ℕ → F) :
    ∀ (k i : ℕ) (cur : List (F × List (ℕ × ℕ))), MaskShape nv md cur →
      (∀ q ∈ (divideLoopFull z cur i k).1, MaskShape nv md q) ∧
      MaskShape nv md (divideLoopFull z cur i k).2 := by
  intro k
  induction k with
  | zero =>
    intro i cur hs
    rw [divideLoopFull_zero_fst, divideLoopFull_zero_snd]
    exact ⟨fun q hq => absurd hq (by simp), hs⟩
  | succ k ih =>
    intro i cur hs
    obtain ⟨hq, hr⟩ := divStep_shape nv md i (z i) cur hs
    obtain ⟨ih1, ih2⟩ := ih (i + 1) (divStep i (z i) cur).2 hr
    rw [divideLoopFull_succ_fst, divideLoopFull_succ_snd]
    refine ⟨?_, ih2⟩
    intro q hqm
    rcases List.mem_cons.mp hqm with heq | hmem
    · rw [heq]
      exact hq
    · exact ih1 q hmem

theorem divide_at_point_shape {F : Type} [Field F] [DecidableEq F]
    (nv md nvars : ℕ) (p : List (F × List (ℕ × ℕ))) (z : ℕ → F)
    (hs : MaskShape nv md p) (j : ℕ) :
    MaskShape nv md ((divide_at_point nvars p z).getD j []) := by
  unfold divide_at_point
  by_cases h0 : p = []
  · rw [if_pos h0, replicate_getD_self]
    intro u hu
    simp at hu
  · rw [if_neg h0]
    by_cases hj : j < (divideLoopFull z p 0 nvars).1.length
    · have hmem : (divideLoopFull z p 0 nvars).1.getD j [] ∈
          (divideLoopFull z p 0 nvars).1 := by
        rw [List.getD_eq_getElem _ _ hj]
        exact List.getElem_mem hj
      exact (divideLoopFull_shape nv md z nvars 0 p hs).1 _ hmem
    · rw [List.getD_eq_default _ _ (by omega)]
      intro u hu
      simp at hu

theorem commit_mask_eval {F : Type} [Field F] (ck : MaskCommitterKey F)
    (g : F) (t : ℕ → F) (nv md : ℕ)
    (hck : ck.powers_of_g = maskTable g t nv md) :
    ∀ (p : List (F × List (ℕ × ℕ))), MaskShape nv md p →
      commit_mask ck p = g * sparse_evaluate p t := by
  intro p
  induction p with
  | nil =>
    intro _
    unfold commit_mask sparse_evaluate
    simp
  | cons u p ih =>
    intro hs
    have hu := hs u (List.mem_cons_self _ _)
    have ht : (tlookup ck.powers_of_g u.2).getD 0 =
        g * (u.2.map (fun ve => t ve.1 ^ ve.2)).prod := by
      rcases hu with hc | ⟨v, d, hv, hd1, hdm, hk⟩
      · rw [hc, hck, tlookup_maskTable_const]
        simp
      · rw [hk, hck, tlookup_maskTable_single g t nv md v d hv hd1 hdm]
        simp
    have ihe := ih (fun u2 hu2 => hs u2 (List.mem_cons_of_mem _ hu2))
    unfold commit_mask sparse_evaluate
    unfold commit_mask sparse_evaluate at ihe
    rw [List.map_cons, List.sum_cons, List.map_cons, List.sum_cons, ihe,
      ht]
    ring

theorem getD_map_default {α β : Type} (f : α → β) (l : List α) (j : ℕ)
    (d : α) (d2 : β) (hd : f d = d2) :
    (l.map f).getD j d2 = f (l.getD j d) := by
  rw [← hd]
  exact List.getD_map l d f

theorem special_open_entry {F : Type} [Field F] [DecidableEq F]
    (ck : MaskCommitterKey F) (g : F) (t : ℕ → F) (nv md : ℕ)
    (hck : ck.powers_of_g = maskTable g t nv md)
    (p : List (F × List (ℕ × ℕ))) (nvars : ℕ) (z : ℕ → F)
    (hs : MaskShape nv md p) (j : ℕ) :
    (special_open ck p nvars z).getD j 0 =
      g * sparse_evaluate ((divide_at_point nvars p z).getD j []) t := by
  unfold special_open
  rw [getD_map_default (fun w => (w.map fun t2 =>
      (tlookup ck.powers_of_g t2.2).getD 0 * t2.1).sum)
    (divide_at_point nvars p z) j [] 0 rfl]
  show commit_mask ck ((divide_at_point nvars p z).getD j []) = _
  exact commit_mask_eval ck g t nv md hck _
    (divide_at_point_shape nv md nvars p z hs j)

/-! ### Final assembly of the completeness identity -/

theorem divide_eval {F : Type} [Field F] [DecidableEq F] (n : ℕ)
    (p : List (F × List (ℕ × ℕ))) (z t : ℕ → F) (hwf : PolyWF n p) :
    sparse_evaluate p t - sparse_evaluate p z =
      ∑ i ∈ Finset.range n,
        sparse_evaluate ((divide_at_point n p z).getD i []) t *
          (t i - z i) := by
  have h := congrArg (MvPolynomial.eval t)
    (divide_at_point_identity n p z hwf).1
  rw [map_sub, MvPolynomial.eval_C, map_sum] at h
  rw [sparse_evaluate_eq_eval p t, h]
  apply Finset.sum_congr rfl
  intro i _
  rw [map_mul, map_sub, MvPolynomial.eval_X, MvPolynomial.eval_C,
    sparse_evaluate_eq_eval]

theorem pairSum_add_left {F : Type} [Field F] :
    ∀ (a b w : List F), a.length = b.length →
      pairSum (List.zipWith (fun x y => x + y) a b) w =
        pairSum a w + pairSum b w
  | [], b, w, h => by
    have hb : b = [] := by
      apply List.eq_nil_of_length_eq_zero
      simpa using h.symm
    subst hb
    show (0:F) = 0 + 0
    rw [add_zero]
  | a :: as, [], w, h => by simp at h
  | a :: as, b :: bs, [], h => by
    show (0:F) = 0 + 0
    rw [add_zero]
  | a :: as, b :: bs, w :: ws, h => by
    show (a + b) * w + pairSum (List.zipWith (fun x y => x + y) as bs) ws =
      (a * w + pairSum as ws) + (b * w + pairSum bs ws)
    rw [pairSum_add_left as bs ws (by simpa using h)]
    ring

theorem pairSum_range_map {F : Type} [Field F] :
    ∀ (ps : List F) (w : ℕ → F),
      pairSum ps ((List.range ps.length).map w) =
        ((List.range ps.length).map fun j => ps.getD j 0 * w j).sum
  | [], w => rfl
  | p :: ps, w => by
    rw [List.length_cons, List.range_succ_eq_map, List.map_cons,
      List.map_cons, List.map_map, List.map_map, pairSum_cons,
      List.sum_cons]
    exact congrArg (fun s => p * w 0 + s)
      (pairSum_range_map ps (fun j => w (j + 1)))

theorem setup_powers_slice {F : Type} [Field F] (n hb : ℕ)
    (rng : ℕ → F) (i : ℕ) (hi : i < n) :
    ((zkml_setup_value n hb rng).1.powers_of_g).getD i [] =
      eqSlice (rng 0) (fun j => rng (2 + j)) i (n - i) := by
  show ((List.range n).map fun i2 =>
    (List.range (2 ^ (n - i2))).map fun x =>
      rng 0 * ((setup_eq_arr (fun j => rng (2 + j)) n).getD i2 []).getD
        x 0).getD i [] = _
  rw [getD_range_map _ n i [] hi]
  unfold eqSlice
  apply List.map_congr_left
  intro x hx
  rw [List.mem_range] at hx
  rw [(setup_eq_arr_facts (fun j => rng (2 + j)) n i hi).2 x hx]

theorem msm_eqSlice_full {F : Type} [Field F] (g : F) (t : ℕ → F)
    (n : ℕ) (e : List F) (he : e.length = 2 ^ n) :
    msmList (eqSlice g t 0 n) e = g * wSum t 0 n e := by
  unfold eqSlice wSum
  rw [show (2:ℕ) ^ n = e.length from he.symm, msmList_range_map,
    list_range_map_sum, list_range_map_sum, Finset.mul_sum]
  apply Finset.sum_congr rfl
  intro x _
  ring

/-- C1 (amended): completeness of the hiding commitment scheme holds
with the claimed value equal to the base polynomial's evaluation alone:
for every variable count `n ≥ 1`, hiding bound `≥ 1`, evaluation table
of length `2 ^ n`, point and randomness streams, after setup and trim
to `n` variables, `check(vk, commit(...), p, f(p), open(...))` returns
true, where `f(p)` is the multilinear evaluation `mleEval` — the check
subtracts the mask evaluation carried in the proof itself, so the mask
does not shift the claimed value. -/
theorem C1_zkml_completeness {F : Type} [Field F] [DecidableEq F]
    (n hb : ℕ) (rng maskRng z : ℕ → F) (e : List F)
    (h1 : 1 ≤ n) (h2 : 1 ≤ hb) (he : e.length = 2 ^ n) :
    zkml_setup n hb rng = Res.ok (zkml_setup_value n hb rng) ∧
    ∃ ck vk, zkml_trim (zkml_setup_value n hb rng) n hb =
        Res.ok (ck, vk) ∧
      zkml_check vk (zkml_commit ck e n hb none maskRng).1 z
        (mleEval z n e)
        (zkml_open ck e (zkml_commit ck e n hb none maskRng).2 n z) =
        true := by
  refine ⟨zkml_setup_ok n hb rng h1 h2, ?_⟩
  obtain ⟨ck, vk, htrim, hckg, hcknv, hmaskck, hvknv, hvkg, hvkh,
    hvkmask, hvkpst⟩ := zkml_trim_setup_facts n hb rng
  refine ⟨ck, vk, htrim, ?_⟩
  have hshape := generate_mask_shape maskRng n hb
  have hwfph : PolyWF n (generate_mask_polynomial maskRng n hb false) :=
    maskShape_polyWF hshape
  have hgp : (zkml_commit ck e n hb none maskRng).1.g_product =
      rng 0 * wSum (fun j => rng (2 + j)) 0 n e +
      rng (2 + n) * sparse_evaluate
        (generate_mask_polynomial maskRng n hb false)
        (fun j => rng (2 + j)) := by
    show msmList (ck.1.powers_of_g.getD 0 []) e +
      commit_mask ck.2 (generate_mask_polynomial maskRng n hb false) = _
    rw [hckg, setup_powers_slice n hb rng 0 (by omega), Nat.sub_zero,
      msm_eqSlice_full (rng 0) (fun j => rng (2 + j)) n e he,
      commit_mask_eval ck.2 (rng (2 + n)) (fun j => rng (2 + j)) n hb
        hmaskck _ hshape]
  have hlenbase : (ml_open ck.1 e z).length = n := by
    have hl : (ml_open ck.1 e z).length = ck.1.nv :=
      ml_open_loop_length z ck.1.powers_of_g ck.1.nv 0 e
    rw [hl, hcknv]
  have hlendiv : (divide_at_point n
      (generate_mask_polynomial maskRng n hb false) z).length = n :=
    (divide_at_point_identity n _ z hwfph).2
  have hlenmask : (special_open ck.2
      (generate_mask_polynomial maskRng n hb false) n z).length = n := by
    unfold special_open
    rw [List.length_map]
    exact hlendiv
  have htabs : ∀ j, j < n → ck.1.powers_of_g.getD (0 + j) [] =
      eqSlice (rng 0) (fun j2 => rng (2 + j2)) (0 + j) (n - j) := by
    intro j hj
    rw [Nat.zero_add, hckg, setup_powers_slice n hb rng j hj]
  have hbase : pairSum (ml_open ck.1 e z)
      ((List.range n).map fun j =>
        rng 1 * (rng (2 + (0 + j)) - z (0 + j))) =
      rng 0 * rng 1 * (wSum (fun j => rng (2 + j)) 0 n e -
        mleEvalFrom z 0 n e) := by
    have hml : ml_open ck.1 e z =
        ml_open_loop z ck.1.powers_of_g 0 n e := by
      show ml_open_loop z ck.1.powers_of_g 0 ck.1.nv e = _
      rw [hcknv]
    rw [hml]
    exact ml_loop_pair z (fun j => rng (2 + j)) (rng 0) (rng 1)
      ck.1.powers_of_g n 0 e he htabs
  have hmaskp : pairSum (special_open ck.2
      (generate_mask_polynomial maskRng n hb false) n z)
      ((List.range n).map fun j =>
        rng 1 * (rng (2 + (0 + j)) - z (0 + j))) =
      rng (2 + n) * rng 1 *
        (sparse_evaluate (generate_mask_polynomial maskRng n hb false)
          (fun j => rng (2 + j)) -
         sparse_evaluate (generate_mask_polynomial maskRng n hb false)
          z) := by
    rw [show ((List.range n).map fun j =>
        rng 1 * (rng (2 + (0 + j)) - z (0 + j))) =
      ((List.range ((special_open ck.2
        (generate_mask_polynomial maskRng n hb false) n z).length)).map
          fun j => rng 1 * (rng (2 + (0 + j)) - z (0 + j))) from by
        rw [hlenmask],
      pairSum_range_map, hlenmask, list_range_map_sum]
    have hsummand : ∀ j ∈ Finset.range n,
        (special_open ck.2
          (generate_mask_polynomial maskRng n hb false) n z).getD j 0 *
          (rng 1 * (rng (2 + (0 + j)) - z (0 + j))) =
        rng (2 + n) * rng 1 *
          (sparse_evaluate ((divide_at_point n
            (generate_mask_polynomial maskRng n hb false) z).getD j [])
              (fun j2 => rng (2 + j2)) *
            ((fun j2 => rng (2 + j2)) j - z j)) := by
      intro j _
      rw [special_open_entry ck.2 (rng (2 + n)) (fun j2 => rng (2 + j2))
        n hb hmaskck (generate_mask_polynomial maskRng n hb false) n z
        hshape j, Nat.zero_add]
      ring
    rw [Finset.sum_congr rfl hsummand, ← Finset.mul_sum,
      ← divide_eval n (generate_mask_polynomial maskRng n hb false) z
        (fun j2 => rng (2 + j2)) hwfph]
  simp only [zkml_check]
  rw [decide_eq_true_eq]
  have hpf1 : (zkml_open ck e (zkml_commit ck e n hb none maskRng).2
      n z).1 =
      List.zipWith (fun a b => a + b) (ml_open ck.1 e z)
        (special_open ck.2
          (generate_mask_polynomial maskRng n hb false) n z) := rfl
  have hpf2 : (zkml_open ck e (zkml_commit ck e n hb none maskRng).2
      n z).2 =
      sparse_evaluate (generate_mask_polynomial maskRng n hb false) z :=
    rfl
  rw [hpf1, hpf2, hgp, hvkg, hvkh, hvkpst, hvknv, hvkmask]
  have hrights : (List.range n).map (fun i =>
      ((List.range n).map (fun i2 => rng 1 * rng (2 + i2))).getD i 0 -
        rng 1 * z i) =
      (List.range n).map (fun j =>
        rng 1 * (rng (2 + (0 + j)) - z (0 + j))) := by
    apply List.map_congr_left
    intro i hi
    rw [List.mem_range] at hi
    rw [getD_range_map _ n i 0 hi, Nat.zero_add]
    ring
  rw [hrights]
  rw [show (List.zipWith (fun l r => l * r)
      (List.zipWith (fun a b => a + b) (ml_open ck.1 e z)
        (special_open ck.2
          (generate_mask_polynomial maskRng n hb false) n z))
      ((List.range n).map fun j =>
        rng 1 * (rng (2 + (0 + j)) - z (0 + j)))).sum =
    pairSum (List.zipWith (fun a b => a + b) (ml_open ck.1 e z)
      (special_open ck.2
        (generate_mask_polynomial maskRng n hb false) n z))
      ((List.range n).map fun j =>
        rng 1 * (rng (2 + (0 + j)) - z (0 + j))) from rfl]
  rw [pairSum_add_left (ml_open ck.1 e z)
      (special_open ck.2
        (generate_mask_polynomial maskRng n hb false) n z)
      ((List.range n).map fun j =>
        rng 1 * (rng (2 + (0 + j)) - z (0 + j)))
      (by rw [hlenbase, hlenmask]),
    hbase, hmaskp,
    show mleEval z n e = mleEvalFrom z 0 n e from rfl]
  ring

/-- C1 (counterexample to the claim as stated): in the concrete
pipeline instance (one variable, hiding bound one), `check` rejects the
claimed value `f(p) + mask(p)`; the accepted value is `f(p)` alone. -/
theorem C1_check_counterexample :
    zkml_check vkC commitC.1 zC
      (mleEval zC 1 eC + sparse_evaluate p_hatC zC) openC = false := by
  decide

theorem C1_zkml_completeness_witness :
    (1 ≤ 1 ∧ 1 ≤ 1 ∧ eC.length = 2 ^ 1) ∧
      (zkml_setup 1 1 rngC = Res.ok (zkml_setup_value 1 1 rngC) ∧
        ∃ ck vk, zkml_trim (zkml_setup_value 1 1 rngC) 1 1 =
            Res.ok (ck, vk) ∧
          zkml_check vk (zkml_commit ck eC 1 1 none maskRngC).1 zC
            (mleEval zC 1 eC)
            (zkml_open ck eC (zkml_commit ck eC 1 1 none maskRngC).2
              1 zC) = true) :=
  ⟨⟨by decide, by decide, by decide⟩,
    C1_zkml_completeness 1 1 rngC maskRngC zC eC (by decide) (by decide)
      (by decide)⟩
